import Mathlib

/-! Lights Out: bit-board toggle rule and GF(2) solver.

A shallow embedding of `src/src/LightsOutBoard.hpp`.

A `std::bitset<WIDTH * HEIGHT>` is a natural number below `2 ^ (W * H)`; bit `i` of the
bitset is `Nat.testBit _ i`.  A `std::vector<BOARD_TYPE>` is a `List Nat`, read with
`List.getD _ _ 0` and written with `List.set`.  Counted `for` loops are folds over the list
of their indices, the one `while` loop carries a fuel argument that is shown to suffice.
Mutable members are passed explicitly: `flipBitset` takes the board and returns the new
board, `rowReduce` returns the three members it assigns, `solveLinAlg` returns the board it
assigns.
-/

namespace LightsOut

/-! ## Fixed-width bit vectors -/

/-- Left shift of `std::bitset<n>`: bits moved to index `n` or above are dropped. -/
def bsShl (n x k : Nat) : Nat := (x <<< k) % 2 ^ n

/-- Right shift of `std::bitset<n>`. -/
def bsShr (x k : Nat) : Nat := x >>> k

/-- Complement of `std::bitset<n>`: every one of the `n` bits is inverted. -/
def bsNot (n x : Nat) : Nat := (2 ^ n - 1) ^^^ x

/-- The assignment `bits[i] = true`. -/
def bsSet (x i : Nat) : Nat := x ||| (1 <<< i)

/-- The assignment `bits[i] = v`. -/
def bsAssign (n x i : Nat) (v : Bool) : Nat :=
  if v then x ||| (1 <<< i) else x &&& bsNot n (1 <<< i)

/-- Number of set bits, `std::bitset<n>::count`. -/
def bsCount (n x : Nat) : Nat := (List.range n).countP (fun i => x.testBit i)

/-! ## Bit-board layer -/

/-- The loop of `getLeftEdgeMask`: `for (location = 0; location < N; location += W)`. -/
def leftEdgeLoop (W N : Nat) : Nat → Nat → Nat → Nat
  | 0, _, mask => mask
  | fuel + 1, location, mask =>
    if location < N then leftEdgeLoop W N fuel (location + W) (bsSet mask location) else mask

/-- Mask of the first column, `getLeftEdgeMask`. -/
def getLeftEdgeMask (W H : Nat) : Nat := leftEdgeLoop W (W * H) (W * H) 0 0

/-- Mask of the last column, `getRightEdgeMask`. -/
def getRightEdgeMask (W H : Nat) : Nat := bsShl (W * H) (getLeftEdgeMask W H) (W - 1)

/-- The method `flipBitset`: five XORs into the board. -/
def flipBitset (W H board otherBoard : Nat) : Nat :=
  let board := board ^^^ otherBoard
  let board := board ^^^ bsShl (W * H) otherBoard W
  let board := board ^^^ bsShr otherBoard W
  let board := board ^^^ bsShr (otherBoard &&& bsNot (W * H) (getLeftEdgeMask W H)) 1
  let board := board ^^^ bsShl (W * H) (otherBoard &&& bsNot (W * H) (getRightEdgeMask W H)) 1
  board

/-- The method `flip`: a one-bit board at `location` goes through `flipBitset`. -/
def flip (W H board location : Nat) : Nat :=
  flipBitset W H board (bsSet 0 location)

/-- The method `flipBoard`: the state of the other board goes through `flipBitset`. -/
def flipBoard (W H board other : Nat) : Nat :=
  flipBitset W H board other

/-- Replay of a move vector: `flip(i)` for every set bit `i` of `x`, in ascending order. -/
def pressAll (W H board x : Nat) : Nat :=
  (List.range (W * H)).foldl (fun bd i => if x.testBit i then flip W H bd i else bd) board

/-! ## Toggle matrix -/

/-- Body of the loop of `buildMatrix` for row `i`. -/
def buildRow (W H : Nat) (v : List Nat) (i : Nat) : List Nat :=
  let otherBoard := bsSet 0 i
  let v := v.set i (v.getD i 0 ^^^ otherBoard)
  let v := v.set i (v.getD i 0 ^^^ bsShl (W * H) otherBoard W)
  let v := v.set i (v.getD i 0 ^^^ bsShr otherBoard W)
  let v := v.set i (v.getD i 0 ^^^ bsShr (otherBoard &&& bsNot (W * H) (getLeftEdgeMask W H)) 1)
  let v := v.set i (v.getD i 0 ^^^ bsShl (W * H) (otherBoard &&& bsNot (W * H) (getRightEdgeMask W H)) 1)
  v

/-- The method `buildMatrix`. -/
def buildMatrix (W H : Nat) : List Nat :=
  (List.range (W * H)).foldl (buildRow W H) (List.replicate (W * H) 0)

/-! ## Row reduction -/

/-- The method `findPivot`: first row at or after `startRow` with a 1 in `pivotCol`,
or `n` when there is none. -/
def findPivot (n : Nat) (boardMatrix : List Nat) (startRow pivotCol : Nat) : Nat :=
  ((List.range' startRow (n - startRow)).find?
    (fun row => (boardMatrix.getD row 0).testBit pivotCol)).getD n

/-- The statement `m[dst] ^= m[src]`. -/
def xorRow (m : List Nat) (dst src : Nat) : List Nat :=
  m.set dst (m.getD dst 0 ^^^ m.getD src 0)

/-- The three-XOR swap of rows `pivotRow` and `nextFreeRow`. -/
def swapRows (m : List Nat) (pivotRow nextFreeRow : Nat) : List Nat :=
  xorRow (xorRow (xorRow m pivotRow nextFreeRow) nextFreeRow pivotRow) pivotRow nextFreeRow

/-- The working matrix and its companion. -/
structure Mats where
  boardMatrix : List Nat
  identity : List Nat
deriving Repr, DecidableEq

/-- Body of both elimination loops: if row `row` has a 1 in column `col`, XOR row `src`
into it, in the working matrix and in the companion. -/
def elimStep (col src : Nat) (s : Mats) (row : Nat) : Mats :=
  if (s.boardMatrix.getD row 0).testBit col then
    { boardMatrix := xorRow s.boardMatrix row src, identity := xorRow s.identity row src }
  else s

/-- The identity matrix built at the start of `rowReduce`. -/
def identityMatrix (n : Nat) : List Nat :=
  (List.range n).foldl (fun v i => v.set i (bsSet (v.getD i 0) i)) (List.replicate n 0)

/-- Body of the forward loop of `rowReduce` for column `col`; the state is the two
matrices and `nextFreeRow`. -/
def forwardStep (n : Nat) (s : Mats × Nat) (col : Nat) : Mats × Nat :=
  let nextFreeRow := s.2
  let pivotRow := findPivot n s.1.boardMatrix nextFreeRow col
  if pivotRow = n then s else
    let m : Mats := if pivotRow ≠ nextFreeRow then
        { boardMatrix := swapRows s.1.boardMatrix pivotRow nextFreeRow,
          identity := swapRows s.1.identity pivotRow nextFreeRow }
      else s.1
    let m := (List.range' (pivotRow + 1) (n - (pivotRow + 1))).foldl (elimStep col nextFreeRow) m
    (m, nextFreeRow + 1)

/-- The forward pass of `rowReduce`. -/
def forwardPass (n : Nat) (boardMatrix : List Nat) : Mats × Nat :=
  (List.range n).foldl (forwardStep n)
    ({ boardMatrix := boardMatrix, identity := identityMatrix n }, 0)

/-- The loop `while ((boardMatrix[row] << k).any()) { freeCol.push_back(N - k); ++k; }`,
with fuel. -/
def freeColLoop (n row : Nat) : Nat → Nat → List Nat → Nat × List Nat
  | 0, k, freeCol => (k, freeCol)
  | fuel + 1, k, freeCol =>
    if bsShl n row k ≠ 0 then freeColLoop n row fuel (k + 1) (freeCol ++ [n - k])
    else (k, freeCol)

/-- State of the backward loop of `rowReduce`. -/
structure Back where
  m : Mats
  pivotMark : Nat
  k : Nat
  freeCol : List Nat
deriving Repr, DecidableEq

/-- Body of the backward loop of `rowReduce` for row `row`. -/
def backwardStep (n : Nat) (s : Back) (row : Nat) : Back :=
  if s.m.boardMatrix.getD row 0 = 0 then s else
    let r := freeColLoop n (s.m.boardMatrix.getD row 0) (n + 1) s.k s.freeCol
    let pivotMark := n - r.1
    let k := r.1 + 1
    let m := (List.range row).reverse.foldl (elimStep pivotMark row) s.m
    { m := m, pivotMark := pivotMark, k := k, freeCol := r.2 }

/-- The backward pass of `rowReduce`; `k` starts at `W*H - pivotMark = 1`. -/
def backwardPass (n : Nat) (m : Mats) : Back :=
  (List.range n).reverse.foldl (backwardStep n)
    { m := m, pivotMark := n - 1, k := 1, freeCol := [] }

/-- The members assigned by `rowReduce`. -/
structure LinAlg where
  nullSpace : List Nat
  boardMatrix : List Nat
  invMatrix : List Nat
deriving Repr, DecidableEq

/-- The method `rowReduce`. -/
def rowReduce (W H : Nat) : LinAlg :=
  let n := W * H
  let f := forwardPass n (buildMatrix W H)
  let b := backwardPass n f.1
  let invMatrix := b.m.identity
  { boardMatrix := b.m.boardMatrix, invMatrix := invMatrix,
    nullSpace := b.freeCol.map (fun i => invMatrix.getD i 0) }

/-! ## Solver -/

/-- The method `matrixMulti`: bit `i` of the result is the parity of `inv[i] & b`. -/
def matrixMulti (n : Nat) (inv : List Nat) (b : Nat) : Nat :=
  (List.range n).foldl (fun res i => bsAssign n res i (bsCount n (inv.getD i 0 &&& b) % 2 != 0)) 0

/-- The solvability check of `solveLinAlg`: true when "no perfect solution" is printed. -/
def noPerfectSolution (n : Nat) (nullSpace : List Nat) (b : Nat) : Bool :=
  (List.range nullSpace.length).any (fun i => bsCount n (nullSpace.getD i 0 &&& b) % 2 != 0)

/-- The inner loop of the subset search: XOR of the null-space vectors selected by `bs`. -/
def genSol (nullSpace : List Nat) (bs : Nat) : Nat :=
  (List.range nullSpace.length).foldl
    (fun g j => if bs.testBit j then g ^^^ nullSpace.getD j 0 else g) 0

/-- Body of the subset loop of `solveLinAlg` for subset index `i`; `bs` is a
`std::bitset<20>`. -/
def searchStep (n : Nat) (nullSpace : List Nat) (parSol i : Nat) : Nat :=
  let bs := i % 2 ^ 20
  let g := genSol nullSpace bs
  let g := g ^^^ parSol
  if bsCount n parSol > bsCount n g then g else parSol

/-- The method `solveLinAlg(b)`: the value it assigns to `board`. -/
def solveLinAlg (W H : Nat) (s : LinAlg) (b : Nat) : Nat :=
  let n := W * H
  if s.nullSpace.length = 0 then
    matrixMulti n s.invMatrix b
  else
    let parSol := matrixMulti n s.invMatrix b
    (List.range (2 ^ s.nullSpace.length)).foldl (searchStep n s.nullSpace) parSol

/-- The method `numberOfNullSpace`. -/
def numberOfNullSpace (s : LinAlg) : Nat := s.nullSpace.length

/-! ## Proof devices -/

/-- Bit `j` of the toggle pattern of the press set `o` (proof device). -/
def toggleBit (W o j : Nat) : Bool :=
  xor (o.testBit j) (xor (decide (W ≤ j) && o.testBit (j - W)) (xor (o.testBit (j + W))
    (xor (o.testBit (j + 1) && decide ((j + 1) % W ≠ 0))
      (decide (1 ≤ j) && decide (j % W ≠ 0) && o.testBit (j - 1)))))

/-- Adjacency of the toggle rule on flat indices: pressing cell `i` toggles cell `j`
(proof device). -/
def adj (W i j : Nat) : Bool :=
  decide (i = j) || decide (i + W = j) || decide (j + W = i)
    || (decide (i = j + 1) && decide (i % W ≠ 0))
    || (decide (i + 1 = j) && decide (j % W ≠ 0))

/-- The horizontal part of the toggle pattern: the cells and their left and right
neighbours (proof device). -/
def hflip (W H x : Nat) : Nat :=
  x ^^^ bsShr (x &&& bsNot (W * H) (getLeftEdgeMask W H)) 1
    ^^^ bsShl (W * H) (x &&& bsNot (W * H) (getRightEdgeMask W H)) 1

/-- The vertical part of the toggle pattern: the neighbours above and below (proof
device). -/
def vflip (W H x : Nat) : Nat := bsShl (W * H) x W ^^^ bsShr x W

/-- A bit as an element of GF(2) (proof device). -/
def b2z (b : Bool) : ZMod 2 := if b then 1 else 0

/-- A bit vector of length `n` as a vector over GF(2) (proof device). -/
def toVec (n : Nat) (x : Nat) : Fin n → ZMod 2 := fun j => b2z (x.testBit j)

/-- A list of `n` bit vectors as an `n x n` matrix over GF(2) (proof device). -/
def toMat (n : Nat) (m : List Nat) : Matrix (Fin n) (Fin n) (ZMod 2) :=
  Matrix.of (fun i j => b2z ((m.getD i 0).testBit j))

/-- The bit vector with bit `j` set when `v j = 1` (proof device). -/
def ofVec : (n : Nat) → (Fin n → ZMod 2) → Nat
  | 0, _ => 0
  | n + 1, v => ofVec n (fun j => v j.castSucc) + (if v (Fin.last n) = 1 then 2 ^ n else 0)

/-- Invariant of the pair (working matrix, companion) during `rowReduce`: both have
`W * H` rows of `W * H` bits, the companion times the toggle matrix is the working matrix,
and the companion has determinant 1 (proof device). -/
def Good (W H : Nat) (s : Mats) : Prop :=
  s.boardMatrix.length = W * H ∧ s.identity.length = W * H ∧
  (∀ i, s.boardMatrix.getD i 0 < 2 ^ (W * H)) ∧ (∀ i, s.identity.getD i 0 < 2 ^ (W * H)) ∧
  toMat (W * H) s.identity * toMat (W * H) (buildMatrix W H) = toMat (W * H) s.boardMatrix ∧
  (toMat (W * H) s.identity).det = 1

/-- Invariant of the forward loop of `rowReduce` before column `col`: rows above
`nextFreeRow` carry their pivot on the diagonal with nothing to its left, rows from
`nextFreeRow` on are clear in the columns already visited, and either every column so
far had a pivot or the remaining rows are zero (proof device). -/
def FwdInv (W H col : Nat) (s : Mats × Nat) : Prop :=
  Good W H s.1 ∧ s.2 ≤ col ∧ s.2 ≤ W * H ∧
  (∀ i, i < s.2 → (s.1.boardMatrix.getD i 0).testBit i = true ∧
    ∀ j, j < i → (s.1.boardMatrix.getD i 0).testBit j = false) ∧
  (∀ i, s.2 ≤ i → ∀ j, j < col → (s.1.boardMatrix.getD i 0).testBit j = false) ∧
  (s.2 = col ∨ ∀ i, s.2 ≤ i → s.1.boardMatrix.getD i 0 = 0)

/-- The list `[n - 1, n - 2, ..., r]` (proof device). -/
def descList (n r : Nat) : List Nat := (List.range' r (n - r)).reverse

/-- Invariant of the backward loop of `rowReduce` when rows `t, ..., W * H - 1` have been
visited; `r` is the number of nonzero rows left by the forward pass (proof device). -/
def BackInv (W H r t : Nat) (s : Back) : Prop :=
  Good W H s.m ∧
  (∀ i, r ≤ i → s.m.boardMatrix.getD i 0 = 0) ∧
  (∀ i, i < r → (s.m.boardMatrix.getD i 0).testBit i = true ∧
    ∀ j, j < i → (s.m.boardMatrix.getD i 0).testBit j = false) ∧
  (∀ c, t ≤ c → c < r → ∀ i, i ≠ c → (s.m.boardMatrix.getD i 0).testBit c = false) ∧
  ((r ≤ t ∧ s.k = 1 ∧ s.freeCol = []) ∨
    (t < r ∧ s.k = W * H - t + 1 ∧ s.freeCol = descList (W * H) r))

/-- Forward step as the specification words it: after the swap, row `nextFreeRow` is
XOR-ed into every row below `nextFreeRow` that has a 1 in column `col` (the source starts
that loop at `pivotRow + 1`, see `forwardStep`). -/
def forwardStepSpec (n : Nat) (s : Mats × Nat) (col : Nat) : Mats × Nat :=
  let nextFreeRow := s.2
  let pivotRow := findPivot n s.1.boardMatrix nextFreeRow col
  if pivotRow = n then s else
    let m : Mats := if pivotRow ≠ nextFreeRow then
        { boardMatrix := swapRows s.1.boardMatrix pivotRow nextFreeRow,
          identity := swapRows s.1.identity pivotRow nextFreeRow }
      else s.1
    let m := (List.range' (nextFreeRow + 1) (n - (nextFreeRow + 1))).foldl
      (elimStep col nextFreeRow) m
    (m, nextFreeRow + 1)

/-- State of the forward loop of `rowReduce` on the `W x H` grid just before column `col`
is visited (proof device). -/
def forwardState (W H col : Nat) : Mats × Nat :=
  (List.range col).foldl (forwardStep (W * H))
    ({ boardMatrix := buildMatrix W H, identity := identityMatrix (W * H) }, 0)

/-- XOR of the rows `a[j]` over the set bits `j < n` of `e`: row vector `e` times the
matrix `a` over GF(2) (proof device). -/
def xorRows (n : Nat) (a : List Nat) (e : Nat) : Nat :=
  (List.range n).foldl (fun acc j => if e.testBit j then acc ^^^ a.getD j 0 else acc) 0

/-- Companion invariant: every companion row, applied to the rows of the toggle matrix,
gives the same row of the working matrix (proof device). -/
def CompanionInv (W H : Nat) (s : Mats) : Prop :=
  ∀ i, i < W * H →
    xorRows (W * H) (buildMatrix W H) (s.identity.getD i 0) = s.boardMatrix.getD i 0

/-- Column `p` is the pivot of the row `m`: its lowest set bit (proof device). -/
def IsPivot (m p : Nat) : Prop := m.testBit p = true ∧ ∀ j, j < p → m.testBit j = false

/-- Reduced row-echelon form of the first `n` rows of `m`: zero rows come last, pivots
strictly increase downwards, and a pivot column has its only 1 in the pivot row (proof
device). -/
def IsRREF (n : Nat) (m : List Nat) : Prop :=
  (∀ i i', i < i' → i' < n → m.getD i 0 = 0 → m.getD i' 0 = 0) ∧
  (∀ i i' p p', i < i' → i' < n → IsPivot (m.getD i 0) p → IsPivot (m.getD i' 0) p' →
    p < p') ∧
  (∀ i p, i < n → IsPivot (m.getD i 0) p →
    ∀ i', i' < n → i' ≠ i → (m.getD i' 0).testBit p = false)

/-! ## Bits of the bit-vector operations -/

theorem testBit_bsShl (n x k j : Nat) :
    (bsShl n x k).testBit j = (decide (j < n) && (decide (k ≤ j) && x.testBit (j - k))) := by
  simp [bsShl, Nat.testBit_mod_two_pow, Nat.testBit_shiftLeft]

theorem testBit_bsShr (x k j : Nat) : (bsShr x k).testBit j = x.testBit (k + j) := by
  simp [bsShr, Nat.testBit_shiftRight]

theorem testBit_bsNot (n x j : Nat) :
    (bsNot n x).testBit j = xor (decide (j < n)) (x.testBit j) := by
  simp [bsNot, Nat.testBit_xor, Nat.testBit_two_pow_sub_one]

theorem testBit_bsSet (x i j : Nat) :
    (bsSet x i).testBit j = (x.testBit j || decide (i = j)) := by
  simp [bsSet, Nat.testBit_or, Nat.one_shiftLeft, Nat.testBit_two_pow]

theorem bsSet_zero (i : Nat) : bsSet 0 i = 2 ^ i := by
  simp [bsSet, Nat.one_shiftLeft]

theorem testBit_leftEdgeLoop (W N : Nat) (hW : 0 < W) :
    ∀ (fuel location mask j : Nat),
      (leftEdgeLoop W N fuel location mask).testBit j =
        (mask.testBit j || decide (location ≤ j ∧ j < N ∧ (j - location) % W = 0
          ∧ j < location + W * fuel)) := by
  intro fuel
  induction fuel with
  | zero =>
    intro location mask j
    simp [leftEdgeLoop]
    intro h1 _ _
    omega
  | succ fuel ih =>
    intro location mask j
    unfold leftEdgeLoop
    split
    · rename_i hloc
      rw [ih, testBit_bsSet]
      rcases Nat.lt_trichotomy j location with hj | hj | hj
      · have h1 : ¬ (location ≤ j) := by omega
        have h2 : ¬ (location + W ≤ j) := by omega
        have h3 : ¬ (location = j) := by omega
        simp [h1, h2, h3]
      · subst hj
        have h2 : ¬ (j + W ≤ j) := by omega
        have h4 : j < j + W * (fuel + 1) := by
          have : 0 < W * (fuel + 1) := Nat.mul_pos hW (Nat.succ_pos _)
          omega
        simp [h2, hloc, h4]
      · have h3 : ¬ (location = j) := by omega
        have h1 : location ≤ j := by omega
        by_cases h5 : location + W ≤ j
        · have h6 : (j - location) % W = (j - (location + W)) % W := by
            have : j - location = (j - (location + W)) + W := by omega
            rw [this, Nat.add_mod_right]
          have h7 : (j < location + W + W * fuel) ↔ (j < location + W * (fuel + 1)) := by
            rw [Nat.mul_succ]; omega
          simp [h3, h1, h5, h6, h7]
        · have h6 : (j - location) % W ≠ 0 := by
            rw [Nat.mod_eq_of_lt (by omega)]; omega
          simp [h3, h5, h6]
    · rename_i hloc
      have : ¬ (location ≤ j ∧ j < N ∧ (j - location) % W = 0 ∧ j < location + W * (fuel + 1)) := by
        intro h; omega
      simp [this]

theorem testBit_getLeftEdgeMask (W H j : Nat) (hW : 0 < W) :
    (getLeftEdgeMask W H).testBit j = decide (j < W * H ∧ j % W = 0) := by
  unfold getLeftEdgeMask
  rw [testBit_leftEdgeLoop W (W * H) hW]
  simp
  by_cases hj : j < W * H
  · have : j < W * (W * H) := by
      calc j < W * H := hj
        _ = 1 * (W * H) := (Nat.one_mul _).symm
        _ ≤ W * (W * H) := Nat.mul_le_mul_right _ hW
    simp [hj, this]
  · simp [hj]

theorem mod_pred_iff (W j : Nat) (hW : 0 < W) :
    (W - 1 ≤ j ∧ (j - (W - 1)) % W = 0) ↔ j % W = W - 1 := by
  constructor
  · rintro ⟨h1, h2⟩
    have h3 : j = (j - (W - 1)) + (W - 1) := by omega
    have h4 := Nat.div_add_mod (j - (W - 1)) W
    rw [h2] at h4
    rw [h3, ← h4]
    simp only [Nat.add_zero]
    rw [Nat.mul_add_mod]
    exact Nat.mod_eq_of_lt (by omega)
  · intro h
    have h4 := Nat.div_add_mod j W
    rw [h] at h4
    constructor
    · omega
    · have : j - (W - 1) = W * (j / W) := by omega
      rw [this]
      exact Nat.mul_mod_right _ _

theorem testBit_getRightEdgeMask (W H j : Nat) (hW : 0 < W) :
    (getRightEdgeMask W H).testBit j = decide (j < W * H ∧ j % W = W - 1) := by
  unfold getRightEdgeMask
  rw [testBit_bsShl, testBit_getLeftEdgeMask W H _ hW]
  have key := mod_pred_iff W j hW
  by_cases hj : j < W * H
  · have hlt : j - (W - 1) < W * H := by omega
    by_cases hm : j % W = W - 1
    · have := key.mpr hm
      simp [hj, hm, this.1, this.2, hlt]
    · have h2 : ¬ (W - 1 ≤ j ∧ (j - (W - 1)) % W = 0) := fun h => hm (key.mp h)
      simp [hj, hm]
      intro h3 _
      exact fun h4 => h2 ⟨by omega, h4⟩
  · simp [hj]

theorem testBit_of_lt {x n j : Nat} (hx : x < 2 ^ n) (hj : n ≤ j) : x.testBit j = false :=
  Nat.testBit_lt_two_pow (Nat.lt_of_lt_of_le hx (Nat.pow_le_pow_right (by decide) hj))

theorem succ_mod_zero (W j : Nat) (hW : 0 < W) : (j + 1) % W = 0 ↔ j % W = W - 1 := by
  have h := Nat.div_add_mod j W
  have hr := Nat.mod_lt j hW
  by_cases hc : j % W = W - 1
  · have : j + 1 = W * (j / W + 1) := by rw [Nat.mul_succ]; omega
    simp [hc, this]
  · have h2 : j + 1 = W * (j / W) + (j % W + 1) := by omega
    have h3 : (j + 1) % W = j % W + 1 := by
      rw [h2, Nat.mul_add_mod]
      exact Nat.mod_eq_of_lt (by omega)
    simp [hc]
    omega

theorem flipBitset_xor (W H b o : Nat) : flipBitset W H b o = b ^^^ flipBitset W H 0 o := by
  simp only [flipBitset, Nat.zero_xor, Nat.xor_assoc]

theorem testBit_flipBitset_zero (W H o j : Nat) (hW : 0 < W) (ho : o < 2 ^ (W * H)) :
    (flipBitset W H 0 o).testBit j = (decide (j < W * H) && toggleBit W o j) := by
  unfold flipBitset toggleBit
  simp only [Nat.zero_xor, Nat.testBit_xor, testBit_bsShl, testBit_bsShr, Nat.testBit_and,
    testBit_bsNot, testBit_getLeftEdgeMask W H _ hW, testBit_getRightEdgeMask W H _ hW]
  by_cases hj : j < W * H
  · have e1 : o.testBit (W + j) = o.testBit (j + W) := by rw [Nat.add_comm]
    have e2 : o.testBit (1 + j) = o.testBit (j + 1) := by rw [Nat.add_comm]
    have e3 : (1 + j) % W = (j + 1) % W := by rw [Nat.add_comm]
    rw [e1, e2, e3]
    have t4 : (o.testBit (j + 1) && xor (decide (1 + j < W * H)) (decide (1 + j < W * H ∧ (j + 1) % W = 0)))
        = (o.testBit (j + 1) && decide ((j + 1) % W ≠ 0)) := by
      by_cases h1 : 1 + j < W * H
      · by_cases h2 : (j + 1) % W = 0 <;> simp [h1, h2]
      · have : o.testBit (j + 1) = false := testBit_of_lt ho (by omega)
        simp [this]
    have t5 : (decide (1 ≤ j) && (o.testBit (j - 1) &&
          xor (decide (j - 1 < W * H)) (decide (j - 1 < W * H ∧ (j - 1) % W = W - 1))))
        = (decide (1 ≤ j) && decide (j % W ≠ 0) && o.testBit (j - 1)) := by
      by_cases h1 : 1 ≤ j
      · have h2 : j - 1 < W * H := by omega
        have h3 := succ_mod_zero W (j - 1) hW
        have h4 : j - 1 + 1 = j := by omega
        rw [h4] at h3
        by_cases h5 : j % W = 0
        · have := h3.mp h5
          simp [h1, h2, h5, this]
        · have : ¬ ((j - 1) % W = W - 1) := fun h => h5 (h3.mpr h)
          simp [h1, h2, h5, this, Bool.and_comm]
      · simp [h1]
    rw [t4, t5]
    simp [hj]
  · have h0 : o.testBit j = false := testBit_of_lt ho (by omega)
    have h1 : o.testBit (W + j) = false := testBit_of_lt ho (by omega)
    have h2 : o.testBit (1 + j) = false := testBit_of_lt ho (by omega)
    simp [hj, h0, h1, h2]

theorem testBit_flipBitset (W H b o j : Nat) (hW : 0 < W) (ho : o < 2 ^ (W * H)) :
    (flipBitset W H b o).testBit j
      = xor (b.testBit j) (decide (j < W * H) && toggleBit W o j) := by
  rw [flipBitset_xor, Nat.testBit_xor, testBit_flipBitset_zero W H o j hW ho]

theorem flipBitset_lt (W H b o : Nat) (hW : 0 < W) (hb : b < 2 ^ (W * H))
    (ho : o < 2 ^ (W * H)) : flipBitset W H b o < 2 ^ (W * H) := by
  apply Nat.lt_pow_two_of_testBit
  intro j hj
  rw [testBit_flipBitset W H b o j hW ho]
  have : ¬ (j < W * H) := by omega
  simp [this, testBit_of_lt hb hj]

theorem flipBitset_xor_right (W H x y : Nat) (hW : 0 < W) (hx : x < 2 ^ (W * H))
    (hy : y < 2 ^ (W * H)) :
    flipBitset W H 0 (x ^^^ y) = flipBitset W H 0 x ^^^ flipBitset W H 0 y := by
  apply Nat.eq_of_testBit_eq
  intro j
  rw [Nat.testBit_xor, testBit_flipBitset_zero W H _ j hW (Nat.xor_lt_two_pow hx hy),
    testBit_flipBitset_zero W H _ j hW hx, testBit_flipBitset_zero W H _ j hW hy]
  unfold toggleBit
  simp only [Nat.testBit_xor, Bool.and_xor_distrib_left, Bool.and_xor_distrib_right]
  generalize (decide (j < W * H) && x.testBit j) = a1
  generalize (decide (j < W * H) && y.testBit j) = b1
  generalize (decide (j < W * H) && (decide (W ≤ j) && x.testBit (j - W))) = a2
  generalize (decide (j < W * H) && (decide (W ≤ j) && y.testBit (j - W))) = b2
  generalize (decide (j < W * H) && x.testBit (j + W)) = a3
  generalize (decide (j < W * H) && y.testBit (j + W)) = b3
  generalize (decide (j < W * H) && (x.testBit (j + 1) && decide ((j + 1) % W ≠ 0))) = a4
  generalize (decide (j < W * H) && (y.testBit (j + 1) && decide ((j + 1) % W ≠ 0))) = b4
  generalize (decide (j < W * H) && (decide (1 ≤ j) && decide (j % W ≠ 0) && x.testBit (j - 1))) = a5
  generalize (decide (j < W * H) && (decide (1 ≤ j) && decide (j % W ≠ 0) && y.testBit (j - 1))) = b5
  cases a1 <;> cases b1 <;> cases a2 <;> cases b2 <;> cases a3 <;> cases b3 <;>
    cases a4 <;> cases b4 <;> cases a5 <;> cases b5 <;> rfl

theorem adj_comm (W i j : Nat) : adj W i j = adj W j i := by
  unfold adj
  rw [Bool.eq_iff_iff]
  simp only [Bool.or_eq_true, Bool.and_eq_true, decide_eq_true_eq]
  generalize (i % W ≠ 0) = mi
  generalize (j % W ≠ 0) = mj
  constructor
  · rintro ((((h | h) | h) | h) | h)
    · exact Or.inl (Or.inl (Or.inl (Or.inl h.symm)))
    · exact Or.inl (Or.inl (Or.inr h))
    · exact Or.inl (Or.inl (Or.inl (Or.inr h)))
    · exact Or.inr ⟨h.1.symm, h.2⟩
    · exact Or.inl (Or.inr ⟨h.1.symm, h.2⟩)
  · rintro ((((h | h) | h) | h) | h)
    · exact Or.inl (Or.inl (Or.inl (Or.inl h.symm)))
    · exact Or.inl (Or.inl (Or.inr h))
    · exact Or.inl (Or.inl (Or.inl (Or.inr h)))
    · exact Or.inr ⟨h.1.symm, h.2⟩
    · exact Or.inl (Or.inr ⟨h.1.symm, h.2⟩)

theorem toggleBit_two_pow (W i j : Nat) (hW : 0 < W) : toggleBit W (2 ^ i) j = adj W i j := by
  unfold toggleBit adj
  simp only [Nat.testBit_two_pow]
  have t2 : (decide (W ≤ j) && decide (i = j - W)) = decide (i + W = j) := by
    rw [Bool.eq_iff_iff]; simp only [Bool.and_eq_true, decide_eq_true_eq]; omega
  have t3 : decide (i = j + W) = decide (j + W = i) := by
    rw [Bool.eq_iff_iff]; simp only [decide_eq_true_eq]; omega
  have t4 : (decide (i = j + 1) && decide ((j + 1) % W ≠ 0))
      = (decide (i = j + 1) && decide (i % W ≠ 0)) := by
    by_cases h : i = j + 1
    · subst h; rfl
    · simp [h]
  have t5 : (decide (1 ≤ j) && decide (j % W ≠ 0) && decide (i = j - 1))
      = (decide (i + 1 = j) && decide (j % W ≠ 0)) := by
    rw [Bool.eq_iff_iff]; simp only [Bool.and_eq_true, decide_eq_true_eq]
    constructor
    · rintro ⟨⟨h1, h2⟩, h3⟩; exact ⟨by omega, h2⟩
    · rintro ⟨h1, h2⟩; exact ⟨⟨by omega, h2⟩, by omega⟩
  rw [t2, t3, t4, t5]
  have hone : W = 1 → decide (i % W ≠ 0) = false ∧ decide (j % W ≠ 0) = false := by
    intro h; subst h; simp [Nat.mod_one]
  clear t2 t3 t4 t5
  generalize decide (i % W ≠ 0) = mi at *
  generalize decide (j % W ≠ 0) = mj at *
  have fin : ∀ (b0 b1 b2 b3 b4 : Bool), decide (i = j) = b0 → decide (i + W = j) = b1 →
      decide (j + W = i) = b2 → decide (i = j + 1) = b3 → decide (i + 1 = j) = b4 →
      ((b0 = true → b1 = false ∧ b2 = false ∧ b3 = false ∧ b4 = false) ∧
       (b1 = true → b2 = false ∧ b3 = false ∧ (b4 = true → mj = false)) ∧
       (b2 = true → b4 = false ∧ (b3 = true → mi = false)) ∧
       (b3 = true → b4 = false)) →
      xor b0 (xor b1 (xor b2 (xor (b3 && mi) (b4 && mj))))
        = (b0 || b1 || b2 || (b3 && mi) || (b4 && mj)) := by
    intro b0 b1 b2 b3 b4 _ _ _ _ _
    cases b0 <;> cases b1 <;> cases b2 <;> cases b3 <;> cases b4 <;> cases mi <;> cases mj <;>
      simp
  apply fin _ _ _ _ _ rfl rfl rfl rfl rfl
  simp only [decide_eq_true_eq, decide_eq_false_iff_not]
  refine ⟨fun h => by omega, fun h => ⟨by omega, by omega, fun h4 => ?_⟩,
    fun h => ⟨by omega, fun h3 => ?_⟩, fun h => by omega⟩
  · exact (hone (by omega)).2
  · exact (hone (by omega)).1

theorem add_width_iff (W i j : Nat) (hW : 0 < W) :
    i + W = j ↔ (j % W = i % W ∧ j / W = i / W + 1) := by
  constructor
  · intro h
    subst h
    exact ⟨Nat.add_mod_right _ _, Nat.add_div_right _ hW⟩
  · rintro ⟨h1, h2⟩
    have hi := Nat.div_add_mod i W
    have hj := Nat.div_add_mod j W
    rw [h1, h2, Nat.mul_succ] at hj
    omega

theorem succ_same_row_iff (W i j : Nat) (hW : 0 < W) :
    (i = j + 1 ∧ i % W ≠ 0) ↔ (j / W = i / W ∧ i % W = j % W + 1) := by
  have hj := Nat.div_add_mod j W
  have hi := Nat.div_add_mod i W
  have hr := Nat.mod_lt j hW
  constructor
  · rintro ⟨h1, h2⟩
    subst h1
    have h3 : j % W ≠ W - 1 := fun h => h2 ((succ_mod_zero W j hW).mpr h)
    have h4 : j % W + 1 < W := by omega
    have h5 := (Nat.div_mod_unique (a := j + 1) (d := j / W) (c := j % W + 1) hW).mpr
      ⟨by omega, h4⟩
    exact ⟨h5.1.symm, h5.2⟩
  · rintro ⟨h1, h2⟩
    rw [h1] at hj
    exact ⟨by omega, by omega⟩

theorem adj_iff_grid (W i j : Nat) (hW : 0 < W) :
    adj W i j = true ↔
      (j = i ∨ (j / W = i / W ∧ (j % W = i % W + 1 ∨ i % W = j % W + 1))
        ∨ (j % W = i % W ∧ (j / W = i / W + 1 ∨ i / W = j / W + 1))) := by
  unfold adj
  simp only [Bool.or_eq_true, Bool.and_eq_true, decide_eq_true_eq]
  have a1 := add_width_iff W i j hW
  have a2 := add_width_iff W j i hW
  have a3 := succ_same_row_iff W i j hW
  have a4 := succ_same_row_iff W j i hW
  constructor
  · rintro ((((h | h) | h) | h) | h)
    · exact Or.inl h.symm
    · exact Or.inr (Or.inr ⟨(a1.mp h).1, Or.inl (a1.mp h).2⟩)
    · exact Or.inr (Or.inr ⟨(a2.mp h).1.symm, Or.inr (a2.mp h).2⟩)
    · exact Or.inr (Or.inl ⟨(a3.mp h).1, Or.inr (a3.mp h).2⟩)
    · exact Or.inr (Or.inl ⟨(a4.mp ⟨h.1.symm, h.2⟩).1.symm, Or.inl (a4.mp ⟨h.1.symm, h.2⟩).2⟩)
  · rintro (h | ⟨h1, h2 | h2⟩ | ⟨h1, h2 | h2⟩)
    · exact Or.inl (Or.inl (Or.inl (Or.inl h.symm)))
    · have := a4.mpr ⟨h1.symm, h2⟩
      exact Or.inr ⟨this.1.symm, this.2⟩
    · exact Or.inl (Or.inr (a3.mpr ⟨h1, h2⟩))
    · exact Or.inl (Or.inl (Or.inl (Or.inr (a1.mpr ⟨h1, h2⟩))))
    · exact Or.inl (Or.inl (Or.inr (a2.mpr ⟨h1.symm, h2⟩)))

theorem two_pow_lt_of_lt {i n : Nat} (h : i < n) : 2 ^ i < 2 ^ n :=
  Nat.pow_lt_pow_right (by decide) h

theorem testBit_flip (W H B i j : Nat) (hW : 0 < W) (hi : i < W * H) :
    (flip W H B i).testBit j = xor (B.testBit j) (decide (j < W * H) && adj W i j) := by
  unfold flip
  rw [bsSet_zero, testBit_flipBitset W H B _ j hW (two_pow_lt_of_lt hi), toggleBit_two_pow W i j hW]

/-! ## The toggle matrix -/

theorem buildRow_length (W H : Nat) (v : List Nat) (i : Nat) :
    (buildRow W H v i).length = v.length := by
  simp [buildRow]

theorem getD_set_ne (v : List Nat) (i j a : Nat) (h : i ≠ j) :
    (v.set i a).getD j 0 = v.getD j 0 := by
  simp [List.getD_eq_getElem?_getD, List.getElem?_set_ne h]

theorem getD_set_eq (v : List Nat) (i a : Nat) (h : i < v.length) :
    (v.set i a).getD i 0 = a := by
  simp [List.getD_eq_getElem?_getD, List.getElem?_set_self, h]

theorem getD_of_le (v : List Nat) (i : Nat) (h : v.length ≤ i) : v.getD i 0 = 0 := by
  simp [List.getD_eq_getElem?_getD, List.getElem?_eq_none h]

theorem buildRow_getD_ne (W H : Nat) (v : List Nat) (i j : Nat) (h : i ≠ j) :
    (buildRow W H v i).getD j 0 = v.getD j 0 := by
  simp only [buildRow]
  rw [List.set_set, List.set_set, List.set_set, List.set_set, getD_set_ne _ _ _ _ h]

theorem buildRow_getD_eq (W H : Nat) (v : List Nat) (i : Nat) (h : i < v.length) :
    (buildRow W H v i).getD i 0 = flipBitset W H (v.getD i 0) (bsSet 0 i) := by
  simp [buildRow, flipBitset, getD_set_eq, h]

theorem buildMatrix_fold (W H : Nat) (m : Nat) (hm : m ≤ W * H) :
    ((List.range m).foldl (buildRow W H) (List.replicate (W * H) 0)).length = W * H ∧
    ∀ i, ((List.range m).foldl (buildRow W H) (List.replicate (W * H) 0)).getD i 0
      = if i < m then flipBitset W H 0 (bsSet 0 i) else 0 := by
  induction m with
  | zero =>
    refine ⟨by simp, fun i => ?_⟩
    simp only [List.range_zero, List.foldl_nil, Nat.not_lt_zero, if_false,
      List.getD_eq_getElem?_getD, List.getElem?_replicate]
    split <;> rfl
  | succ m ih =>
    obtain ⟨hl, hg⟩ := ih (by omega)
    rw [List.range_succ, List.foldl_append]
    simp only [List.foldl_cons, List.foldl_nil]
    refine ⟨by rw [buildRow_length, hl], fun i => ?_⟩
    by_cases him : i = m
    · subst him
      rw [buildRow_getD_eq _ _ _ _ (by omega), hg]
      simp
    · rw [buildRow_getD_ne _ _ _ _ _ (fun h => him h.symm), hg]
      by_cases h1 : i < m
      · have : i < m + 1 := by omega
        simp [h1, this]
      · have : ¬ i < m + 1 := by omega
        simp [h1, this]

theorem buildMatrix_length (W H : Nat) : (buildMatrix W H).length = W * H :=
  (buildMatrix_fold W H (W * H) (Nat.le_refl _)).1

theorem buildMatrix_getD (W H i : Nat) (hi : i < W * H) :
    (buildMatrix W H).getD i 0 = flipBitset W H 0 (bsSet 0 i) := by
  unfold buildMatrix
  rw [(buildMatrix_fold W H (W * H) (Nat.le_refl _)).2]
  simp [hi]

open Matrix

/-! ## Bit vectors as vectors over GF(2) -/

theorem b2z_xor (a b : Bool) : b2z (xor a b) = b2z a + b2z b := by
  cases a <;> cases b <;> decide

theorem b2z_and (a b : Bool) : b2z (a && b) = b2z a * b2z b := by
  cases a <;> cases b <;> decide

theorem b2z_false : b2z false = 0 := rfl

theorem b2z_true : b2z true = 1 := rfl

theorem b2z_eq_one (b : Bool) : b2z b = 1 ↔ b = true := by
  cases b <;> decide

theorem b2z_eq_zero (b : Bool) : b2z b = 0 ↔ b = false := by
  cases b <;> decide

theorem b2z_inj (a b : Bool) : b2z a = b2z b ↔ a = b := by
  cases a <;> cases b <;> decide

theorem zmod2_cases (z : ZMod 2) : z = 0 ∨ z = 1 := by
  revert z; decide

theorem toVec_apply (n x : Nat) (j : Fin n) : toVec n x j = b2z (x.testBit j) := rfl

theorem toMat_apply (n : Nat) (m : List Nat) (i j : Fin n) :
    toMat n m i j = b2z ((m.getD i 0).testBit j) := rfl

theorem toVec_xor (n x y : Nat) : toVec n (x ^^^ y) = toVec n x + toVec n y := by
  funext j
  simp only [toVec_apply, Pi.add_apply, Nat.testBit_xor]
  exact b2z_xor _ _

theorem toVec_zero (n : Nat) : toVec n 0 = 0 := by
  funext j
  simp [toVec_apply, b2z_false]

theorem toVec_inj (n x y : Nat) (hx : x < 2 ^ n) (hy : y < 2 ^ n)
    (h : toVec n x = toVec n y) : x = y := by
  apply Nat.eq_of_testBit_eq
  intro j
  by_cases hj : j < n
  · have := congrFun h ⟨j, hj⟩
    simp only [toVec_apply] at this
    exact (b2z_inj _ _).mp this
  · rw [testBit_of_lt hx (by omega), testBit_of_lt hy (by omega)]

theorem toMat_row (n : Nat) (m : List Nat) (i : Fin n) :
    toMat n m i = toVec n (m.getD i 0) := rfl

/-! ### Converting back -/

theorem ofVec_lt : ∀ (n : Nat) (v : Fin n → ZMod 2), ofVec n v < 2 ^ n
  | 0, _ => by simp [ofVec]
  | n + 1, v => by
    have ih := ofVec_lt n (fun j => v j.castSucc)
    unfold ofVec
    rw [Nat.pow_succ]
    split <;> omega

theorem testBit_ofVec : ∀ (n : Nat) (v : Fin n → ZMod 2) (j : Nat) (hj : j < n),
    (ofVec n v).testBit j = decide (v ⟨j, hj⟩ = 1)
  | 0, _, j, hj => absurd hj (Nat.not_lt_zero _)
  | n + 1, v, j, hj => by
    have ihlt := ofVec_lt n (fun j => v j.castSucc)
    unfold ofVec
    by_cases hjn : j < n
    · have ih := testBit_ofVec n (fun j => v j.castSucc) j hjn
      split
      · rw [Nat.add_comm, Nat.testBit_two_pow_add_gt hjn, ih]
        rfl
      · rw [Nat.add_zero, ih]
        rfl
    · have hjeq : j = n := by omega
      subst hjeq
      have hlast : (⟨j, hj⟩ : Fin (j + 1)) = Fin.last j := rfl
      rw [hlast]
      split
      · rename_i h1
        rw [Nat.add_comm, Nat.testBit_two_pow_add_eq, testBit_of_lt ihlt (Nat.le_refl _)]
        simp [h1]
      · rename_i h1
        rw [Nat.add_zero, testBit_of_lt ihlt (Nat.le_refl _)]
        simp [h1]

theorem toVec_ofVec (n : Nat) (v : Fin n → ZMod 2) : toVec n (ofVec n v) = v := by
  funext j
  rw [toVec_apply, testBit_ofVec n v j j.isLt]
  rcases zmod2_cases (v j) with h | h
  · have : ¬ (v ⟨j, j.isLt⟩ = 1) := by
      show ¬ (v j = 1)
      rw [h]; decide
    simp [this, b2z_false, h]
  · have : v ⟨j, j.isLt⟩ = 1 := h
    simp [this, b2z_true, h]

/-! ### Parity of the population count -/

theorem countP_range_cast (p : Nat → Bool) (n : Nat) :
    (((List.range n).countP p : Nat) : ZMod 2) = ∑ i in Finset.range n, b2z (p i) := by
  induction n with
  | zero => simp
  | succ n ih =>
    rw [List.range_succ, List.countP_append, Finset.sum_range_succ, Nat.cast_add, ih]
    congr 1
    cases h : p n <;> simp [List.countP_cons, h, b2z]

theorem b2z_parity (k : Nat) : b2z (k % 2 != 0) = (k : ZMod 2) := by
  have h := ZMod.natCast_mod k 2
  rw [← h]
  rcases Nat.mod_two_eq_zero_or_one k with h0 | h1
  · rw [h0]; rfl
  · rw [h1]; rfl

theorem parity_and_eq_dot (n a b : Nat) :
    b2z (bsCount n (a &&& b) % 2 != 0) = toVec n a ⬝ᵥ toVec n b := by
  rw [b2z_parity, bsCount, countP_range_cast, Matrix.dotProduct,
    ← Fin.sum_univ_eq_sum_range (fun i => b2z ((a &&& b).testBit i)) n]
  apply Finset.sum_congr rfl
  intro i _
  simp only [toVec_apply, Nat.testBit_and]
  exact b2z_and _ _

/-! ### `matrixMulti` is the matrix-vector product -/

theorem testBit_bsAssign (n x i j : Nat) (v : Bool) (hi : i < n) (hx : x < 2 ^ n) :
    (bsAssign n x i v).testBit j = if j = i then v else x.testBit j := by
  unfold bsAssign
  by_cases hji : j = i
  · subst hji
    cases v
    · simp [testBit_bsNot, Nat.one_shiftLeft, Nat.testBit_two_pow, hi]
    · simp [Nat.one_shiftLeft, Nat.testBit_two_pow]
  · have hij : ¬ (i = j) := fun h => hji h.symm
    cases v
    · simp only [Bool.false_eq_true, if_false, Nat.testBit_and, testBit_bsNot,
        Nat.one_shiftLeft, Nat.testBit_two_pow, hji, hij, decide_False, Bool.xor_false]
      by_cases hj : j < n
      · simp [hj]
      · simp [hj, testBit_of_lt hx (Nat.le_of_not_lt hj)]
    · simp [Nat.one_shiftLeft, Nat.testBit_two_pow, hji, hij]

theorem bsAssign_lt (n x i : Nat) (v : Bool) (hi : i < n) (hx : x < 2 ^ n) :
    bsAssign n x i v < 2 ^ n := by
  apply Nat.lt_pow_two_of_testBit
  intro j hj
  rw [testBit_bsAssign n x i j v hi hx]
  have : ¬ (j = i) := by omega
  simp [this, testBit_of_lt hx hj]

theorem matrixMulti_fold (n : Nat) (inv : List Nat) (b : Nat) (m : Nat) (hm : m ≤ n) :
    (List.range m).foldl
        (fun res i => bsAssign n res i (bsCount n (inv.getD i 0 &&& b) % 2 != 0)) 0 < 2 ^ n ∧
    ∀ j, ((List.range m).foldl
        (fun res i => bsAssign n res i (bsCount n (inv.getD i 0 &&& b) % 2 != 0)) 0).testBit j
      = (decide (j < m) && (bsCount n (inv.getD j 0 &&& b) % 2 != 0)) := by
  induction m with
  | zero => simp [Nat.pos_pow_of_pos]
  | succ m ih =>
    obtain ⟨hlt, hbits⟩ := ih (by omega)
    rw [List.range_succ, List.foldl_append]
    simp only [List.foldl_cons, List.foldl_nil]
    refine ⟨bsAssign_lt n _ m _ (by omega) hlt, fun j => ?_⟩
    rw [testBit_bsAssign n _ m j _ (by omega) hlt, hbits]
    by_cases hj : j = m
    · subst hj; simp
    · by_cases h1 : j < m
      · have : j < m + 1 := by omega
        simp [hj, h1, this]
      · have : ¬ j < m + 1 := by omega
        simp [hj, h1, this]

theorem matrixMulti_lt (n : Nat) (inv : List Nat) (b : Nat) : matrixMulti n inv b < 2 ^ n :=
  (matrixMulti_fold n inv b n (Nat.le_refl _)).1

theorem testBit_matrixMulti (n : Nat) (inv : List Nat) (b j : Nat) :
    (matrixMulti n inv b).testBit j
      = (decide (j < n) && (bsCount n (inv.getD j 0 &&& b) % 2 != 0)) :=
  (matrixMulti_fold n inv b n (Nat.le_refl _)).2 j

theorem toVec_matrixMulti (n : Nat) (inv : List Nat) (b : Nat) :
    toVec n (matrixMulti n inv b) = toMat n inv *ᵥ toVec n b := by
  funext i
  rw [toVec_apply, testBit_matrixMulti, Matrix.mulVec, toMat_row, ← parity_and_eq_dot]
  simp [i.isLt]

/-! ### The toggle pattern is the product with the toggle matrix -/

theorem sum_fin_single (n c : Nat) (f : Nat → ZMod 2) :
    ∑ i : Fin n, b2z (decide ((i : Nat) = c)) * f i = if c < n then f c else 0 := by
  rw [Fin.sum_univ_eq_sum_range (fun i => b2z (decide (i = c)) * f i) n]
  by_cases hc : c < n
  · rw [Finset.sum_eq_single c]
    · simp [hc, b2z]
    · intro i _ hic
      simp [hic, b2z]
    · intro h
      exact absurd (Finset.mem_range.mpr hc) h
  · rw [Finset.sum_eq_zero]
    · simp [hc]
    · intro i hi
      have : i ≠ c := by
        have := Finset.mem_range.mp hi
        omega
      simp [this, b2z]

theorem toMat_buildMatrix_apply (W H : Nat) (hW : 0 < W) (i j : Fin (W * H)) :
    toMat (W * H) (buildMatrix W H) i j = b2z (adj W i j) := by
  rw [toMat_apply, buildMatrix_getD W H i i.isLt, bsSet_zero,
    testBit_flipBitset_zero W H _ j hW (two_pow_lt_of_lt i.isLt), toggleBit_two_pow W i j hW]
  simp [j.isLt]

theorem toMat_buildMatrix_symm (W H : Nat) (hW : 0 < W) :
    (toMat (W * H) (buildMatrix W H))ᵀ = toMat (W * H) (buildMatrix W H) := by
  ext i j
  rw [Matrix.transpose_apply, toMat_buildMatrix_apply W H hW, toMat_buildMatrix_apply W H hW,
    adj_comm]

theorem toVec_flipBitset (W H x : Nat) (hW : 0 < W) (hx : x < 2 ^ (W * H)) :
    toVec (W * H) (flipBitset W H 0 x) = toMat (W * H) (buildMatrix W H) *ᵥ toVec (W * H) x := by
  funext j
  rw [toVec_apply, testBit_flipBitset_zero W H x j hW hx, Matrix.mulVec, Matrix.dotProduct]
  simp only [j.isLt, decide_True, Bool.true_and]
  have hrow : ∀ i : Fin (W * H), toMat (W * H) (buildMatrix W H) j i * toVec (W * H) x i
      = b2z (decide ((i : Nat) = j)) * b2z (x.testBit i)
        + (b2z (decide ((i : Nat) = j - W)) * (b2z (decide (W ≤ (j : Nat))) * b2z (x.testBit i))
        + (b2z (decide ((i : Nat) = j + W)) * b2z (x.testBit i)
        + (b2z (decide ((i : Nat) = j + 1))
            * (b2z (decide (((j : Nat) + 1) % W ≠ 0)) * b2z (x.testBit i))
        + b2z (decide ((i : Nat) = j - 1))
            * (b2z (decide (1 ≤ (j : Nat)) && decide ((j : Nat) % W ≠ 0))
              * b2z (x.testBit i))))) := by
    intro i
    rw [toMat_buildMatrix_apply W H hW, adj_comm, ← toggleBit_two_pow W i j hW, toVec_apply]
    unfold toggleBit
    simp only [Nat.testBit_two_pow, b2z_xor, b2z_and]
    ring
  rw [Finset.sum_congr rfl (fun i _ => hrow i)]
  simp only [Finset.sum_add_distrib]
  rw [sum_fin_single (W * H) j (fun i => b2z (x.testBit i)),
    sum_fin_single (W * H) (j - W) (fun i => b2z (decide (W ≤ (j : Nat))) * b2z (x.testBit i)),
    sum_fin_single (W * H) (j + W) (fun i => b2z (x.testBit i)),
    sum_fin_single (W * H) (j + 1)
      (fun i => b2z (decide (((j : Nat) + 1) % W ≠ 0)) * b2z (x.testBit i)),
    sum_fin_single (W * H) (j - 1)
      (fun i => b2z (decide (1 ≤ (j : Nat)) && decide ((j : Nat) % W ≠ 0)) * b2z (x.testBit i))]
  have hj := j.isLt
  have h1 : (j : Nat) - W < W * H := by omega
  have h2 : (j : Nat) - 1 < W * H := by omega
  have h3 : (if (j : Nat) + W < W * H then b2z (x.testBit (j + W)) else 0)
      = b2z (x.testBit (j + W)) := by
    split
    · rfl
    · rw [testBit_of_lt hx (by omega)]; rfl
  have h4 : (if (j : Nat) + 1 < W * H then
        b2z (decide (((j : Nat) + 1) % W ≠ 0)) * b2z (x.testBit (j + 1)) else 0)
      = b2z (decide (((j : Nat) + 1) % W ≠ 0)) * b2z (x.testBit (j + 1)) := by
    split
    · rfl
    · rw [testBit_of_lt hx (by omega)]; simp [b2z_false]
  simp only [hj, h1, h2, h3, h4, if_true]
  unfold toggleBit
  simp only [b2z_xor, b2z_and]
  ring

/-! ## Row operations -/

theorem xorRow_length (m : List Nat) (d s : Nat) : (xorRow m d s).length = m.length := by
  simp [xorRow]

theorem xorRow_getD (m : List Nat) (d s i : Nat) (hd : d < m.length) :
    (xorRow m d s).getD i 0 = if i = d then m.getD d 0 ^^^ m.getD s 0 else m.getD i 0 := by
  unfold xorRow
  by_cases h : i = d
  · subst h
    rw [getD_set_eq _ _ _ hd]
    simp
  · rw [getD_set_ne _ _ _ _ (fun h2 => h h2.symm)]
    simp [h]

theorem swapRows_length (m : List Nat) (p f : Nat) : (swapRows m p f).length = m.length := by
  simp [swapRows, xorRow_length]

theorem xor_swap_left (a b : Nat) : (a ^^^ b) ^^^ (b ^^^ (a ^^^ b)) = b := by
  apply Nat.eq_of_testBit_eq
  intro j
  simp only [Nat.testBit_xor]
  cases a.testBit j <;> cases b.testBit j <;> rfl

theorem xor_swap_right (a b : Nat) : b ^^^ (a ^^^ b) = a := by
  apply Nat.eq_of_testBit_eq
  intro j
  simp only [Nat.testBit_xor]
  cases a.testBit j <;> cases b.testBit j <;> rfl

theorem swapRows_getD (m : List Nat) (p f i : Nat) (hp : p < m.length) (hf : f < m.length)
    (hpf : p ≠ f) :
    (swapRows m p f).getD i 0
      = if i = p then m.getD f 0 else if i = f then m.getD p 0 else m.getD i 0 := by
  have hfp : f ≠ p := fun h => hpf h.symm
  have e1 : ∀ k, (xorRow m p f).getD k 0
      = if k = p then m.getD p 0 ^^^ m.getD f 0 else m.getD k 0 :=
    fun k => xorRow_getD m p f k hp
  have e2 : ∀ k, (xorRow (xorRow m p f) f p).getD k 0
      = if k = f then (xorRow m p f).getD f 0 ^^^ (xorRow m p f).getD p 0
        else (xorRow m p f).getD k 0 :=
    fun k => xorRow_getD (xorRow m p f) f p k (by rw [xorRow_length]; exact hf)
  have e3 : ∀ k, (xorRow (xorRow (xorRow m p f) f p) p f).getD k 0
      = if k = p then (xorRow (xorRow m p f) f p).getD p 0
          ^^^ (xorRow (xorRow m p f) f p).getD f 0
        else (xorRow (xorRow m p f) f p).getD k 0 :=
    fun k => xorRow_getD (xorRow (xorRow m p f) f p) p f k
      (by rw [xorRow_length, xorRow_length]; exact hp)
  unfold swapRows
  rw [e3 i]
  by_cases h1 : i = p
  · subst h1
    simp only [if_true]
    rw [e2 i, e2 f, e1 i, e1 f]
    simp only [hpf, hfp, if_true, if_false]
    exact xor_swap_left _ _
  · simp only [h1, if_false]
    rw [e2 i]
    by_cases h2 : i = f
    · subst h2
      simp only [if_true]
      rw [e1 i, e1 p]
      simp only [hfp, if_true, if_false]
      exact xor_swap_right _ _
    · simp only [h2, if_false]
      rw [e1 i]
      simp only [h1, if_false]

theorem toMat_xorRow (n : Nat) (m : List Nat) (d s : Fin n) (hl : m.length = n) :
    toMat n (xorRow m d s) = (toMat n m).updateRow d (toMat n m d + toMat n m s) := by
  ext i j
  rw [toMat_apply, xorRow_getD _ _ _ _ (by rw [hl]; exact d.isLt), Matrix.updateRow_apply]
  by_cases h : i = d
  · subst h
    simp only [if_true, Pi.add_apply, toMat_apply, Nat.testBit_xor]
    exact b2z_xor _ _
  · have h2 : ¬ ((i : Nat) = d) := fun h3 => h (Fin.ext h3)
    simp only [h, h2, if_false]
    rfl

theorem updateRow_add_mul (n : Nat) (E A : Matrix (Fin n) (Fin n) (ZMod 2)) (d s : Fin n) :
    (E.updateRow d (E d + E s)) * A = (E * A).updateRow d ((E * A) d + (E * A) s) := by
  ext i j
  simp only [Matrix.mul_apply, Matrix.updateRow_apply]
  by_cases h : i = d
  · subst h
    simp only [if_true, Pi.add_apply, Matrix.mul_apply, add_mul, Finset.sum_add_distrib]
  · simp only [h, if_false]

theorem good_xorRow (W H : Nat) (st : Mats) (d s : Nat) (hd : d < W * H) (hs : s < W * H)
    (hds : d ≠ s) (hg : Good W H st) :
    Good W H { boardMatrix := xorRow st.boardMatrix d s, identity := xorRow st.identity d s } := by
  obtain ⟨h1, h2, h3, h4, h5, h6⟩ := hg
  have hval : ∀ (m : List Nat), m.length = W * H → (∀ i, m.getD i 0 < 2 ^ (W * H)) →
      ∀ i, (xorRow m d s).getD i 0 < 2 ^ (W * H) := by
    intro m hm hv i
    rw [xorRow_getD _ _ _ _ (by omega)]
    split
    · exact Nat.xor_lt_two_pow (hv _) (hv _)
    · exact hv _
  refine ⟨by simp [xorRow_length, h1], by simp [xorRow_length, h2], hval _ h1 h3,
    hval _ h2 h4, ?_, ?_⟩
  · have e1 := toMat_xorRow (W * H) st.identity ⟨d, hd⟩ ⟨s, hs⟩ h2
    have e2 := toMat_xorRow (W * H) st.boardMatrix ⟨d, hd⟩ ⟨s, hs⟩ h1
    simp only at e1 e2
    rw [e1, e2, updateRow_add_mul, h5]
  · have e1 := toMat_xorRow (W * H) st.identity ⟨d, hd⟩ ⟨s, hs⟩ h2
    simp only at e1
    rw [e1, Matrix.det_updateRow_add_self _ (fun h => hds (Fin.mk.inj h)), h6]

theorem good_swapRows (W H : Nat) (st : Mats) (p f : Nat) (hp : p < W * H) (hf : f < W * H)
    (hpf : p ≠ f) (hg : Good W H st) :
    Good W H { boardMatrix := swapRows st.boardMatrix p f,
               identity := swapRows st.identity p f } := by
  have hfp : f ≠ p := fun h => hpf h.symm
  have g1 := good_xorRow W H st p f hp hf hpf hg
  have g2 := good_xorRow W H _ f p hf hp hfp g1
  exact good_xorRow W H _ p f hp hf hpf g2

theorem good_elimStep (W H : Nat) (st : Mats) (col src row : Nat) (hr : row < W * H)
    (hs : src < W * H) (hrs : row ≠ src) (hg : Good W H st) :
    Good W H (elimStep col src st row) := by
  unfold elimStep
  split
  · exact good_xorRow W H st row src hr hs hrs hg
  · exact hg

theorem good_elim_foldl (W H : Nat) (col src : Nat) (hs : src < W * H) :
    ∀ (rows : List Nat) (st : Mats), (∀ r ∈ rows, r < W * H ∧ r ≠ src) → Good W H st →
      Good W H (rows.foldl (elimStep col src) st)
  | [], st, _, hg => hg
  | r :: rows, st, hrows, hg => by
    rw [List.foldl_cons]
    apply good_elim_foldl W H col src hs rows
    · intro r2 hr2
      exact hrows r2 (List.mem_cons_of_mem _ hr2)
    · have := hrows r (List.mem_cons_self _ _)
      exact good_elimStep W H st col src r this.1 hs this.2 hg

/-! ### The starting state -/

theorem identityMatrix_fold (n m : Nat) (hm : m ≤ n) :
    ((List.range m).foldl (fun v i => v.set i (bsSet (v.getD i 0) i))
        (List.replicate n 0)).length = n ∧
    ∀ i, ((List.range m).foldl (fun v i => v.set i (bsSet (v.getD i 0) i))
        (List.replicate n 0)).getD i 0 = if i < m then 2 ^ i else 0 := by
  induction m with
  | zero =>
    refine ⟨by simp, fun i => ?_⟩
    simp only [List.range_zero, List.foldl_nil, Nat.not_lt_zero, if_false,
      List.getD_eq_getElem?_getD, List.getElem?_replicate]
    split <;> rfl
  | succ m ih =>
    obtain ⟨hl, hg⟩ := ih (by omega)
    rw [List.range_succ, List.foldl_append]
    simp only [List.foldl_cons, List.foldl_nil]
    refine ⟨by rw [List.length_set, hl], fun i => ?_⟩
    by_cases him : i = m
    · subst him
      rw [getD_set_eq _ _ _ (by omega), hg]
      simp [bsSet_zero]
    · rw [getD_set_ne _ _ _ _ (fun h => him h.symm), hg]
      by_cases h1 : i < m
      · have : i < m + 1 := by omega
        simp [h1, this]
      · have : ¬ i < m + 1 := by omega
        simp [h1, this]

theorem identityMatrix_length (n : Nat) : (identityMatrix n).length = n :=
  (identityMatrix_fold n n (Nat.le_refl _)).1

theorem identityMatrix_getD (n i : Nat) :
    (identityMatrix n).getD i 0 = if i < n then 2 ^ i else 0 :=
  (identityMatrix_fold n n (Nat.le_refl _)).2 i

theorem toMat_identityMatrix (n : Nat) : toMat n (identityMatrix n) = 1 := by
  ext i j
  rw [toMat_apply, identityMatrix_getD, Matrix.one_apply]
  simp only [i.isLt, if_true, Nat.testBit_two_pow]
  by_cases h : i = j
  · subst h; simp [b2z]
  · have : ¬ ((i : Nat) = j) := fun h2 => h (Fin.ext h2)
    simp [h, this, b2z]

theorem buildMatrix_row_lt (W H : Nat) (hW : 0 < W) (i : Nat) :
    (buildMatrix W H).getD i 0 < 2 ^ (W * H) := by
  by_cases hi : i < W * H
  · rw [buildMatrix_getD W H i hi, bsSet_zero]
    exact flipBitset_lt W H 0 _ hW (Nat.pos_pow_of_pos _ (by decide)) (two_pow_lt_of_lt hi)
  · rw [getD_of_le _ _ (by rw [buildMatrix_length]; omega)]
    exact Nat.pos_pow_of_pos _ (by decide)

theorem good_init (W H : Nat) (hW : 0 < W) :
    Good W H { boardMatrix := buildMatrix W H, identity := identityMatrix (W * H) } := by
  refine ⟨buildMatrix_length W H, identityMatrix_length _, buildMatrix_row_lt W H hW, ?_, ?_, ?_⟩
  · intro i
    rw [identityMatrix_getD]
    split
    · rename_i h; exact two_pow_lt_of_lt h
    · exact Nat.pos_pow_of_pos _ (by decide)
  · simp only [toMat_identityMatrix, Matrix.one_mul]
  · simp only [toMat_identityMatrix, Matrix.det_one]

/-! ## Horizontal and vertical parts of the toggle pattern -/

theorem testBit_hflip (W H x j : Nat) (hW : 0 < W) (hx : x < 2 ^ (W * H)) :
    (hflip W H x).testBit j = (decide (j < W * H) &&
      xor (x.testBit j) (xor (x.testBit (j + 1) && decide ((j + 1) % W ≠ 0))
        (decide (1 ≤ j) && decide (j % W ≠ 0) && x.testBit (j - 1)))) := by
  unfold hflip
  simp only [Nat.testBit_xor, testBit_bsShl, testBit_bsShr, Nat.testBit_and,
    testBit_bsNot, testBit_getLeftEdgeMask W H _ hW, testBit_getRightEdgeMask W H _ hW]
  by_cases hj : j < W * H
  · have e2 : x.testBit (1 + j) = x.testBit (j + 1) := by rw [Nat.add_comm]
    have e3 : (1 + j) % W = (j + 1) % W := by rw [Nat.add_comm]
    rw [e2, e3]
    have t4 : (x.testBit (j + 1) &&
          xor (decide (1 + j < W * H)) (decide (1 + j < W * H ∧ (j + 1) % W = 0)))
        = (x.testBit (j + 1) && decide ((j + 1) % W ≠ 0)) := by
      by_cases h1 : 1 + j < W * H
      · by_cases h2 : (j + 1) % W = 0 <;> simp [h1, h2]
      · have : x.testBit (j + 1) = false := testBit_of_lt hx (by omega)
        simp [this]
    have t5 : (decide (1 ≤ j) && (x.testBit (j - 1) &&
          xor (decide (j - 1 < W * H)) (decide (j - 1 < W * H ∧ (j - 1) % W = W - 1))))
        = (decide (1 ≤ j) && decide (j % W ≠ 0) && x.testBit (j - 1)) := by
      by_cases h1 : 1 ≤ j
      · have h2 : j - 1 < W * H := by omega
        have h3 := succ_mod_zero W (j - 1) hW
        have h4 : j - 1 + 1 = j := by omega
        rw [h4] at h3
        by_cases h5 : j % W = 0
        · have := h3.mp h5
          simp [h1, h2, h5, this]
        · have : ¬ ((j - 1) % W = W - 1) := fun h => h5 (h3.mpr h)
          simp [h1, h2, h5, this, Bool.and_comm]
      · simp [h1]
    rw [t4, t5]
    simp [hj]
  · have h0 : x.testBit j = false := testBit_of_lt hx (by omega)
    have h2 : x.testBit (1 + j) = false := testBit_of_lt hx (by omega)
    simp [hj, h0, h2]

theorem testBit_vflip (W H x j : Nat) (hx : x < 2 ^ (W * H)) :
    (vflip W H x).testBit j = (decide (j < W * H) &&
      xor (decide (W ≤ j) && x.testBit (j - W)) (x.testBit (j + W))) := by
  unfold vflip
  simp only [Nat.testBit_xor, testBit_bsShl, testBit_bsShr]
  have e1 : x.testBit (W + j) = x.testBit (j + W) := by rw [Nat.add_comm]
  rw [e1]
  by_cases hj : j < W * H
  · simp [hj]
  · have h1 : x.testBit (j + W) = false := testBit_of_lt hx (by omega)
    simp [hj, h1]

theorem hflip_lt (W H x : Nat) (hW : 0 < W) (hx : x < 2 ^ (W * H)) :
    hflip W H x < 2 ^ (W * H) := by
  apply Nat.lt_pow_two_of_testBit
  intro j hj
  rw [testBit_hflip W H x j hW hx]
  have : ¬ (j < W * H) := by omega
  simp [this]

theorem vflip_lt (W H x : Nat) (hx : x < 2 ^ (W * H)) : vflip W H x < 2 ^ (W * H) := by
  apply Nat.lt_pow_two_of_testBit
  intro j hj
  rw [testBit_vflip W H x j hx]
  have : ¬ (j < W * H) := by omega
  simp [this]

theorem flipBitset_eq_hv (W H x : Nat) (hW : 0 < W) (hx : x < 2 ^ (W * H)) :
    flipBitset W H 0 x = hflip W H x ^^^ vflip W H x := by
  apply Nat.eq_of_testBit_eq
  intro j
  rw [testBit_flipBitset_zero W H x j hW hx, Nat.testBit_xor, testBit_hflip W H x j hW hx,
    testBit_vflip W H x j hx]
  unfold toggleBit
  generalize decide (j < W * H) = g
  generalize x.testBit j = a
  generalize (decide (W ≤ j) && x.testBit (j - W)) = b
  generalize x.testBit (j + W) = c
  generalize (x.testBit (j + 1) && decide ((j + 1) % W ≠ 0)) = d
  generalize (decide (1 ≤ j) && decide (j % W ≠ 0) && x.testBit (j - 1)) = e
  cases g <;> cases a <;> cases b <;> cases c <;> cases d <;> cases e <;> rfl

theorem hflip_xor (W H x y : Nat) (hW : 0 < W) (hx : x < 2 ^ (W * H)) (hy : y < 2 ^ (W * H)) :
    hflip W H (x ^^^ y) = hflip W H x ^^^ hflip W H y := by
  apply Nat.eq_of_testBit_eq
  intro j
  rw [Nat.testBit_xor, testBit_hflip W H _ j hW (Nat.xor_lt_two_pow hx hy),
    testBit_hflip W H _ j hW hx, testBit_hflip W H _ j hW hy]
  simp only [Nat.testBit_xor, Bool.and_xor_distrib_left, Bool.and_xor_distrib_right]
  generalize (decide (j < W * H) && x.testBit j) = a1
  generalize (decide (j < W * H) && y.testBit j) = b1
  generalize (decide (j < W * H) && (x.testBit (j + 1) && decide ((j + 1) % W ≠ 0))) = a4
  generalize (decide (j < W * H) && (y.testBit (j + 1) && decide ((j + 1) % W ≠ 0))) = b4
  generalize (decide (j < W * H) && (decide (1 ≤ j) && decide (j % W ≠ 0) && x.testBit (j - 1))) = a5
  generalize (decide (j < W * H) && (decide (1 ≤ j) && decide (j % W ≠ 0) && y.testBit (j - 1))) = b5
  cases a1 <;> cases b1 <;> cases a4 <;> cases b4 <;> cases a5 <;> cases b5 <;> rfl

theorem hflip_zero (W H : Nat) : hflip W H 0 = 0 := by
  simp [hflip, bsShr, bsShl]

theorem mod_sub_width (W k : Nat) (h : W ≤ k) : (k - W) % W = k % W := by
  have : k = (k - W) + W := by omega
  rw [this, Nat.add_mod_right, ← this]

theorem vflip_hflip (W H x : Nat) (hW : 0 < W) (hx : x < 2 ^ (W * H)) :
    vflip W H (hflip W H x) = hflip W H (vflip W H x) := by
  apply Nat.eq_of_testBit_eq
  intro j
  rw [testBit_vflip W H _ j (hflip_lt W H x hW hx),
    testBit_hflip W H _ j hW (vflip_lt W H x hx)]
  by_cases hj : j < W * H
  swap
  · simp [hj]
  simp only [hj, decide_True, Bool.true_and]
  rw [testBit_hflip W H x (j - W) hW hx, testBit_hflip W H x (j + W) hW hx,
    testBit_vflip W H x j hx, testBit_vflip W H x (j + 1) hx, testBit_vflip W H x (j - 1) hx]
  have hNmod : (W * H) % W = 0 := Nat.mul_mod_right W H
  have L1eq : (decide (W ≤ j) && (decide (j - W < W * H) &&
        xor (x.testBit (j - W)) (xor (x.testBit (j - W + 1) && decide ((j - W + 1) % W ≠ 0))
          (decide (1 ≤ j - W) && decide ((j - W) % W ≠ 0) && x.testBit (j - W - 1)))))
      = (decide (W ≤ j) && xor (x.testBit (j - W))
          (xor (x.testBit (j - W + 1) && decide ((j + 1) % W ≠ 0))
            (decide (1 ≤ j - W) && decide (j % W ≠ 0) && x.testBit (j - W - 1)))) := by
    by_cases hWj : W ≤ j
    · have h1 : j - W < W * H := by omega
      have h2 : (j - W + 1) % W = (j + 1) % W := by
        have : j - W + 1 = (j + 1) - W := by omega
        rw [this, mod_sub_width W (j + 1) (by omega)]
      rw [h2, mod_sub_width W j hWj]
      simp [h1]
    · simp [hWj]
  have L2eq : (decide (j + W < W * H) &&
        xor (x.testBit (j + W)) (xor (x.testBit (j + W + 1) && decide ((j + W + 1) % W ≠ 0))
          (decide (1 ≤ j + W) && decide ((j + W) % W ≠ 0) && x.testBit (j + W - 1))))
      = xor (x.testBit (j + W)) (xor (x.testBit (j + W + 1) && decide ((j + 1) % W ≠ 0))
          (decide (1 ≤ j) && decide (j % W ≠ 0) && x.testBit (j + W - 1))) := by
    have h2 : (j + W + 1) % W = (j + 1) % W := by
      have : j + W + 1 = (j + 1) + W := by omega
      rw [this, Nat.add_mod_right]
    have h3 : (j + W) % W = j % W := Nat.add_mod_right j W
    have h4 : 1 ≤ j + W := by omega
    rw [h2, h3]
    by_cases hjW : j + W < W * H
    · by_cases hj1 : 1 ≤ j
      · simp [hjW, hj1, h4]
      · have hj0 : j = 0 := by omega
        have mj0 : j % W = 0 := by rw [hj0]; exact Nat.zero_mod W
        simp [hjW, hj1, mj0]
    · have d0 : x.testBit (j + W) = false := testBit_of_lt hx (by omega)
      have e0 : x.testBit (j + W + 1) = false := testBit_of_lt hx (by omega)
      by_cases hEq : j + W = W * H
      · have : j % W = 0 := by rw [← h3, hEq, hNmod]
        simp [hjW, d0, e0, this]
      · have f0 : x.testBit (j + W - 1) = false := testBit_of_lt hx (by omega)
        simp [hjW, d0, e0, f0]
  have R1eq : ((decide (j + 1 < W * H) &&
        xor (decide (W ≤ j + 1) && x.testBit (j + 1 - W)) (x.testBit (j + 1 + W)))
          && decide ((j + 1) % W ≠ 0))
      = xor (decide (W ≤ j) && x.testBit (j - W + 1) && decide ((j + 1) % W ≠ 0))
          (x.testBit (j + W + 1) && decide ((j + 1) % W ≠ 0)) := by
    have i1 : j + 1 + W = j + W + 1 := by omega
    rw [i1]
    by_cases hm : (j + 1) % W = 0
    · simp [hm]
    · have hlt : j + 1 < W * H := by
        rcases Nat.lt_or_ge (j + 1) (W * H) with h | h
        · exact h
        · exfalso
          have : j + 1 = W * H := by omega
          rw [this] at hm
          exact hm hNmod
      have hne : j + 1 ≠ W := by
        intro h
        rw [h, Nat.mod_self] at hm
        exact hm rfl
      by_cases hWj : W ≤ j
      · have i2 : j + 1 - W = j - W + 1 := by omega
        have : W ≤ j + 1 := by omega
        simp [hm, hlt, hWj, this, i2]
      · have : ¬ (W ≤ j + 1) := by omega
        simp [hm, hlt, hWj, this]
  have R2eq : (decide (1 ≤ j) && decide (j % W ≠ 0) && (decide (j - 1 < W * H) &&
        xor (decide (W ≤ j - 1) && x.testBit (j - 1 - W)) (x.testBit (j - 1 + W))))
      = xor (decide (W ≤ j) && decide (1 ≤ j - W) && decide (j % W ≠ 0) && x.testBit (j - W - 1))
          (decide (1 ≤ j) && decide (j % W ≠ 0) && x.testBit (j + W - 1)) := by
    by_cases hj1 : 1 ≤ j
    · have i1 : j - 1 + W = j + W - 1 := by omega
      have i2 : j - 1 - W = j - W - 1 := by omega
      have i3 : j - 1 < W * H := by omega
      rw [i1, i2]
      by_cases hWj : W ≤ j - 1
      · have h1 : W ≤ j := by omega
        have h2 : 1 ≤ j - W := by omega
        simp [hj1, i3, hWj, h1, h2]
        cases decide (j % W = 0) <;> simp
      · have h3 : ¬ (W ≤ j ∧ 1 ≤ j - W) := by omega
        by_cases h1 : W ≤ j
        · have h2 : ¬ (1 ≤ j - W) := fun h => h3 ⟨h1, h⟩
          simp [hj1, i3, hWj, h1, h2]
        · simp [hj1, i3, hWj, h1]
    · have hj0 : j = 0 := by omega
      have mj0 : j % W = 0 := by rw [hj0]; exact Nat.zero_mod W
      simp [hj1, mj0]
  rw [L1eq, L2eq, R1eq, R2eq]
  simp only [hj, decide_True, Bool.true_and]
  generalize decide (W ≤ j) = gW
  generalize decide (1 ≤ j - W) = gW1
  generalize decide (1 ≤ j) = g1
  generalize decide (j % W ≠ 0) = mj
  generalize decide ((j + 1) % W ≠ 0) = mj1
  generalize x.testBit (j - W) = a
  generalize x.testBit (j - W + 1) = b
  generalize x.testBit (j - W - 1) = c
  generalize x.testBit (j + W) = d
  generalize x.testBit (j + W + 1) = e
  generalize x.testBit (j + W - 1) = f
  cases gW <;> cases gW1 <;> cases g1 <;> cases mj <;> cases mj1 <;> cases a <;> cases b <;>
    cases c <;> cases d <;> cases e <;> cases f <;> rfl

theorem flipBitset_hflip (W H x : Nat) (hW : 0 < W) (hx : x < 2 ^ (W * H)) :
    flipBitset W H 0 (hflip W H x) = hflip W H (flipBitset W H 0 x) := by
  rw [flipBitset_eq_hv W H _ hW (hflip_lt W H x hW hx), flipBitset_eq_hv W H x hW hx,
    hflip_xor W H _ _ hW (hflip_lt W H x hW hx) (vflip_lt W H x hx), vflip_hflip W H x hW hx]

/-! ## Quiet patterns and their top bit -/

theorem quiet_top_in_last_row (W H x h : Nat) (hW : 0 < W) (hx : x < 2 ^ (W * H))
    (hq : flipBitset W H 0 x = 0) (hh : x.testBit h = true) (htop : x < 2 ^ (h + 1)) :
    W * H ≤ h + W := by
  rcases Nat.lt_or_ge (h + W) (W * H) with hlt | hge
  swap
  · exact hge
  exfalso
  have hbit := testBit_flipBitset_zero W H x (h + W) hW hx
  rw [hq, Nat.zero_testBit] at hbit
  unfold toggleBit at hbit
  have e0 : x.testBit (h + W) = false := testBit_of_lt htop (by omega)
  have e1 : h + W - W = h := by omega
  have e2 : x.testBit (h + W + W) = false := testBit_of_lt htop (by omega)
  have e3 : x.testBit (h + W + 1) = false := testBit_of_lt htop (by omega)
  have e4 : (decide ((h + W) % W ≠ 0) && x.testBit (h + W - 1)) = false := by
    by_cases hw1 : W = 1
    · subst hw1; simp [Nat.mod_one]
    · have : x.testBit (h + W - 1) = false := testBit_of_lt htop (by omega)
      simp [this]
  have e5 : W ≤ h + W := by omega
  rw [e0, e1, hh, e2, e3] at hbit
  simp only [hlt, e5, decide_True, Bool.true_and, Bool.false_and, Bool.and_assoc, e4,
    Bool.and_false] at hbit
  exact absurd hbit (by decide)

theorem succ_mod_ne_zero_in_last_row (W H h : Nat) (h1 : W * H ≤ h + W) (h2 : h + 1 < W * H) :
    (h + 1) % W ≠ 0 := by
  intro hm
  have hdiv := Nat.div_add_mod (h + 1) W
  rw [hm, Nat.add_zero] at hdiv
  have hq : (h + 1) / W < H := by
    apply Nat.lt_of_mul_lt_mul_left (a := W)
    rw [hdiv]; exact h2
  have : W * ((h + 1) / W + 1) ≤ W * H := Nat.mul_le_mul_left W hq
  rw [Nat.mul_succ, hdiv] at this
  omega

theorem hflip_top (W H x h : Nat) (hW : 0 < W) (hx : x < 2 ^ (W * H))
    (hh : x.testBit h = true) (htop : x < 2 ^ (h + 1)) (h1 : W * H ≤ h + W)
    (h2 : h + 1 < W * H) :
    (hflip W H x).testBit (h + 1) = true ∧ hflip W H x < 2 ^ (h + 1 + 1) := by
  constructor
  · rw [testBit_hflip W H x (h + 1) hW hx]
    have e0 : x.testBit (h + 1) = false := testBit_of_lt htop (by omega)
    have e1 : x.testBit (h + 1 + 1) = false := testBit_of_lt htop (by omega)
    have e2 : h + 1 - 1 = h := by omega
    have e3 := succ_mod_ne_zero_in_last_row W H h h1 h2
    rw [e0, e1, e2, hh]
    simp [h2, e3]
  · apply Nat.lt_pow_two_of_testBit
    intro j hj
    rw [testBit_hflip W H x j hW hx]
    have e0 : x.testBit j = false := testBit_of_lt htop (by omega)
    have e1 : x.testBit (j + 1) = false := testBit_of_lt htop (by omega)
    have e2 : x.testBit (j - 1) = false := testBit_of_lt htop (by omega)
    simp [e0, e1, e2]

theorem hflip_quiet (W H x : Nat) (hW : 0 < W) (hx : x < 2 ^ (W * H))
    (hq : flipBitset W H 0 x = 0) : flipBitset W H 0 (hflip W H x) = 0 := by
  rw [flipBitset_hflip W H x hW hx, hq, hflip_zero]

theorem lt_two_pow_of_le {x a b : Nat} (h : x < 2 ^ a) (hab : a ≤ b) : x < 2 ^ b :=
  Nat.lt_of_lt_of_le h (Nat.pow_le_pow_right (by decide) hab)

theorem quiet_with_top (W H : Nat) (hW : 0 < W) :
    ∀ c, c < W * H → (∃ x, x ≠ 0 ∧ x < 2 ^ (c + 1) ∧ flipBitset W H 0 x = 0) →
      ∃ q, flipBitset W H 0 q = 0 ∧ q < 2 ^ (c + 1) ∧ q.testBit c = true := by
  intro c
  induction c with
  | zero =>
    rintro _ ⟨x, hx0, hx1, hxq⟩
    refine ⟨x, hxq, hx1, ?_⟩
    have : x = 1 := by
      simp at hx1
      omega
    rw [this]; rfl
  | succ c ih =>
    rintro hc ⟨x, hx0, hx1, hxq⟩
    by_cases hb : x.testBit (c + 1) = true
    · exact ⟨x, hxq, hx1, hb⟩
    · have hlt : x < 2 ^ (c + 1) := by
        apply Nat.lt_pow_two_of_testBit
        intro j hj
        by_cases hj2 : j = c + 1
        · subst hj2; simpa using hb
        · exact testBit_of_lt hx1 (by omega)
      obtain ⟨q, hq1, hq2, hq3⟩ := ih (by omega) ⟨x, hx0, hlt, hxq⟩
      have hqN : q < 2 ^ (W * H) := lt_two_pow_of_le hq2 (by omega)
      have hrow := quiet_top_in_last_row W H q c hW hqN hq1 hq3 hq2
      obtain ⟨t1, t2⟩ := hflip_top W H q c hW hqN hq3 hq2 hrow hc
      exact ⟨hflip W H q, hflip_quiet W H q hW hqN hq1, t2, t1⟩

theorem quiet_with_top_ge (W H : Nat) (hW : 0 < W) (r : Nat)
    (hex : ∃ x, x ≠ 0 ∧ x < 2 ^ (r + 1) ∧ flipBitset W H 0 x = 0) :
    ∀ c, r ≤ c → c < W * H →
      ∃ q, flipBitset W H 0 q = 0 ∧ q < 2 ^ (c + 1) ∧ q.testBit c = true := by
  intro c hrc hc
  obtain ⟨x, hx0, hx1, hxq⟩ := hex
  exact quiet_with_top W H hW c hc ⟨x, hx0, lt_two_pow_of_le hx1 (by omega), hxq⟩

/-! ## Rows of the working matrix annihilate quiet patterns -/

theorem good_mulVec_quiet (W H : Nat) (hW : 0 < W) (st : Mats) (hg : Good W H st) (q : Nat)
    (hqN : q < 2 ^ (W * H)) (hq : flipBitset W H 0 q = 0) :
    toMat (W * H) st.boardMatrix *ᵥ toVec (W * H) q = 0 := by
  obtain ⟨_, _, _, _, h5, _⟩ := hg
  rw [← h5, ← Matrix.mulVec_mulVec, ← toVec_flipBitset W H q hW hqN, hq, toVec_zero,
    Matrix.mulVec_zero]

theorem row_bit_zero_of_quiet_top (n m q c : Nat) (hc : c < n)
    (hdot : toVec n m ⬝ᵥ toVec n q = 0) (hlow : ∀ j, j < c → m.testBit j = false)
    (hq2 : q < 2 ^ (c + 1)) (hq3 : q.testBit c = true) : m.testBit c = false := by
  unfold Matrix.dotProduct at hdot
  rw [Finset.sum_eq_single (⟨c, hc⟩ : Fin n)] at hdot
  · simp only [toVec_apply, hq3, b2z_true, mul_one] at hdot
    exact (b2z_eq_zero _).mp hdot
  · intro j _ hjc
    have hne : (j : Nat) ≠ c := fun h => hjc (Fin.ext h)
    simp only [toVec_apply]
    rcases Nat.lt_or_gt_of_ne hne with h | h
    · rw [hlow j h]; simp [b2z_false]
    · rw [testBit_of_lt hq2 (by omega)]; simp [b2z_false]
  · intro h
    exact absurd (Finset.mem_univ _) h

theorem exists_quiet_of_no_pivot (W H : Nat) (hW : 0 < W) (st : Mats) (hg : Good W H st)
    (r : Nat) (hr : r < W * H)
    (hz : ∀ i, r ≤ i → ∀ j, j ≤ r → (st.boardMatrix.getD i 0).testBit j = false) :
    ∃ x, x ≠ 0 ∧ x < 2 ^ (r + 1) ∧ flipBitset W H 0 x = 0 := by
  obtain ⟨_, _, _, _, h5, h6⟩ := hg
  let D : Matrix (Fin (W * H)) (Fin (W * H)) (ZMod 2) :=
    Matrix.of (fun i j => if (j : Nat) ≤ r then toMat (W * H) st.boardMatrix i j
      else if i = j then 1 else 0)
  have hD : ∀ i j, D i j = if (j : Nat) ≤ r then toMat (W * H) st.boardMatrix i j
      else if i = j then 1 else 0 := fun _ _ => rfl
  have hdet : D.det = 0 := by
    apply Matrix.det_eq_zero_of_row_eq_zero (⟨r, hr⟩ : Fin (W * H))
    intro j
    rw [hD]
    split
    · rename_i hj
      rw [toMat_apply, hz r (Nat.le_refl _) j hj]; rfl
    · rename_i hj
      have : (⟨r, hr⟩ : Fin (W * H)) ≠ j := by
        intro h
        apply hj
        rw [← h]
      simp [this]
  obtain ⟨v, hv0, hv⟩ := Matrix.exists_mulVec_eq_zero_iff.mpr hdet
  have hvhigh : ∀ i : Fin (W * H), r < (i : Nat) → v i = 0 := by
    intro i hi
    have := congrFun hv i
    simp only [Matrix.mulVec, Matrix.dotProduct, Pi.zero_apply] at this
    rw [Finset.sum_eq_single i] at this
    · rw [hD] at this
      have hni : ¬ ((i : Nat) ≤ r) := by omega
      simpa [hni] using this
    · intro j _ hji
      rw [hD]
      split
      · rename_i hj
        rw [toMat_apply, hz i (by omega) j hj]; simp [b2z_false]
      · have : i ≠ j := fun h => hji h.symm
        simp [this]
    · intro h
      exact absurd (Finset.mem_univ _) h
  have hMv : toMat (W * H) st.boardMatrix *ᵥ v = 0 := by
    funext i
    have := congrFun hv i
    simp only [Matrix.mulVec, Matrix.dotProduct, Pi.zero_apply] at this ⊢
    rw [← this]
    apply Finset.sum_congr rfl
    intro j _
    rw [hD]
    split
    · rfl
    · rename_i hj
      rw [hvhigh j (by omega)]
      simp
  have hAv : toMat (W * H) (buildMatrix W H) *ᵥ v = 0 := by
    rw [← h5, ← Matrix.mulVec_mulVec] at hMv
    exact Matrix.eq_zero_of_mulVec_eq_zero (by rw [h6]; exact one_ne_zero) hMv
  have hxN := ofVec_lt (W * H) v
  refine ⟨ofVec (W * H) v, ?_, ?_, ?_⟩
  · intro h0
    apply hv0
    rw [← toVec_ofVec (W * H) v, h0, toVec_zero]
  · apply Nat.lt_pow_two_of_testBit
    intro j hj
    by_cases hjn : j < W * H
    · rw [testBit_ofVec (W * H) v j hjn, hvhigh ⟨j, hjn⟩ (by simpa using hj)]
      decide
    · exact testBit_of_lt hxN (by omega)
  · apply toVec_inj (W * H) _ _
      (flipBitset_lt W H 0 _ hW (Nat.pos_pow_of_pos _ (by decide)) hxN)
      (Nat.pos_pow_of_pos _ (by decide))
    rw [toVec_flipBitset W H _ hW hxN, toVec_ofVec, hAv, toVec_zero]

theorem rows_zero_of_no_pivot (W H : Nat) (hW : 0 < W) (st : Mats) (hg : Good W H st)
    (r : Nat) (hr : r < W * H)
    (hz : ∀ i, r ≤ i → ∀ j, j ≤ r → (st.boardMatrix.getD i 0).testBit j = false) :
    ∀ i, r ≤ i → st.boardMatrix.getD i 0 = 0 := by
  intro i hi
  have hex := exists_quiet_of_no_pivot W H hW st hg r hr hz
  have hchain := quiet_with_top_ge W H hW r hex
  have hlt : st.boardMatrix.getD i 0 < 2 ^ (W * H) := hg.2.2.1 i
  by_cases hiN : i < W * H
  swap
  · exact getD_of_le _ _ (by rw [hg.1]; omega)
  have hbits : ∀ c, c < W * H → ∀ j, j ≤ c → (st.boardMatrix.getD i 0).testBit j = false := by
    intro c
    induction c with
    | zero =>
      intro _ j hj
      exact hz i hi j (by omega)
    | succ c ih =>
      intro hc j hj
      by_cases hjc : j ≤ c
      · exact ih (by omega) j hjc
      · have hjeq : j = c + 1 := by omega
        subst hjeq
        by_cases hcr : c + 1 ≤ r
        · exact hz i hi _ hcr
        · obtain ⟨q, hq1, hq2, hq3⟩ := hchain (c + 1) (by omega) hc
          have hqN : q < 2 ^ (W * H) := lt_two_pow_of_le hq2 (by omega)
          have hmul := good_mulVec_quiet W H hW st hg q hqN hq1
          have hrow := congrFun hmul ⟨i, hiN⟩
          simp only [Matrix.mulVec, Pi.zero_apply, toMat_row] at hrow
          exact row_bit_zero_of_quiet_top (W * H) _ q (c + 1) hc hrow
            (fun j hj => ih (by omega) j (by omega)) hq2 hq3
  apply Nat.eq_of_testBit_eq
  intro j
  rw [Nat.zero_testBit]
  by_cases hj : j < W * H
  · exact hbits j hj j (Nat.le_refl _)
  · exact testBit_of_lt hlt (by omega)

/-! ## The forward pass -/

theorem find_range'_spec (p : Nat → Bool) (d : Nat) :
    ∀ (len start : Nat),
      (((List.range' start len).find? p).getD d = d ∧
        ∀ i, start ≤ i → i < start + len → p i = false) ∨
      (start ≤ ((List.range' start len).find? p).getD d ∧
        ((List.range' start len).find? p).getD d < start + len ∧
        p (((List.range' start len).find? p).getD d) = true ∧
        ∀ i, start ≤ i → i < ((List.range' start len).find? p).getD d → p i = false) := by
  intro len
  induction len with
  | zero =>
    intro start
    left
    refine ⟨by simp, fun i h1 h2 => ?_⟩
    omega
  | succ len ih =>
    intro start
    rw [List.range'_succ, List.find?_cons]
    cases hp : p start with
    | true =>
      right
      simp only [Option.getD_some]
      exact ⟨Nat.le_refl _, by omega, hp, fun i h1 h2 => by omega⟩
    | false =>
      simp only
      rcases ih (start + 1) with ⟨h1, h2⟩ | ⟨h1, h2, h3, h4⟩
      · left
        refine ⟨h1, fun i hi1 hi2 => ?_⟩
        by_cases hi : i = start
        · rw [hi]; exact hp
        · exact h2 i (by omega) (by omega)
      · right
        refine ⟨by omega, by omega, h3, fun i hi1 hi2 => ?_⟩
        by_cases hi : i = start
        · rw [hi]; exact hp
        · exact h4 i (by omega) hi2

theorem findPivot_spec (n : Nat) (m : List Nat) (start col : Nat) (hs : start ≤ n) :
    (findPivot n m start col = n ∧
      ∀ i, start ≤ i → i < n → (m.getD i 0).testBit col = false) ∨
    (start ≤ findPivot n m start col ∧ findPivot n m start col < n ∧
      (m.getD (findPivot n m start col) 0).testBit col = true ∧
      ∀ i, start ≤ i → i < findPivot n m start col → (m.getD i 0).testBit col = false) := by
  unfold findPivot
  have hlen : start + (n - start) = n := by omega
  rcases find_range'_spec (fun row => (m.getD row 0).testBit col) n (n - start) start with
    ⟨h1, h2⟩ | ⟨h1, h2, h3, h4⟩
  · left
    rw [hlen] at h2
    exact ⟨h1, h2⟩
  · right
    rw [hlen] at h2
    exact ⟨h1, h2, h3, h4⟩

theorem elimStep_boardMatrix_length (col src : Nat) (st : Mats) (row : Nat) :
    (elimStep col src st row).boardMatrix.length = st.boardMatrix.length := by
  unfold elimStep
  split
  · simp [xorRow_length]
  · rfl

theorem elimStep_getD (col src : Nat) (st : Mats) (row i : Nat)
    (hrow : row < st.boardMatrix.length) :
    (elimStep col src st row).boardMatrix.getD i 0
      = if i = row ∧ (st.boardMatrix.getD row 0).testBit col = true
        then st.boardMatrix.getD row 0 ^^^ st.boardMatrix.getD src 0
        else st.boardMatrix.getD i 0 := by
  unfold elimStep
  by_cases hb : (st.boardMatrix.getD row 0).testBit col = true
  · simp only [hb, if_true, and_true]
    exact xorRow_getD _ _ _ _ hrow
  · rw [if_neg hb, if_neg (fun h => hb h.2)]

theorem elim_foldl_length (col src : Nat) :
    ∀ (rows : List Nat) (st : Mats),
      (rows.foldl (elimStep col src) st).boardMatrix.length = st.boardMatrix.length
  | [], _ => rfl
  | r :: rows, st => by
    rw [List.foldl_cons, elim_foldl_length col src rows, elimStep_boardMatrix_length]

theorem elim_foldl_getD (col src : Nat) :
    ∀ (rows : List Nat) (st : Mats), rows.Nodup → src ∉ rows →
      (∀ r ∈ rows, r < st.boardMatrix.length) →
      ∀ i, (rows.foldl (elimStep col src) st).boardMatrix.getD i 0
        = if i ∈ rows ∧ (st.boardMatrix.getD i 0).testBit col = true
          then st.boardMatrix.getD i 0 ^^^ st.boardMatrix.getD src 0
          else st.boardMatrix.getD i 0
  | [], st, _, _, _, i => by simp
  | r :: rows, st, hnd, hsrc, hlen, i => by
    rw [List.foldl_cons]
    have hnd2 := (List.nodup_cons.mp hnd)
    have hr_len : r < st.boardMatrix.length := hlen r (List.mem_cons_self _ _)
    have hsr : src ≠ r := fun h => hsrc (h ▸ List.mem_cons_self _ _)
    have hsrc2 : src ∉ rows := fun h => hsrc (List.mem_cons_of_mem _ h)
    rw [elim_foldl_getD col src rows (elimStep col src st r) hnd2.2 hsrc2
      (fun r2 hr2 => by
        rw [elimStep_boardMatrix_length]
        exact hlen r2 (List.mem_cons_of_mem _ hr2)) i]
    rw [elimStep_getD col src st r i hr_len, elimStep_getD col src st r src hr_len]
    simp only [hsr, false_and, if_false]
    by_cases hir : i = r
    · subst hir
      have hni : i ∉ rows := hnd2.1
      simp only [hni, false_and, if_false, true_and, List.mem_cons, true_or]
    · have hmem : i ∈ r :: rows ↔ i ∈ rows := by
        simp [List.mem_cons, hir]
      simp only [hir, false_and, if_false, hmem]

theorem swap_state (W H : Nat) (st : Mats) (p f : Nat) (hp : p < W * H) (hf : f < W * H)
    (hg : Good W H st) :
    Good W H (if p ≠ f then
        { boardMatrix := swapRows st.boardMatrix p f, identity := swapRows st.identity p f }
      else st) ∧
    ∀ i, (if p ≠ f then
        ({ boardMatrix := swapRows st.boardMatrix p f,
           identity := swapRows st.identity p f } : Mats)
      else st).boardMatrix.getD i 0
      = if i = p then st.boardMatrix.getD f 0
        else if i = f then st.boardMatrix.getD p 0 else st.boardMatrix.getD i 0 := by
  by_cases hpf : p = f
  · subst hpf
    simp only [ne_eq, not_true_eq_false, if_false]
    refine ⟨hg, fun i => ?_⟩
    by_cases h : i = p
    · subst h; simp
    · simp [h]
  · simp only [ne_eq, hpf, not_false_eq_true, if_true]
    refine ⟨good_swapRows W H st p f hp hf hpf hg, fun i => ?_⟩
    exact swapRows_getD _ _ _ _ (by rw [hg.1]; exact hp) (by rw [hg.1]; exact hf) hpf

theorem mem_rows_below (p n i : Nat) :
    i ∈ List.range' (p + 1) (n - (p + 1)) ↔ (p + 1 ≤ i ∧ i < n) := by
  rw [List.mem_range'_1]
  omega

theorem forwardStep_inv (W H : Nat) (hW : 0 < W) (col : Nat) (hcol : col < W * H)
    (s : Mats × Nat) (hinv : FwdInv W H col s) :
    FwdInv W H (col + 1) (forwardStep (W * H) s col) := by
  obtain ⟨hg, h1, h2, h3, h4, h5⟩ := hinv
  have hlenM : s.1.boardMatrix.length = W * H := hg.1
  have hbeyond : ∀ i, W * H ≤ i → s.1.boardMatrix.getD i 0 = 0 :=
    fun i hi => getD_of_le _ _ (by rw [hlenM]; exact hi)
  unfold forwardStep
  dsimp only
  rcases findPivot_spec (W * H) s.1.boardMatrix s.2 col h2 with
    ⟨hp, hnone⟩ | ⟨hp1, hp2, hp3, hp4⟩
  · -- no pivot in this column
    simp only [hp, if_true]
    have hcolz : ∀ i, s.2 ≤ i → ∀ j, j < col + 1 →
        (s.1.boardMatrix.getD i 0).testBit j = false := by
      intro i hi j hj
      by_cases hjc : j < col
      · exact h4 i hi j hjc
      · have hjeq : j = col := by omega
        subst hjeq
        by_cases hiN : i < W * H
        · exact hnone i hi hiN
        · rw [hbeyond i (by omega)]; exact Nat.zero_testBit _
    refine ⟨hg, by omega, h2, h3, hcolz, ?_⟩
    right
    rcases h5 with h5 | h5
    · apply rows_zero_of_no_pivot W H hW s.1 hg s.2 (by omega)
      intro i hi j hj
      exact hcolz i hi j (by omega)
    · exact h5
  · -- pivot found
    generalize hpd : findPivot (W * H) s.1.boardMatrix s.2 col = p at hp1 hp2 hp3 hp4 ⊢
    have hnfr : s.2 = col := by
      rcases h5 with h5 | h5
      · exact h5
      · exfalso
        rw [h5 p hp1, Nat.zero_testBit] at hp3
        exact absurd hp3 (by decide)
    have hpne : ¬ (p = W * H) := by omega
    simp only [hpne, if_false]
    obtain ⟨hg1, hrows1⟩ := swap_state W H s.1 p s.2 hp2 (by omega) hg
    generalize hm1 : (if p ≠ s.2 then
        ({ boardMatrix := swapRows s.1.boardMatrix p s.2,
           identity := swapRows s.1.identity p s.2 } : Mats)
      else s.1) = m1 at hg1 hrows1 ⊢
    have hlen1 : m1.boardMatrix.length = W * H := hg1.1
    have hg2 : Good W H ((List.range' (p + 1) (W * H - (p + 1))).foldl (elimStep col s.2) m1) := by
      apply good_elim_foldl W H col s.2 (by omega) _ m1 _ hg1
      intro r hr
      rw [mem_rows_below] at hr
      omega
    have hrows2 := elim_foldl_getD col s.2 (List.range' (p + 1) (W * H - (p + 1))) m1
      (List.nodup_range' _ _) (by rw [mem_rows_below]; omega)
      (by intro r hr; rw [mem_rows_below] at hr; omega)
    generalize hm2 : (List.range' (p + 1) (W * H - (p + 1))).foldl (elimStep col s.2) m1 = m2
      at hg2 hrows2 ⊢
    simp only [mem_rows_below] at hrows2
    -- rows of the state after the swap
    have r1_nfr : m1.boardMatrix.getD s.2 0 = s.1.boardMatrix.getD p 0 := by
      rw [hrows1]
      by_cases h : s.2 = p
      · simp [h]
      · simp [h]
    have r1_low : ∀ i, s.2 ≤ i → ∀ j, j < col → (m1.boardMatrix.getD i 0).testBit j = false := by
      intro i hi j hj
      rw [hrows1]
      split
      · exact h4 _ (Nat.le_refl _) j hj
      · split
        · exact h4 _ hp1 j hj
        · exact h4 _ hi j hj
    have r1_col : ∀ i, s.2 + 1 ≤ i → i ≤ p → (m1.boardMatrix.getD i 0).testBit col = false := by
      intro i hi hip
      rw [hrows1]
      split
      · exact hp4 s.2 (Nat.le_refl _) (by omega)
      · rename_i hne
        have : ¬ (i = s.2) := by omega
        simp only [this, if_false]
        exact hp4 i (by omega) (by omega)
    refine ⟨hg2, by simp only; omega, by simp only; omega, ?_, ?_, ?_⟩
    · intro i hi
      simp only at hi ⊢
      rw [hrows2]
      have hnot : ¬ (p + 1 ≤ i ∧ i < W * H) := by omega
      simp only [hnot, false_and, if_false]
      by_cases hin : i = s.2
      · rw [hin, r1_nfr]
        refine ⟨by rw [hnfr]; exact hp3, fun j hj => ?_⟩
        exact h4 p hp1 j (by omega)
      · rw [hrows1]
        have : ¬ (i = p) := by omega
        simp only [this, hin, if_false]
        exact h3 i (by omega)
    · intro i hi j hj
      simp only at hi ⊢
      rw [hrows2]
      by_cases hjc : j < col
      · split
        · rw [Nat.testBit_xor, r1_low i (by omega) j hjc, r1_low s.2 (Nat.le_refl _) j hjc]
          rfl
        · exact r1_low i (by omega) j hjc
      · have hjeq : j = col := by omega
        subst hjeq
        split
        · rename_i hc
          rw [Nat.testBit_xor, hc.2, r1_nfr, hp3]
          rfl
        · rename_i hc
          by_cases hiN : i < W * H
          · by_cases hip : i ≤ p
            · exact r1_col i hi hip
            · have : p + 1 ≤ i ∧ i < W * H := ⟨by omega, hiN⟩
              have hb : ¬ ((m1.boardMatrix.getD i 0).testBit j = true) := fun h => hc ⟨this, h⟩
              simpa using hb
          · rw [getD_of_le _ _ (by rw [hlen1]; omega)]
            exact Nat.zero_testBit _
    · left
      simp only
      omega

theorem forwardPass_fold_inv (W H : Nat) (hW : 0 < W) (m : Nat) (hm : m ≤ W * H) :
    FwdInv W H m ((List.range m).foldl (forwardStep (W * H))
      ({ boardMatrix := buildMatrix W H, identity := identityMatrix (W * H) }, 0)) := by
  induction m with
  | zero =>
    refine ⟨good_init W H hW, Nat.le_refl _, Nat.zero_le _, ?_, ?_, Or.inl rfl⟩
    · intro i hi
      exact absurd hi (Nat.not_lt_zero _)
    · intro i _ j hj
      exact absurd hj (Nat.not_lt_zero _)
  | succ m ih =>
    rw [List.range_succ, List.foldl_append]
    simp only [List.foldl_cons, List.foldl_nil]
    exact forwardStep_inv W H hW m (by omega) _ (ih (by omega))

theorem forwardPass_inv (W H : Nat) (hW : 0 < W) :
    FwdInv W H (W * H) (forwardPass (W * H) (buildMatrix W H)) :=
  forwardPass_fold_inv W H hW (W * H) (Nat.le_refl _)

/-! ## The backward pass -/

theorem bsShl_ne_zero_iff (n x k p : Nat) (hp : x.testBit p = true)
    (hlow : ∀ j, j < p → x.testBit j = false) : bsShl n x k ≠ 0 ↔ p + k < n := by
  constructor
  · intro h
    by_contra hlt
    apply h
    apply Nat.eq_of_testBit_eq
    intro j
    rw [testBit_bsShl, Nat.zero_testBit]
    by_cases hj : j < n
    · by_cases hk : k ≤ j
      · have : x.testBit (j - k) = false := hlow _ (by omega)
        simp [this]
      · simp [hk]
    · simp [hj]
  · intro h hz
    have := testBit_bsShl n x k (p + k)
    rw [hz, Nat.zero_testBit] at this
    have e : p + k - k = p := by omega
    have hk : k ≤ p + k := by omega
    rw [e, hp] at this
    simp [h, hk] at this

theorem freeColLoop_exit (n row : Nat) :
    ∀ (fuel k : Nat) (fc : List Nat), n ≤ k + fuel →
      bsShl n row (freeColLoop n row fuel k fc).1 = 0 := by
  intro fuel
  induction fuel with
  | zero =>
    intro k fc h
    simp only [freeColLoop]
    apply Nat.eq_of_testBit_eq
    intro j
    rw [testBit_bsShl, Nat.zero_testBit]
    by_cases hj : j < n
    · have : ¬ (k ≤ j) := by omega
      simp [this]
    · simp [hj]
  | succ fuel ih =>
    intro k fc h
    unfold freeColLoop
    split
    · exact ih (k + 1) _ (by omega)
    · rename_i hc
      simpa using hc

theorem freeColLoop_spec (n x p : Nat) (hp : x.testBit p = true)
    (hlow : ∀ j, j < p → x.testBit j = false) :
    ∀ (fuel k : Nat) (fc : List Nat), k ≤ n - p → n - p - k ≤ fuel →
      freeColLoop n x fuel k fc = (n - p, fc ++ (List.range' (p + 1) (n - p - k)).reverse) := by
  intro fuel
  induction fuel with
  | zero =>
    intro k fc h1 h2
    have : n - p - k = 0 := by omega
    simp only [freeColLoop, this, List.range'_zero, List.reverse_nil, List.append_nil]
    congr 1
    omega
  | succ fuel ih =>
    intro k fc h1 h2
    unfold freeColLoop
    by_cases hc : p + k < n
    · have hcond : bsShl n x k ≠ 0 := (bsShl_ne_zero_iff n x k p hp hlow).mpr hc
      rw [if_pos hcond, ih (k + 1) _ (by omega) (by omega)]
      have hlen : n - p - k = (n - p - (k + 1)) + 1 := by omega
      rw [hlen, List.range'_concat, List.reverse_append, List.append_assoc]
      congr 2
      simp only [List.reverse_cons, List.reverse_nil, List.nil_append, List.singleton_append,
        Nat.mul_one]
      congr 1
      omega
    · have hcond : ¬ (bsShl n x k ≠ 0) := fun h => hc ((bsShl_ne_zero_iff n x k p hp hlow).mp h)
      rw [if_neg hcond]
      have : n - p - k = 0 := by omega
      simp only [this, List.range'_zero, List.reverse_nil, List.append_nil]
      congr 1
      omega

theorem mem_rows_above (row i : Nat) : i ∈ (List.range row).reverse ↔ i < row := by
  simp

theorem backwardStep_inv (W H r t : Nat) (ht : 1 ≤ t) (htN : t ≤ W * H)
    (hrN : r ≤ W * H) (s : Back) (hinv : BackInv W H r t s) :
    BackInv W H r (t - 1) (backwardStep (W * H) s (t - 1)) := by
  obtain ⟨hg, hz, hu, hc, hk⟩ := hinv
  have hlenM : s.m.boardMatrix.length = W * H := hg.1
  unfold backwardStep
  dsimp only
  by_cases hrow : r ≤ t - 1
  · -- a zero row: skipped
    rw [if_pos (hz (t - 1) hrow)]
    refine ⟨hg, hz, hu, ?_, ?_⟩
    · intro c h1 h2
      omega
    · left
      rcases hk with ⟨_, h2, h3⟩ | ⟨h1, _, _⟩
      · exact ⟨hrow, h2, h3⟩
      · omega
  · -- a pivot row
    have hrow2 : t - 1 < r := by omega
    obtain ⟨hbit, hlow⟩ := hu (t - 1) hrow2
    have hne : ¬ (s.m.boardMatrix.getD (t - 1) 0 = 0) := by
      intro h0
      rw [h0, Nat.zero_testBit] at hbit
      exact absurd hbit (by decide)
    rw [if_neg hne]
    have hloop : freeColLoop (W * H) (s.m.boardMatrix.getD (t - 1) 0) (W * H + 1) s.k s.freeCol
        = (W * H - (t - 1), descList (W * H) r) := by
      rcases hk with ⟨h1, h2, h3⟩ | ⟨h1, h2, h3⟩
      · have hr : r = t := by omega
        rw [freeColLoop_spec (W * H) _ (t - 1) hbit hlow (W * H + 1) s.k s.freeCol
          (by omega) (by omega), h2, h3]
        simp only [List.nil_append, descList]
        congr 3 <;> omega
      · rw [freeColLoop_spec (W * H) _ (t - 1) hbit hlow (W * H + 1) s.k s.freeCol
          (by omega) (by omega), h2, h3]
        have : W * H - (t - 1) - (W * H - t + 1) = 0 := by omega
        simp only [this, List.range'_zero, List.reverse_nil, List.append_nil]
    rw [hloop]
    dsimp only
    have hpm : W * H - (W * H - (t - 1)) = t - 1 := by omega
    rw [hpm]
    have hg2 : Good W H ((List.range (t - 1)).reverse.foldl (elimStep (t - 1) (t - 1)) s.m) := by
      apply good_elim_foldl W H (t - 1) (t - 1) (by omega) _ s.m _ hg
      intro i hi
      rw [mem_rows_above] at hi
      omega
    have hrows := elim_foldl_getD (t - 1) (t - 1) (List.range (t - 1)).reverse s.m
      (List.nodup_reverse.mpr (List.nodup_range _)) (by rw [mem_rows_above]; omega)
      (by intro i hi; rw [mem_rows_above] at hi; omega)
    generalize (List.range (t - 1)).reverse.foldl (elimStep (t - 1) (t - 1)) s.m = m2
      at hg2 hrows ⊢
    simp only [mem_rows_above] at hrows
    have hrowc : ∀ c, t ≤ c → c < r → (s.m.boardMatrix.getD (t - 1) 0).testBit c = false :=
      fun c h1 h2 => hc c h1 h2 (t - 1) (by omega)
    refine ⟨hg2, ?_, ?_, ?_, ?_⟩
    · intro i hi
      rw [hrows]
      have : ¬ (i < t - 1) := by omega
      simp only [this, false_and, if_false]
      exact hz i hi
    · intro i hi
      rw [hrows]
      split
      · rename_i hcnd
        refine ⟨?_, fun j hj => ?_⟩
        · rw [Nat.testBit_xor, (hu i hi).1, hlow i hcnd.1]; rfl
        · rw [Nat.testBit_xor, (hu i hi).2 j hj, hlow j (by omega)]; rfl
      · exact hu i hi
    · intro c h1 h2 i hic
      rw [hrows]
      by_cases hct : c = t - 1
      · subst hct
        split
        · rename_i hcnd
          rw [Nat.testBit_xor, hcnd.2, hbit]; rfl
        · rename_i hcnd
          by_cases hi1 : i < t - 1
          · have hb : ¬ ((s.m.boardMatrix.getD i 0).testBit (t - 1) = true) :=
              fun h => hcnd ⟨hi1, h⟩
            simpa using hb
          · by_cases hir : i < r
            · exact (hu i hir).2 (t - 1) (by omega)
            · rw [hz i (by omega)]; exact Nat.zero_testBit _
      · have hct2 : t ≤ c := by omega
        split
        · rw [Nat.testBit_xor, hc c hct2 h2 i hic, hrowc c hct2 h2]; rfl
        · exact hc c hct2 h2 i hic
    · right
      refine ⟨hrow2, ?_, rfl⟩
      show W * H - (t - 1) + 1 = W * H - (t - 1) + 1
      rfl

theorem backwardPass_fold_inv (W H r : Nat) (hrN : r ≤ W * H) :
    ∀ (m : Nat), m ≤ W * H → ∀ (s : Back), BackInv W H r m s →
      BackInv W H r 0 ((List.range m).reverse.foldl (backwardStep (W * H)) s) := by
  intro m
  induction m with
  | zero =>
    intro _ s hs
    exact hs
  | succ m ih =>
    intro hm s hs
    rw [List.range_succ, List.reverse_append]
    simp only [List.reverse_cons, List.reverse_nil, List.nil_append, List.singleton_append,
      List.foldl_cons]
    apply ih (by omega)
    have := backwardStep_inv W H r (m + 1) (by omega) hm hrN s hs
    simpa using this

/-! ## The result of `rowReduce` -/

theorem companion_row (W H : Nat) (hW : 0 < W) (st : Mats) (hg : Good W H st) (i : Nat)
    (hi : i < W * H) :
    flipBitset W H 0 (st.identity.getD i 0) = st.boardMatrix.getD i 0 := by
  obtain ⟨_, _, h3, h4, h5, _⟩ := hg
  apply toVec_inj (W * H) _ _
    (flipBitset_lt W H 0 _ hW (Nat.pos_pow_of_pos _ (by decide)) (h4 i)) (h3 i)
  rw [toVec_flipBitset W H _ hW (h4 i), ← toMat_buildMatrix_symm W H hW,
    Matrix.mulVec_transpose]
  have hrow := congrFun h5 (⟨i, hi⟩ : Fin (W * H))
  funext j
  have := congrFun hrow j
  rw [Matrix.mul_apply] at this
  rw [← toMat_row (W * H) st.boardMatrix ⟨i, hi⟩, ← this]
  rfl

theorem one_not_quiet (W H : Nat) (hW : 0 < W) (hH : 0 < H) : flipBitset W H 0 1 ≠ 0 := by
  intro h
  have hN : 0 < W * H := Nat.mul_pos hW hH
  have hb := testBit_flipBitset_zero W H (2 ^ 0) 0 hW (two_pow_lt_of_lt hN)
  rw [toggleBit_two_pow W 0 0 hW] at hb
  simp only [Nat.pow_zero] at hb
  rw [h, Nat.zero_testBit] at hb
  simp [hN, adj] at hb

theorem good_rows_not_all_zero (W H : Nat) (hW : 0 < W) (hH : 0 < H) (st : Mats)
    (hg : Good W H st) : ¬ (∀ i, st.boardMatrix.getD i 0 = 0) := by
  intro hz
  have hN : 0 < W * H := Nat.mul_pos hW hH
  obtain ⟨_, _, _, _, h5, h6⟩ := hg
  have hM : toMat (W * H) st.boardMatrix = 0 := by
    ext i j
    rw [toMat_apply, hz i, Nat.zero_testBit]
    rfl
  have h1 : toMat (W * H) st.identity *ᵥ
      (toMat (W * H) (buildMatrix W H) *ᵥ toVec (W * H) 1) = 0 := by
    rw [Matrix.mulVec_mulVec, h5, hM, Matrix.zero_mulVec]
  have h2 := Matrix.eq_zero_of_mulVec_eq_zero (by rw [h6]; exact one_ne_zero) h1
  have hone : (1 : Nat) < 2 ^ (W * H) := by
    have := two_pow_lt_of_lt hN
    simpa using this
  rw [← toVec_flipBitset W H 1 hW hone] at h2
  apply one_not_quiet W H hW hH
  apply toVec_inj (W * H) _ _
    (flipBitset_lt W H 0 _ hW (Nat.pos_pow_of_pos _ (by decide)) hone)
    (Nat.pos_pow_of_pos _ (by decide))
  rw [h2, toVec_zero]

theorem forwardPass_result (W H : Nat) (hW : 0 < W) (hH : 0 < H) :
    Good W H (forwardPass (W * H) (buildMatrix W H)).1 ∧
    1 ≤ (forwardPass (W * H) (buildMatrix W H)).2 ∧
    (forwardPass (W * H) (buildMatrix W H)).2 ≤ W * H ∧
    (∀ i, (forwardPass (W * H) (buildMatrix W H)).2 ≤ i →
      (forwardPass (W * H) (buildMatrix W H)).1.boardMatrix.getD i 0 = 0) ∧
    (∀ i, i < (forwardPass (W * H) (buildMatrix W H)).2 →
      ((forwardPass (W * H) (buildMatrix W H)).1.boardMatrix.getD i 0).testBit i = true ∧
      ∀ j, j < i →
        ((forwardPass (W * H) (buildMatrix W H)).1.boardMatrix.getD i 0).testBit j = false) := by
  obtain ⟨hg, _, h2, h3, h4, _⟩ := forwardPass_inv W H hW
  generalize forwardPass (W * H) (buildMatrix W H) = f at hg h2 h3 h4 ⊢
  have hzero : ∀ i, f.2 ≤ i → f.1.boardMatrix.getD i 0 = 0 := by
    intro i hi
    apply Nat.eq_of_testBit_eq
    intro j
    rw [Nat.zero_testBit]
    by_cases hj : j < W * H
    · exact h4 i hi j hj
    · exact testBit_of_lt (hg.2.2.1 i) (by omega)
  refine ⟨hg, ?_, h2, hzero, h3⟩
  rcases Nat.eq_zero_or_pos f.2 with h0 | hpos
  · exfalso
    apply good_rows_not_all_zero W H hW hH f.1 hg
    intro i
    exact hzero i (by omega)
  · exact hpos

theorem backwardPass_result (W H : Nat) (hW : 0 < W) (hH : 0 < H) :
    BackInv W H (forwardPass (W * H) (buildMatrix W H)).2 0
      (backwardPass (W * H) (forwardPass (W * H) (buildMatrix W H)).1) := by
  obtain ⟨hg, h1, h2, h3, h4⟩ := forwardPass_result W H hW hH
  unfold backwardPass
  apply backwardPass_fold_inv W H _ h2 (W * H) (Nat.le_refl _)
  refine ⟨hg, h3, h4, ?_, Or.inl ⟨h2, rfl, rfl⟩⟩
  intro c hc1 hc2
  omega

/-- What `rowReduce` leaves behind: with `r` the rank, the working matrix has zero rows
from `r` on and the `r x r` identity in its top-left block, the companion satisfies the
invariant `Good`, and `nullSpace` holds the companion rows `W*H - 1, ..., r`. -/
theorem rowReduce_spec (W H : Nat) (hW : 0 < W) (hH : 0 < H) :
    ∃ r, 1 ≤ r ∧ r ≤ W * H ∧
      Good W H { boardMatrix := (rowReduce W H).boardMatrix,
                 identity := (rowReduce W H).invMatrix } ∧
      (∀ i, r ≤ i → (rowReduce W H).boardMatrix.getD i 0 = 0) ∧
      (∀ i, i < r → ∀ j, j < r →
        ((rowReduce W H).boardMatrix.getD i 0).testBit j = decide (i = j)) ∧
      (rowReduce W H).nullSpace
        = (descList (W * H) r).map (fun i => (rowReduce W H).invMatrix.getD i 0) := by
  obtain ⟨_, h1, h2, _, _⟩ := forwardPass_result W H hW hH
  obtain ⟨bg, bz, bu, bc, bk⟩ := backwardPass_result W H hW hH
  refine ⟨(forwardPass (W * H) (buildMatrix W H)).2, h1, h2, bg, bz, ?_, ?_⟩
  · intro i hi j hj
    by_cases hij : i = j
    · subst hij
      simp only [decide_True]
      exact (bu i hi).1
    · simp only [hij, decide_False]
      exact bc j (Nat.zero_le _) hj i hij
  · rcases bk with ⟨hk1, _, _⟩ | ⟨_, _, hk3⟩
    · omega
    · show List.map _ _ = _
      rw [hk3]
      rfl

/-! ## The solver -/

theorem mem_descList (n r i : Nat) : i ∈ descList n r ↔ (r ≤ i ∧ i < n) := by
  unfold descList
  rw [List.mem_reverse, List.mem_range'_1]
  omega

theorem descList_length (n r : Nat) : (descList n r).length = n - r := by
  simp [descList]

theorem mulVec_cancel (n : Nat) (E : Matrix (Fin n) (Fin n) (ZMod 2)) (hE : E.det = 1)
    (u w : Fin n → ZMod 2) (h : E *ᵥ u = E *ᵥ w) : u = w := by
  have h0 : E *ᵥ (u - w) = 0 := by rw [Matrix.mulVec_sub, h, sub_self]
  have := Matrix.eq_zero_of_mulVec_eq_zero (by rw [hE]; exact one_ne_zero) h0
  exact sub_eq_zero.mp this

theorem reduced_mulVec_fix (n r : Nat) (m : List Nat)
    (hz : ∀ i, r ≤ i → m.getD i 0 = 0)
    (hid : ∀ i, i < r → ∀ j, j < r → (m.getD i 0).testBit j = decide (i = j))
    (u : Fin n → ZMod 2) (hu : ∀ i : Fin n, r ≤ (i : Nat) → u i = 0) :
    toMat n m *ᵥ u = u := by
  funext i
  simp only [Matrix.mulVec, Matrix.dotProduct]
  by_cases hi : r ≤ (i : Nat)
  · rw [hu i hi]
    apply Finset.sum_eq_zero
    intro j _
    rw [toMat_apply, hz i hi, Nat.zero_testBit]
    simp [b2z_false]
  · rw [Finset.sum_eq_single i]
    · rw [toMat_apply, hid i (by omega) i (by omega)]
      simp [b2z]
    · intro j _ hji
      by_cases hj : r ≤ (j : Nat)
      · rw [hu j hj]; simp
      · rw [toMat_apply, hid i (by omega) j (by omega)]
        have : ¬ ((i : Nat) = j) := fun h => hji (Fin.ext h.symm)
        simp [this, b2z]
    · intro h
      exact absurd (Finset.mem_univ _) h

theorem reduced_mulVec_high (n r : Nat) (m : List Nat)
    (hz : ∀ i, r ≤ i → m.getD i 0 = 0) (u : Fin n → ZMod 2) (i : Fin n)
    (hi : r ≤ (i : Nat)) : (toMat n m *ᵥ u) i = 0 := by
  simp only [Matrix.mulVec, Matrix.dotProduct]
  apply Finset.sum_eq_zero
  intro j _
  rw [toMat_apply, hz i hi, Nat.zero_testBit]
  simp [b2z_false]

/-- The toggle pattern of the particular solution is the target whenever the particular
solution has no bit at or above the rank. -/
theorem particular_of_low (W H : Nat) (hW : 0 < W) (st : Mats) (hg : Good W H st) (r : Nat)
    (hz : ∀ i, r ≤ i → st.boardMatrix.getD i 0 = 0)
    (hid : ∀ i, i < r → ∀ j, j < r → (st.boardMatrix.getD i 0).testBit j = decide (i = j))
    (b : Nat) (hb : b < 2 ^ (W * H))
    (hlow : ∀ i, r ≤ i → (matrixMulti (W * H) st.identity b).testBit i = false) :
    flipBitset W H 0 (matrixMulti (W * H) st.identity b) = b := by
  have hx0 := matrixMulti_lt (W * H) st.identity b
  apply toVec_inj (W * H) _ _
    (flipBitset_lt W H 0 _ hW (Nat.pos_pow_of_pos _ (by decide)) hx0) hb
  rw [toVec_flipBitset W H _ hW hx0]
  apply mulVec_cancel (W * H) (toMat (W * H) st.identity) hg.2.2.2.2.2
  rw [Matrix.mulVec_mulVec, hg.2.2.2.2.1, ← toVec_matrixMulti (W * H) st.identity b]
  apply reduced_mulVec_fix (W * H) r st.boardMatrix hz hid
  intro i hi
  rw [toVec_apply, hlow i hi]
  rfl

theorem particular_low_of_reachable (W H : Nat) (hW : 0 < W) (st : Mats) (hg : Good W H st)
    (r : Nat) (hz : ∀ i, r ≤ i → st.boardMatrix.getD i 0 = 0) (y : Nat)
    (hy : y < 2 ^ (W * H)) (i : Nat) (hi : r ≤ i) :
    (matrixMulti (W * H) st.identity (flipBitset W H 0 y)).testBit i = false := by
  by_cases hiN : i < W * H
  · have h1 := congrFun (toVec_matrixMulti (W * H) st.identity (flipBitset W H 0 y)) ⟨i, hiN⟩
    rw [toVec_flipBitset W H y hW hy, Matrix.mulVec_mulVec, hg.2.2.2.2.1,
      reduced_mulVec_high (W * H) r st.boardMatrix hz _ ⟨i, hiN⟩ hi, toVec_apply] at h1
    exact (b2z_eq_zero _).mp h1
  · exact testBit_of_lt (matrixMulti_lt _ _ _) (by omega)

theorem nullSpace_quiet (W H : Nat) (hW : 0 < W) (hH : 0 < H) :
    ∀ v ∈ (rowReduce W H).nullSpace, v < 2 ^ (W * H) ∧ flipBitset W H 0 v = 0 := by
  obtain ⟨r, _, _, hg, hz, _, hns⟩ := rowReduce_spec W H hW hH
  intro v hv
  rw [hns, List.mem_map] at hv
  obtain ⟨i, hi, rfl⟩ := hv
  rw [mem_descList] at hi
  refine ⟨hg.2.2.2.1 i, ?_⟩
  have := companion_row W H hW _ hg i hi.2
  simp only at this
  rw [this, hz i hi.1]

theorem genSol_fold_quiet (W H : Nat) (hW : 0 < W) (ns : List Nat)
    (hq : ∀ v ∈ ns, v < 2 ^ (W * H) ∧ flipBitset W H 0 v = 0) (bs : Nat) :
    ∀ (m : Nat), m ≤ ns.length →
      (List.range m).foldl (fun g j => if bs.testBit j then g ^^^ ns.getD j 0 else g) 0
          < 2 ^ (W * H) ∧
      flipBitset W H 0
        ((List.range m).foldl (fun g j => if bs.testBit j then g ^^^ ns.getD j 0 else g) 0) = 0 := by
  intro m
  induction m with
  | zero =>
    intro _
    refine ⟨Nat.pos_pow_of_pos _ (by decide), ?_⟩
    simp only [List.range_zero, List.foldl_nil]
    have := flipBitset_xor_right W H 0 0 hW (Nat.pos_pow_of_pos _ (by decide))
      (Nat.pos_pow_of_pos _ (by decide))
    simp only [Nat.xor_self] at this
    exact this
  | succ m ih =>
    intro hm
    obtain ⟨h1, h2⟩ := ih (by omega)
    rw [List.range_succ, List.foldl_append]
    simp only [List.foldl_cons, List.foldl_nil]
    split
    · have hmem : ns.getD m 0 ∈ ns := by
        rw [List.getD_eq_getElem _ _ (by omega)]
        exact List.getElem_mem _
      obtain ⟨q1, q2⟩ := hq _ hmem
      refine ⟨Nat.xor_lt_two_pow h1 q1, ?_⟩
      rw [flipBitset_xor_right W H _ _ hW h1 q1, h2, q2]
      rfl
    · exact ⟨h1, h2⟩

theorem genSol_quiet (W H : Nat) (hW : 0 < W) (ns : List Nat)
    (hq : ∀ v ∈ ns, v < 2 ^ (W * H) ∧ flipBitset W H 0 v = 0) (bs : Nat) :
    genSol ns bs < 2 ^ (W * H) ∧ flipBitset W H 0 (genSol ns bs) = 0 :=
  genSol_fold_quiet W H hW ns hq bs ns.length (Nat.le_refl _)

theorem candidate_solves (W H : Nat) (hW : 0 < W) (ns : List Nat)
    (hq : ∀ v ∈ ns, v < 2 ^ (W * H) ∧ flipBitset W H 0 v = 0) (b x bs : Nat)
    (hx : x < 2 ^ (W * H)) (hxb : flipBitset W H 0 x = b) :
    genSol ns bs ^^^ x < 2 ^ (W * H) ∧ flipBitset W H 0 (genSol ns bs ^^^ x) = b := by
  obtain ⟨g1, g2⟩ := genSol_quiet W H hW ns hq bs
  refine ⟨Nat.xor_lt_two_pow g1 hx, ?_⟩
  rw [flipBitset_xor_right W H _ _ hW g1 hx, g2, hxb, Nat.zero_xor]

theorem searchStep_solves (W H : Nat) (hW : 0 < W) (ns : List Nat)
    (hq : ∀ v ∈ ns, v < 2 ^ (W * H) ∧ flipBitset W H 0 v = 0) (b x i : Nat)
    (hx : x < 2 ^ (W * H)) (hxb : flipBitset W H 0 x = b) :
    searchStep (W * H) ns x i < 2 ^ (W * H) ∧
      flipBitset W H 0 (searchStep (W * H) ns x i) = b := by
  unfold searchStep
  dsimp only
  split
  · exact candidate_solves W H hW ns hq b x _ hx hxb
  · exact ⟨hx, hxb⟩

theorem search_foldl_solves (W H : Nat) (hW : 0 < W) (ns : List Nat)
    (hq : ∀ v ∈ ns, v < 2 ^ (W * H) ∧ flipBitset W H 0 v = 0) (b : Nat) :
    ∀ (l : List Nat) (x : Nat), x < 2 ^ (W * H) → flipBitset W H 0 x = b →
      l.foldl (searchStep (W * H) ns) x < 2 ^ (W * H) ∧
        flipBitset W H 0 (l.foldl (searchStep (W * H) ns) x) = b
  | [], x, hx, hxb => ⟨hx, hxb⟩
  | i :: l, x, hx, hxb => by
    rw [List.foldl_cons]
    obtain ⟨h1, h2⟩ := searchStep_solves W H hW ns hq b x i hx hxb
    exact search_foldl_solves W H hW ns hq b l _ h1 h2

theorem solveLinAlg_solves_of_particular (W H : Nat) (hW : 0 < W) (hH : 0 < H) (b : Nat)
    (hp : flipBitset W H 0 (matrixMulti (W * H) (rowReduce W H).invMatrix b) = b) :
    flipBitset W H 0 (solveLinAlg W H (rowReduce W H) b) = b := by
  unfold solveLinAlg
  dsimp only
  split
  · exact hp
  · exact (search_foldl_solves W H hW _ (nullSpace_quiet W H hW hH) b _ _
      (matrixMulti_lt _ _ _) hp).2

theorem particular_solves_reachable (W H : Nat) (hW : 0 < W) (hH : 0 < H) (y : Nat)
    (hy : y < 2 ^ (W * H)) :
    flipBitset W H 0 (matrixMulti (W * H) (rowReduce W H).invMatrix (flipBitset W H 0 y))
      = flipBitset W H 0 y := by
  obtain ⟨r, _, _, hg, hz, hid, _⟩ := rowReduce_spec W H hW hH
  have hb := flipBitset_lt W H 0 y hW (Nat.pos_pow_of_pos _ (by decide)) hy
  exact particular_of_low W H hW _ hg r hz hid _ hb
    (fun i hi => particular_low_of_reachable W H hW _ hg r hz y hy i hi)

theorem noPerfectSolution_iff_high_bit (W H b r : Nat) (inv ns : List Nat)
    (hns : ns = (descList (W * H) r).map (fun i => inv.getD i 0)) :
    noPerfectSolution (W * H) ns b = true ↔
      ∃ i, r ≤ i ∧ i < W * H ∧ (matrixMulti (W * H) inv b).testBit i = true := by
  unfold noPerfectSolution
  rw [List.any_eq_true]
  constructor
  · rintro ⟨k, hk, hpar⟩
    rw [List.mem_range] at hk
    have hk2 : k < (descList (W * H) r).length := by
      rw [hns, List.length_map] at hk; exact hk
    have hmem : (descList (W * H) r)[k] ∈ descList (W * H) r := List.getElem_mem _
    rw [mem_descList] at hmem
    refine ⟨(descList (W * H) r)[k], hmem.1, hmem.2, ?_⟩
    rw [testBit_matrixMulti]
    have e : ns.getD k 0 = inv.getD ((descList (W * H) r)[k]) 0 := by
      rw [List.getD_eq_getElem _ _ hk]
      simp only [hns, List.getElem_map]
    rw [e] at hpar
    simp only [hmem.2, decide_True, Bool.true_and]
    exact hpar
  · rintro ⟨i, hi1, hi2, hbit⟩
    have hmem : i ∈ descList (W * H) r := (mem_descList _ _ _).mpr ⟨hi1, hi2⟩
    obtain ⟨k, hk, hki⟩ := List.getElem_of_mem hmem
    have hk2 : k < ns.length := by rw [hns, List.length_map]; exact hk
    refine ⟨k, List.mem_range.mpr hk2, ?_⟩
    have e : ns.getD k 0 = inv.getD i 0 := by
      rw [List.getD_eq_getElem _ _ hk2]
      simp only [hns, List.getElem_map, hki]
    rw [e]
    rw [testBit_matrixMulti] at hbit
    simpa [hi2] using hbit

/-! ## The claims -/

/-- C1: on a `W x H` grid (`W ≥ 1`; `H ≥ 1` follows from `i < W * H`), `flip` at cell `i`
changes bit `j` of any board `B` exactly when `j` is a cell of the grid and `j = i` or `j` is
an orthogonal neighbour of `i` (same row `index / W` with columns `index % W` one apart, or
same column with rows one apart); every other bit, inside or outside the grid, is kept. -/
theorem flip_changes_exactly_cell_and_neighbours (W H B i j : Nat) (hW : 1 ≤ W)
    (hi : i < W * H) :
    (flip W H B i).testBit j ≠ B.testBit j ↔
      (j < W * H ∧
        (j = i ∨ (j / W = i / W ∧ (j % W = i % W + 1 ∨ i % W = j % W + 1))
          ∨ (j % W = i % W ∧ (j / W = i / W + 1 ∨ i / W = j / W + 1)))) := by
  rw [testBit_flip W H B i j hW hi, ← adj_iff_grid W i j hW]
  cases B.testBit j <;> cases adj W i j <;> by_cases h : j < W * H <;> simp [h]

theorem flip_changes_exactly_cell_and_neighbours_witness :
    (1 ≤ 3 ∧ 4 < 3 * 3) ∧
      ((flip 3 3 0 4).testBit 5 ≠ Nat.testBit 0 5 ↔
        (5 < 3 * 3 ∧
          (5 = 4 ∨ (5 / 3 = 4 / 3 ∧ (5 % 3 = 4 % 3 + 1 ∨ 4 % 3 = 5 % 3 + 1))
            ∨ (5 % 3 = 4 % 3 ∧ (5 / 3 = 4 / 3 + 1 ∨ 4 / 3 = 5 / 3 + 1))))) :=
  ⟨by decide, flip_changes_exactly_cell_and_neighbours 3 3 0 4 5 (by decide) (by decide)⟩

/-- C2: on every grid (`W, H ≥ 1`) and for every reachable target `b` (the board some press
set `y` produces from the all-off board), the move vector that `solveLinAlg(b)` writes after
`rowReduce()` reproduces `b` when replayed with `flipBoard` on the all-off board; and so does
the particular solution `invMatrix * b` combined with any subset `bs` of the null-space
vectors, whichever one the search picks. -/
theorem solveLinAlg_replay_reachable (W H b : Nat) (hW : 1 ≤ W) (hH : 1 ≤ H)
    (hreach : ∃ y, y < 2 ^ (W * H) ∧ flipBoard W H 0 y = b) :
    flipBoard W H 0 (solveLinAlg W H (rowReduce W H) b) = b ∧
    ∀ bs, flipBoard W H 0
      (genSol (rowReduce W H).nullSpace bs
        ^^^ matrixMulti (W * H) (rowReduce W H).invMatrix b) = b := by
  obtain ⟨y, hy, rfl⟩ := hreach
  unfold flipBoard
  have hp := particular_solves_reachable W H hW hH y hy
  refine ⟨solveLinAlg_solves_of_particular W H hW hH _ hp, fun bs => ?_⟩
  exact (candidate_solves W H hW _ (nullSpace_quiet W H hW hH) _ _ bs
    (matrixMulti_lt _ _ _) hp).2

set_option maxRecDepth 100000 in
theorem solveLinAlg_replay_reachable_witness :
    (1 ≤ 3 ∧ 1 ≤ 2 ∧ ∃ y, y < 2 ^ (3 * 2) ∧ flipBoard 3 2 0 y = 45) ∧
      flipBoard 3 2 0 (solveLinAlg 3 2 (rowReduce 3 2) 45) = 45 :=
  ⟨⟨by decide, by decide, 5, by decide, by decide⟩,
    (solveLinAlg_replay_reachable 3 2 45 (by decide) (by decide)
      ⟨5, by decide, by decide⟩).1⟩

/-- C3: on a grid whose null space is empty after `rowReduce()`, for every target `b` of
`W * H` bits `solveLinAlg(b)` sets the board to `invMatrix * b`, replaying that vector with
`flipBoard` on the all-off board gives exactly `b`, and no other press set does. -/
theorem solveLinAlg_unique_when_nonsingular (W H b : Nat) (hW : 1 ≤ W) (hH : 1 ≤ H)
    (hnull : (rowReduce W H).nullSpace.length = 0) (hb : b < 2 ^ (W * H)) :
    solveLinAlg W H (rowReduce W H) b = matrixMulti (W * H) (rowReduce W H).invMatrix b ∧
    flipBoard W H 0 (solveLinAlg W H (rowReduce W H) b) = b ∧
    ∀ x, x < 2 ^ (W * H) → flipBoard W H 0 x = b →
      x = solveLinAlg W H (rowReduce W H) b := by
  have hsolve : solveLinAlg W H (rowReduce W H) b
      = matrixMulti (W * H) (rowReduce W H).invMatrix b := by
    unfold solveLinAlg
    dsimp only
    rw [if_pos hnull]
  obtain ⟨r, _, hr2, hg, hz, hid, hns⟩ := rowReduce_spec W H hW hH
  have hrN : r = W * H := by
    rw [hns, List.length_map, descList_length] at hnull
    omega
  have hx0 := matrixMulti_lt (W * H) (rowReduce W H).invMatrix b
  unfold flipBoard
  refine ⟨hsolve, ?_, ?_⟩
  · rw [hsolve]
    exact particular_of_low W H hW _ hg r hz hid b hb
      (fun i hi => testBit_of_lt hx0 (by omega))
  · intro x hx hxb
    rw [hsolve]
    apply toVec_inj (W * H) _ _ hx hx0
    rw [toVec_matrixMulti, ← hxb, toVec_flipBitset W H x hW hx, Matrix.mulVec_mulVec,
      hg.2.2.2.2.1]
    symm
    apply reduced_mulVec_fix (W * H) r _ hz hid
    intro i hi
    exact absurd i.isLt (by omega)

set_option maxRecDepth 100000 in
theorem solveLinAlg_unique_when_nonsingular_witness :
    (1 ≤ 3 ∧ 1 ≤ 3 ∧ (rowReduce 3 3).nullSpace.length = 0 ∧ 257 < 2 ^ (3 * 3)) ∧
      flipBoard 3 3 0 (solveLinAlg 3 3 (rowReduce 3 3) 257) = 257 :=
  ⟨⟨by decide, by decide, by decide, by decide⟩,
    (solveLinAlg_unique_when_nonsingular 3 3 257 (by decide) (by decide) (by decide)
      (by decide)).2.1⟩

/-- C4: on every grid (`W, H ≥ 1`), every vector `v` that `rowReduce()` stores in
`nullSpace` is a quiet pattern: `flipBoard` with state `v` leaves every board `B`
unchanged, and its toggle effect on the all-off board is the zero vector. -/
theorem nullSpace_vectors_are_quiet (W H v : Nat) (hW : 1 ≤ W) (hH : 1 ≤ H)
    (hv : v ∈ (rowReduce W H).nullSpace) :
    (∀ B, flipBoard W H B v = B) ∧ flipBoard W H 0 v = 0 := by
  obtain ⟨_, hq⟩ := nullSpace_quiet W H hW hH v hv
  unfold flipBoard
  refine ⟨fun B => ?_, hq⟩
  rw [flipBitset_xor, hq, Nat.xor_zero]

set_option maxRecDepth 100000 in
theorem nullSpace_vectors_are_quiet_witness :
    (1 ≤ 4 ∧ 1 ≤ 4 ∧ 36007 ∈ (rowReduce 4 4).nullSpace) ∧ flipBoard 4 4 0 36007 = 0 :=
  ⟨⟨by decide, by decide, by decide⟩,
    (nullSpace_vectors_are_quiet 4 4 36007 (by decide) (by decide) (by decide)).2⟩

set_option maxRecDepth 100000 in
/-- C5 (the code departs from the claim): on the 5x5 grid the target 890155 is reachable
(press set 27839), the null space has two vectors, `solveLinAlg` returns a vector with 9
presses, yet the candidate `invMatrix * b` XOR both null-space vectors has 7 presses and
produces the same target. -/
theorem solveLinAlg_5x5_misses_minimum :
    flipBoard 5 5 0 27839 = 890155 ∧
    (rowReduce 5 5).nullSpace.length = 2 ∧
    bsCount 25 (solveLinAlg 5 5 (rowReduce 5 5) 890155) = 9 ∧
    bsCount 25 (genSol (rowReduce 5 5).nullSpace 3
      ^^^ matrixMulti 25 (rowReduce 5 5).invMatrix 890155) = 7 ∧
    flipBoard 5 5 0 (genSol (rowReduce 5 5).nullSpace 3
      ^^^ matrixMulti 25 (rowReduce 5 5).invMatrix 890155) = 890155 := by
  decide

set_option maxRecDepth 100000 in
/-- C6 (the code departs from the claim): on the 5x5 grid with target 1856059 (reachable,
press set 61119) `solveLinAlg` returns a vector with 9 presses, while the particular
solution XOR the single basis vector `nullSpace[1]` has only 7. -/
theorem solveLinAlg_5x5_worse_than_single_basis_vector :
    flipBoard 5 5 0 61119 = 1856059 ∧
    bsCount 25 (solveLinAlg 5 5 (rowReduce 5 5) 1856059) = 9 ∧
    bsCount 25 (matrixMulti 25 (rowReduce 5 5).invMatrix 1856059
      ^^^ (rowReduce 5 5).nullSpace.getD 1 0) = 7 := by
  decide

/-- C7: on every grid (`W, H ≥ 1`) and for every target `b` of `W * H` bits, the
solvability check of `solveLinAlg` fires (some `nullSpace` vector has odd overlap with `b`)
exactly when `b` is unreachable: no press set replayed on the all-off board gives `b`.
The null space need not be non-empty for this to hold. -/
theorem noPerfectSolution_iff_unreachable (W H b : Nat) (hW : 1 ≤ W) (hH : 1 ≤ H)
    (hb : b < 2 ^ (W * H)) :
    noPerfectSolution (W * H) (rowReduce W H).nullSpace b = true ↔
      ¬ ∃ y, y < 2 ^ (W * H) ∧ flipBoard W H 0 y = b := by
  obtain ⟨r, _, _, hg, hz, hid, hns⟩ := rowReduce_spec W H hW hH
  rw [noPerfectSolution_iff_high_bit W H b r (rowReduce W H).invMatrix _ hns]
  unfold flipBoard
  constructor
  · rintro ⟨i, hi1, _, hbit⟩ ⟨y, hy, hyb⟩
    have := particular_low_of_reachable W H hW _ hg r hz y hy i hi1
    simp only at this
    rw [hyb, hbit] at this
    exact absurd this (by decide)
  · intro hno
    by_contra hex
    apply hno
    refine ⟨matrixMulti (W * H) (rowReduce W H).invMatrix b, matrixMulti_lt _ _ _, ?_⟩
    apply particular_of_low W H hW _ hg r hz hid b hb
    intro i hi
    by_cases hiN : i < W * H
    · cases hbit : (matrixMulti (W * H) (rowReduce W H).invMatrix b).testBit i with
      | false => rfl
      | true => exact absurd ⟨i, hi, hiN, hbit⟩ hex
    · exact testBit_of_lt (matrixMulti_lt _ _ _) (by omega)

set_option maxRecDepth 100000 in
theorem noPerfectSolution_iff_unreachable_witness :
    (1 ≤ 3 ∧ 1 ≤ 2 ∧ 1 < 2 ^ (3 * 2)) ∧
      noPerfectSolution (3 * 2) (rowReduce 3 2).nullSpace 1 = true ∧
      ¬ ∃ y, y < 2 ^ (3 * 2) ∧ flipBoard 3 2 0 y = 1 :=
  ⟨⟨by decide, by decide, by decide⟩, by decide,
    (noPerfectSolution_iff_unreachable 3 2 1 (by decide) (by decide) (by decide)).mp
      (by decide)⟩

/-- C8: `flipBoard` with the same press set `S` twice restores the board `B`, and `flip` at
the same cell twice restores it as well. -/
theorem flip_twice_restores (W H B S i : Nat) :
    flipBoard W H (flipBoard W H B S) S = B ∧ flip W H (flip W H B i) i = B := by
  have key : ∀ o, flipBitset W H (flipBitset W H B o) o = B := by
    intro o
    rw [flipBitset_xor W H (flipBitset W H B o) o, flipBitset_xor W H B o, Nat.xor_assoc,
      Nat.xor_self, Nat.xor_zero]
  exact ⟨key S, key _⟩

/-- C9: row `i` of the matrix made by `buildMatrix` is the board that `flip(i)` produces
from the all-off board. -/
theorem buildMatrix_row_eq_flip (W H i : Nat) (hi : i < W * H) :
    (buildMatrix W H).getD i 0 = flip W H 0 i :=
  buildMatrix_getD W H i hi

theorem buildMatrix_row_eq_flip_witness :
    4 < 3 * 3 ∧ (buildMatrix 3 3).getD 4 0 = flip 3 3 0 4 :=
  ⟨by decide, buildMatrix_row_eq_flip 3 3 4 (by decide)⟩

set_option maxRecDepth 100000 in
/-- C10: on the 5x5 grid, the move vector that `solveLinAlg` returns after `rowReduce` for
the target with only cell (2,2) (index 12) lit, replayed with `flip` cell by cell on the
all-off board, gives exactly that target: bit 12 set and the other 24 bits clear. -/
theorem solve_5x5_centre_replays :
    pressAll 5 5 0 (solveLinAlg 5 5 (rowReduce 5 5) (bsSet 0 (2 + 5 * 2))) = bsSet 0 12
      ∧ ∀ j, j < 25 → (pressAll 5 5 0 (solveLinAlg 5 5 (rowReduce 5 5)
          (bsSet 0 (2 + 5 * 2)))).testBit j = decide (j = 12) := by
  decide

/-! ## Presses one cell at a time -/

theorem testBit_buildMatrix (W H i j : Nat) (hW : 0 < W) (hi : i < W * H) :
    ((buildMatrix W H).getD i 0).testBit j = (decide (j < W * H) && adj W i j) := by
  rw [buildMatrix_getD W H i hi, bsSet_zero,
    testBit_flipBitset_zero W H _ j hW (two_pow_lt_of_lt hi), toggleBit_two_pow W i j hW]

theorem adj_self (W i : Nat) : adj W i i = true := by
  simp [adj]

theorem xor_pows_lt (n : Nat) :
    ∀ (l : List Nat) (a : Nat), a < 2 ^ n → (∀ i ∈ l, i < n) →
      l.foldl (fun acc i => acc ^^^ 2 ^ i) a < 2 ^ n
  | [], a, ha, _ => ha
  | i :: l, a, ha, hl => by
    rw [List.foldl_cons]
    apply xor_pows_lt n l
    · exact Nat.xor_lt_two_pow ha (two_pow_lt_of_lt (hl i (List.mem_cons_self _ _)))
    · exact fun j hj => hl j (List.mem_cons_of_mem _ hj)

theorem foldl_flip_eq (W H : Nat) (hW : 0 < W) :
    ∀ (l : List Nat) (B a : Nat), a < 2 ^ (W * H) → (∀ i ∈ l, i < W * H) →
      l.foldl (flip W H) (flipBitset W H B a)
        = flipBitset W H B (l.foldl (fun acc i => acc ^^^ 2 ^ i) a)
  | [], _, _, _, _ => rfl
  | i :: l, B, a, ha, hl => by
    rw [List.foldl_cons, List.foldl_cons]
    have hi : i < W * H := hl i (List.mem_cons_self _ _)
    have hstep : flip W H (flipBitset W H B a) i = flipBitset W H B (a ^^^ 2 ^ i) := by
      unfold flip
      rw [bsSet_zero, flipBitset_xor W H (flipBitset W H B a), flipBitset_xor W H B a,
        flipBitset_xor W H B (a ^^^ 2 ^ i),
        flipBitset_xor_right W H a (2 ^ i) hW ha (two_pow_lt_of_lt hi), Nat.xor_assoc]
    rw [hstep]
    exact foldl_flip_eq W H hW l B _
      (Nat.xor_lt_two_pow ha (two_pow_lt_of_lt hi))
      (fun j hj => hl j (List.mem_cons_of_mem _ hj))

theorem testBit_xor_pows :
    ∀ (l : List Nat) (a j : Nat), l.Nodup →
      (l.foldl (fun acc i => acc ^^^ 2 ^ i) a).testBit j = xor (a.testBit j) (decide (j ∈ l))
  | [], a, j, _ => by simp
  | i :: l, a, j, hnd => by
    rw [List.foldl_cons, testBit_xor_pows l _ j (List.nodup_cons.mp hnd).2, Nat.testBit_xor,
      Nat.testBit_two_pow]
    have hni : i ∉ l := (List.nodup_cons.mp hnd).1
    by_cases hij : i = j
    · subst hij
      simp [hni]
    · have hji : ¬ (j = i) := fun h => hij h.symm
      simp [hij, hji]

theorem flipBitset_zero_right (W H B : Nat) (hW : 0 < W) : flipBitset W H B 0 = B := by
  apply Nat.eq_of_testBit_eq
  intro j
  rw [testBit_flipBitset W H B 0 j hW (Nat.pos_pow_of_pos _ (by decide))]
  simp [toggleBit]

/-! ## The forward elimination loop against its specification -/

theorem swap_state_rows (st : Mats) (p f : Nat) (hp : p < st.boardMatrix.length)
    (hf : f < st.boardMatrix.length) :
    (if p ≠ f then
        ({ boardMatrix := swapRows st.boardMatrix p f,
           identity := swapRows st.identity p f } : Mats)
      else st).boardMatrix.length = st.boardMatrix.length ∧
    ∀ i, (if p ≠ f then
        ({ boardMatrix := swapRows st.boardMatrix p f,
           identity := swapRows st.identity p f } : Mats)
      else st).boardMatrix.getD i 0
      = if i = p then st.boardMatrix.getD f 0
        else if i = f then st.boardMatrix.getD p 0 else st.boardMatrix.getD i 0 := by
  by_cases hpf : p = f
  · subst hpf
    simp only [ne_eq, not_true_eq_false, if_false]
    refine ⟨trivial, fun i => ?_⟩
    by_cases h : i = p
    · subst h; simp
    · simp [h]
  · simp only [ne_eq, hpf, not_false_eq_true, if_true]
    exact ⟨swapRows_length _ _ _, fun i => swapRows_getD _ _ _ _ hp hf hpf⟩

theorem elim_foldl_noop (col src : Nat) :
    ∀ (rows : List Nat) (st : Mats),
      (∀ r ∈ rows, (st.boardMatrix.getD r 0).testBit col = false) →
      rows.foldl (elimStep col src) st = st
  | [], _, _ => rfl
  | r :: rows, st, h => by
    rw [List.foldl_cons]
    have hr : elimStep col src st r = st := by
      unfold elimStep
      rw [h r (List.mem_cons_self _ _)]
      simp
    rw [hr]
    exact elim_foldl_noop col src rows st (fun r2 hr2 => h r2 (List.mem_cons_of_mem _ hr2))

theorem rows_below_split (f p n : Nat) (hfp : f ≤ p) (hpn : p < n) :
    List.range' (f + 1) (n - (f + 1))
      = List.range' (f + 1) (p - f) ++ List.range' (p + 1) (n - (p + 1)) := by
  have h1 : n - (f + 1) = (p - f) + (n - (p + 1)) := by omega
  have h2 : p + 1 = f + 1 + (p - f) := by omega
  rw [h1, h2, List.range'_append_1]
  congr 1
  omega

theorem forwardStep_eq_spec (n col : Nat) (s : Mats × Nat)
    (hlen : s.1.boardMatrix.length = n) (hnfr : s.2 ≤ n) :
    forwardStep n s col = forwardStepSpec n s col := by
  unfold forwardStep forwardStepSpec
  dsimp only
  rcases findPivot_spec n s.1.boardMatrix s.2 col hnfr with
    ⟨hp, _⟩ | ⟨hp1, hp2, hp3, hp4⟩
  · simp only [hp, if_true]
  · generalize findPivot n s.1.boardMatrix s.2 col = p at hp1 hp2 hp3 hp4 ⊢
    have hpne : ¬ (p = n) := by omega
    simp only [hpne, if_false]
    obtain ⟨_, hrows1⟩ := swap_state_rows s.1 p s.2 (by omega) (by omega)
    generalize (if p ≠ s.2 then
        ({ boardMatrix := swapRows s.1.boardMatrix p s.2,
           identity := swapRows s.1.identity p s.2 } : Mats)
      else s.1) = m1 at hrows1 ⊢
    rw [rows_below_split s.2 p n hp1 hp2, List.foldl_append]
    have hnoop : (List.range' (s.2 + 1) (p - s.2)).foldl (elimStep col s.2) m1 = m1 := by
      apply elim_foldl_noop
      intro r hr
      rw [List.mem_range'_1] at hr
      rw [hrows1]
      split
      · exact hp4 s.2 (Nat.le_refl _) (by omega)
      · have : ¬ (r = s.2) := by omega
        simp only [this, if_false]
        exact hp4 r (by omega) (by omega)
    rw [hnoop]

theorem forwardStep_clears_column (n col : Nat) (s : Mats × Nat)
    (hlen : s.1.boardMatrix.length = n) (hnfr : s.2 ≤ n)
    (hfound : findPivot n s.1.boardMatrix s.2 col ≠ n) :
    ∀ i, s.2 < i → ((forwardStep n s col).1.boardMatrix.getD i 0).testBit col = false := by
  unfold forwardStep
  dsimp only
  rcases findPivot_spec n s.1.boardMatrix s.2 col hnfr with
    ⟨hp, _⟩ | ⟨hp1, hp2, hp3, hp4⟩
  · exact absurd hp hfound
  · generalize findPivot n s.1.boardMatrix s.2 col = p at hp1 hp2 hp3 hp4 hfound ⊢
    simp only [hfound, if_false]
    obtain ⟨hlen1, hrows1⟩ := swap_state_rows s.1 p s.2 (by omega) (by omega)
    generalize (if p ≠ s.2 then
        ({ boardMatrix := swapRows s.1.boardMatrix p s.2,
           identity := swapRows s.1.identity p s.2 } : Mats)
      else s.1) = m1 at hlen1 hrows1 ⊢
    have hrows2 := elim_foldl_getD col s.2 (List.range' (p + 1) (n - (p + 1))) m1
      (List.nodup_range' _ _) (by rw [mem_rows_below]; omega)
      (by intro r hr; rw [mem_rows_below] at hr; omega)
    simp only [mem_rows_below] at hrows2
    have r1_nfr : (m1.boardMatrix.getD s.2 0).testBit col = true := by
      rw [hrows1]
      by_cases h : s.2 = p
      · simp only [h, if_true]; exact hp3
      · simp only [h, if_false, if_true]; exact hp3
    intro i hi
    rw [hrows2]
    split
    · rename_i hc
      rw [Nat.testBit_xor, hc.2, r1_nfr]
      rfl
    · rename_i hc
      by_cases hiN : i < n
      · by_cases hip : i ≤ p
        · rw [hrows1]
          split
          · exact hp4 s.2 (Nat.le_refl _) (by omega)
          · have : ¬ (i = s.2) := by omega
            simp only [this, if_false]
            exact hp4 i (by omega) (by omega)
        · have hb : ¬ ((m1.boardMatrix.getD i 0).testBit col = true) :=
            fun h => hc ⟨⟨by omega, hiN⟩, h⟩
          simpa using hb
      · rw [getD_of_le _ _ (by omega)]
        exact Nat.zero_testBit _

/-! ## The companion invariant, row by row -/

theorem xorRows_fold_xor (a : List Nat) (e1 e2 : Nat) (m : Nat) :
    (List.range m).foldl
        (fun acc j => if (e1 ^^^ e2).testBit j then acc ^^^ a.getD j 0 else acc) 0
      = (List.range m).foldl (fun acc j => if e1.testBit j then acc ^^^ a.getD j 0 else acc) 0
        ^^^ (List.range m).foldl
          (fun acc j => if e2.testBit j then acc ^^^ a.getD j 0 else acc) 0 := by
  induction m with
  | zero => simp
  | succ m ih =>
    simp only [List.range_succ, List.foldl_append, List.foldl_cons, List.foldl_nil]
    rw [ih, Nat.testBit_xor]
    generalize (List.range m).foldl
      (fun acc j => if e1.testBit j then acc ^^^ a.getD j 0 else acc) 0 = x
    generalize (List.range m).foldl
      (fun acc j => if e2.testBit j then acc ^^^ a.getD j 0 else acc) 0 = y
    generalize a.getD m 0 = z
    cases e1.testBit m <;> cases e2.testBit m
    · simp
    · simp [Nat.xor_assoc]
    · simp only [Bool.xor_false, if_true, Bool.false_eq_true, if_false]
      rw [Nat.xor_assoc, Nat.xor_assoc, Nat.xor_comm y]
    · simp only [Bool.xor_self, Bool.false_eq_true, if_false, if_true]
      rw [Nat.xor_assoc, ← Nat.xor_assoc z, Nat.xor_comm z y,
        Nat.xor_assoc y, Nat.xor_self, Nat.xor_zero]

theorem xorRows_xor (n : Nat) (a : List Nat) (e1 e2 : Nat) :
    xorRows n a (e1 ^^^ e2) = xorRows n a e1 ^^^ xorRows n a e2 :=
  xorRows_fold_xor a e1 e2 n

theorem xorRows_zero (n : Nat) (a : List Nat) : xorRows n a 0 = 0 := by
  have h := xorRows_xor n a 0 0
  simp only [Nat.xor_self] at h
  exact h

theorem xorRows_eq_flipBitset_fold (W H e : Nat) (hW : 0 < W) (m : Nat) (hm : m ≤ W * H) :
    (List.range m).foldl
        (fun acc j => if e.testBit j then acc ^^^ (buildMatrix W H).getD j 0 else acc) 0
      = flipBitset W H 0 (e % 2 ^ m) := by
  induction m with
  | zero =>
    simp only [List.range_zero, List.foldl_nil, Nat.pow_zero, Nat.mod_one]
    exact (flipBitset_zero_right W H 0 hW).symm
  | succ m ih =>
    have hlow : e % 2 ^ m < 2 ^ (W * H) :=
      lt_two_pow_of_le (Nat.mod_lt _ (Nat.pos_pow_of_pos _ (by decide))) (by omega)
    have hsplit : e % 2 ^ (m + 1) = e % 2 ^ m ^^^ (if e.testBit m then 2 ^ m else 0) := by
      apply Nat.eq_of_testBit_eq
      intro j
      rw [Nat.testBit_xor, Nat.testBit_mod_two_pow, Nat.testBit_mod_two_pow]
      by_cases hj : j = m
      · subst hj
        cases hb : e.testBit j <;> simp [Nat.testBit_two_pow]
      · have hne : ¬ (m = j) := fun h => hj h.symm
        have hlt : (j < m + 1) ↔ (j < m) := by omega
        cases hb : e.testBit m <;> simp [Nat.testBit_two_pow, hne, hlt]
    simp only [List.range_succ, List.foldl_append, List.foldl_cons, List.foldl_nil]
    rw [ih (by omega), hsplit]
    cases hb : e.testBit m
    · simp
    · simp only [if_true]
      rw [flipBitset_xor_right W H _ _ hW hlow (two_pow_lt_of_lt (by omega)),
        buildMatrix_getD W H m (by omega), bsSet_zero]

theorem xorRows_eq_flipBitset (W H e : Nat) (hW : 0 < W) (he : e < 2 ^ (W * H)) :
    xorRows (W * H) (buildMatrix W H) e = flipBitset W H 0 e := by
  unfold xorRows
  rw [xorRows_eq_flipBitset_fold W H e hW (W * H) (Nat.le_refl _), Nat.mod_eq_of_lt he]

theorem companionInv_of_good (W H : Nat) (hW : 0 < W) (st : Mats) (hg : Good W H st) :
    CompanionInv W H st := by
  intro i hi
  rw [xorRows_eq_flipBitset W H _ hW (hg.2.2.2.1 i)]
  exact companion_row W H hW st hg i hi

theorem companionInv_xorRow (W H : Nat) (st : Mats) (d src : Nat)
    (hl1 : st.boardMatrix.length = W * H) (hl2 : st.identity.length = W * H)
    (hinv : CompanionInv W H st) :
    CompanionInv W H
      { boardMatrix := xorRow st.boardMatrix d src, identity := xorRow st.identity d src } := by
  intro i hi
  show xorRows (W * H) (buildMatrix W H) ((xorRow st.identity d src).getD i 0)
    = (xorRow st.boardMatrix d src).getD i 0
  by_cases hd : d < W * H
  · rw [xorRow_getD _ _ _ _ (by omega), xorRow_getD _ _ _ _ (by omega)]
    by_cases hid : i = d
    · simp only [hid, if_true]
      rw [xorRows_xor, hinv d hd]
      by_cases hs : src < W * H
      · rw [hinv src hs]
      · rw [getD_of_le st.identity src (by omega), getD_of_le st.boardMatrix src (by omega),
          xorRows_zero]
    · simp only [hid, if_false]
      exact hinv i hi
  · have e1 : xorRow st.identity d src = st.identity := by
      unfold xorRow
      exact List.set_eq_of_length_le (by omega)
    have e2 : xorRow st.boardMatrix d src = st.boardMatrix := by
      unfold xorRow
      exact List.set_eq_of_length_le (by omega)
    rw [e1, e2]
    exact hinv i hi

theorem companionInv_swapRows (W H : Nat) (st : Mats) (p f : Nat)
    (hl1 : st.boardMatrix.length = W * H) (hl2 : st.identity.length = W * H)
    (hinv : CompanionInv W H st) :
    CompanionInv W H
      { boardMatrix := swapRows st.boardMatrix p f, identity := swapRows st.identity p f } := by
  have g1 := companionInv_xorRow W H st p f hl1 hl2 hinv
  have g2 := companionInv_xorRow W H
    { boardMatrix := xorRow st.boardMatrix p f, identity := xorRow st.identity p f } f p
    (by rw [xorRow_length]; exact hl1) (by rw [xorRow_length]; exact hl2) g1
  exact companionInv_xorRow W H
    { boardMatrix := xorRow (xorRow st.boardMatrix p f) f p,
      identity := xorRow (xorRow st.identity p f) f p } p f
    (by rw [xorRow_length, xorRow_length]; exact hl1)
    (by rw [xorRow_length, xorRow_length]; exact hl2) g2

/-! ## Reduced row-echelon form -/

theorem isPivot_of_unit_row (m r i p : Nat) (hi : i < r)
    (hid : ∀ j, j < r → m.testBit j = decide (i = j)) (hp : IsPivot m p) : p = i := by
  obtain ⟨hp1, hp2⟩ := hp
  rcases Nat.lt_trichotomy p i with h | h | h
  · exfalso
    have := hid p (by omega)
    rw [hp1] at this
    have hne : ¬ (i = p) := by omega
    simp [hne] at this
  · exact h
  · exfalso
    have h1 := hp2 i h
    have h2 := hid i hi
    rw [h1] at h2
    simp at h2

theorem isRREF_of_reduced (n r : Nat) (m : List Nat)
    (hz : ∀ i, r ≤ i → m.getD i 0 = 0)
    (hid : ∀ i, i < r → ∀ j, j < r → (m.getD i 0).testBit j = decide (i = j)) :
    IsRREF n m := by
  have hnz : ∀ i, i < r → m.getD i 0 ≠ 0 := by
    intro i hi h0
    have := hid i hi i hi
    rw [h0, Nat.zero_testBit] at this
    simp at this
  have hrow : ∀ i p, IsPivot (m.getD i 0) p → i < r ∧ p = i := by
    intro i p hp
    have hi : i < r := by
      by_contra hge
      have := hp.1
      rw [hz i (by omega), Nat.zero_testBit] at this
      exact absurd this (by decide)
    exact ⟨hi, isPivot_of_unit_row _ r i p hi (hid i hi) hp⟩
  refine ⟨?_, ?_, ?_⟩
  · intro i i' hii _ h0
    apply hz
    by_contra hlt
    exact hnz i (by omega) h0
  · intro i i' p p' hii _ hp hp'
    obtain ⟨_, e1⟩ := hrow i p hp
    obtain ⟨_, e2⟩ := hrow i' p' hp'
    omega
  · intro i p _ hp i' _ hne
    obtain ⟨hi, e1⟩ := hrow i p hp
    subst e1
    by_cases hi' : i' < r
    · rw [hid i' hi' p hi]
      simp [hne]
    · rw [hz i' (by omega)]
      exact Nat.zero_testBit _

/-! ## The free columns -/

theorem descList_eq_map (n r : Nat) (hr : r ≤ n) :
    descList n r = (List.range (n - r)).map (fun t => n - 1 - t) := by
  apply List.ext_getElem
  · simp [descList]
  · intro t h1 h2
    simp only [descList, List.getElem_reverse, List.getElem_range', List.getElem_map,
      List.getElem_range, List.length_range', Nat.mul_one, Nat.one_mul]
    simp only [descList, List.length_reverse, List.length_range'] at h1
    omega

/-! ## Rank of the toggle matrix -/

theorem rank_eq_of_companion (n : Nat) (E A M : Matrix (Fin n) (Fin n) (ZMod 2))
    (hE : E.det = 1) (hEA : E * A = M) : A.rank = M.rank := by
  have hunit : IsUnit E.det := by rw [hE]; exact isUnit_one
  apply Nat.le_antisymm
  · have hA : A = E⁻¹ * M := by
      rw [← hEA, ← Matrix.mul_assoc, Matrix.nonsing_inv_mul E hunit, Matrix.one_mul]
    rw [hA]
    exact Matrix.rank_mul_le_right _ _
  · rw [← hEA]
    exact Matrix.rank_mul_le_right _ _

theorem rank_of_reduced (n r : Nat) (hr : r ≤ n) (m : List Nat)
    (hz : ∀ i, r ≤ i → m.getD i 0 = 0)
    (hid : ∀ i, i < r → ∀ j, j < r → (m.getD i 0).testBit j = decide (i = j)) :
    (toMat n m).rank = r := by
  let d : Fin n → ZMod 2 := fun i => if (i : Nat) < r then 1 else 0
  have hd : ∀ i, d i = if (i : Nat) < r then 1 else 0 := fun _ => rfl
  have h1 : Matrix.diagonal d * toMat n m = toMat n m := by
    ext i j
    rw [Matrix.diagonal_mul, hd]
    by_cases hi : (i : Nat) < r
    · simp [hi]
    · rw [toMat_apply, hz i (by omega), Nat.zero_testBit]
      simp [b2z_false]
  have h2 : toMat n m * Matrix.diagonal d = Matrix.diagonal d := by
    ext i j
    rw [Matrix.mul_diagonal, Matrix.diagonal_apply, hd, hd, toMat_apply]
    by_cases hj : (j : Nat) < r
    · by_cases hi : (i : Nat) < r
      · rw [hid i hi j hj]
        by_cases hij : i = j
        · subst hij; simp [hi, b2z]
        · have : ¬ ((i : Nat) = j) := fun h => hij (Fin.ext h)
          simp [hij, this, b2z]
      · rw [hz i (by omega), Nat.zero_testBit]
        have hij : ¬ (i = j) := fun h => by rw [h] at hi; exact hi hj
        simp [hij, b2z_false]
    · by_cases hij : i = j
      · subst hij; simp [hj]
      · simp [hj, hij]
  have hD : (Matrix.diagonal d).rank = r := by
    rw [Matrix.rank_diagonal]
    have : Fintype.card { i : Fin n // d i ≠ 0 } = Fintype.card { i : Fin n // i < r } := by
      apply Fintype.card_congr
      apply Equiv.subtypeEquivRight
      intro i
      rw [hd]
      by_cases hi : (i : Nat) < r <;> simp [hi]
    rw [this]
    exact Fintype.card_fin_lt_of_le hr
  apply Nat.le_antisymm
  · calc (toMat n m).rank = (Matrix.diagonal d * toMat n m).rank := by rw [h1]
      _ ≤ (Matrix.diagonal d).rank := Matrix.rank_mul_le_left _ _
      _ = r := hD
  · calc r = (Matrix.diagonal d).rank := hD.symm
      _ = (toMat n m * Matrix.diagonal d).rank := by rw [h2]
      _ ≤ (toMat n m).rank := Matrix.rank_mul_le_left _ _

/-! ## Subset XORs of the null-space vectors as linear combinations -/

theorem genSol_bit_fold (ns : List Nat) (bs j : Nat) (m : Nat) :
    b2z (((List.range m).foldl
        (fun g t => if bs.testBit t then g ^^^ ns.getD t 0 else g) 0).testBit j)
      = ∑ t in Finset.range m, b2z (bs.testBit t) * b2z ((ns.getD t 0).testBit j) := by
  induction m with
  | zero => simp [b2z_false]
  | succ m ih =>
    simp only [List.range_succ, List.foldl_append, List.foldl_cons, List.foldl_nil]
    rw [Finset.sum_range_succ, ← ih]
    cases bs.testBit m
    · simp [b2z_false]
    · simp only [if_true, Nat.testBit_xor, b2z_xor, b2z_true, one_mul]

theorem genSol_bit (ns : List Nat) (bs j : Nat) :
    b2z ((genSol ns bs).testBit j)
      = ∑ t in Finset.range ns.length, b2z (bs.testBit t) * b2z ((ns.getD t 0).testBit j) :=
  genSol_bit_fold ns bs j ns.length

theorem nullSpace_getD (n r t : Nat) (inv ns : List Nat) (hr : r ≤ n)
    (hns : ns = (descList n r).map (fun i => inv.getD i 0)) (ht : t < n - r) :
    ns.getD t 0 = inv.getD (n - 1 - t) 0 := by
  have hlen : t < ns.length := by
    rw [hns, List.length_map, descList_length]; exact ht
  rw [List.getD_eq_getElem _ _ hlen]
  simp only [hns, List.getElem_map]
  congr 1
  have := descList_eq_map n r hr
  simp only [this, List.getElem_map, List.getElem_range]

theorem genSol_eq_vecMul (n r : Nat) (inv ns : List Nat) (hr : r ≤ n)
    (hns : ns = (descList n r).map (fun i => inv.getD i 0)) (bs : Nat) (j : Fin n) :
    b2z ((genSol ns bs).testBit j)
      = ((fun i : Fin n => if r ≤ (i : Nat) then b2z (bs.testBit (n - 1 - i)) else 0)
          ᵥ* toMat n inv) j := by
  have hk : ns.length = n - r := by rw [hns, List.length_map, descList_length]
  rw [genSol_bit, hk]
  simp only [Matrix.vecMul, Matrix.dotProduct, toMat_apply]
  rw [Fin.sum_univ_eq_sum_range
    (fun i => (if r ≤ i then b2z (bs.testBit (n - 1 - i)) else 0)
      * b2z ((inv.getD i 0).testBit j)) n,
    ← Finset.sum_range_reflect _ n]
  have hsub : Finset.range (n - r) ⊆ Finset.range n := by
    intro t ht
    rw [Finset.mem_range] at ht ⊢
    omega
  rw [← Finset.sum_subset hsub]
  · apply Finset.sum_congr rfl
    intro t ht
    rw [Finset.mem_range] at ht
    have h1 : r ≤ n - 1 - t := by omega
    have h2 : n - 1 - (n - 1 - t) = t := by omega
    rw [nullSpace_getD n r t inv ns hr hns ht]
    simp only [h1, if_true, h2]
  · intro t ht1 ht2
    rw [Finset.mem_range] at ht1 ht2
    have h1 : ¬ (r ≤ n - 1 - t) := by omega
    simp only [h1, if_false, zero_mul]

theorem nullSpace_independent (W H : Nat) (hW : 0 < W) (hH : 0 < H) (bs : Nat)
    (hbs : bs < 2 ^ (rowReduce W H).nullSpace.length)
    (h0 : genSol (rowReduce W H).nullSpace bs = 0) : bs = 0 := by
  obtain ⟨r, _, hr, hg, _, _, hns⟩ := rowReduce_spec W H hW hH
  have hk : (rowReduce W H).nullSpace.length = W * H - r := by
    rw [hns, List.length_map, descList_length]
  have hvm : (fun i : Fin (W * H) =>
      if r ≤ (i : Nat) then b2z (bs.testBit (W * H - 1 - i)) else 0)
        ᵥ* toMat (W * H) (rowReduce W H).invMatrix = 0 := by
    funext j
    rw [← genSol_eq_vecMul (W * H) r _ _ hr hns bs j, h0, Nat.zero_testBit]
    rfl
  have hc := Matrix.eq_zero_of_vecMul_eq_zero
    (by rw [hg.2.2.2.2.2]; exact one_ne_zero) hvm
  apply Nat.eq_of_testBit_eq
  intro t
  rw [Nat.zero_testBit]
  by_cases ht : t < W * H - r
  · have := congrFun hc ⟨W * H - 1 - t, by omega⟩
    have h1 : r ≤ W * H - 1 - t := by omega
    have h2 : W * H - 1 - (W * H - 1 - t) = t := by omega
    simp only [h1, if_true, h2, Pi.zero_apply] at this
    exact (b2z_eq_zero _).mp this
  · exact testBit_of_lt hbs (by omega)

theorem b2z_decide_eq_one (z : ZMod 2) : b2z (decide (z = 1)) = z := by
  rcases zmod2_cases z with h | h <;> subst h <;> rfl

theorem nullSpace_spans (W H : Nat) (hW : 0 < W) (hH : 0 < H) (q : Nat)
    (hq : q < 2 ^ (W * H)) (hquiet : flipBitset W H 0 q = 0) :
    ∃ bs, bs < 2 ^ (rowReduce W H).nullSpace.length ∧
      genSol (rowReduce W H).nullSpace bs = q := by
  obtain ⟨r, _, hr, hg, hz, hid, hns⟩ := rowReduce_spec W H hW hH
  have hk : (rowReduce W H).nullSpace.length = W * H - r := by
    rw [hns, List.length_map, descList_length]
  have hunit : IsUnit (toMat (W * H) (rowReduce W H).invMatrix).det := by
    rw [hg.2.2.2.2.2]; exact isUnit_one
  let a : Fin (W * H) → ZMod 2 :=
    toVec (W * H) q ᵥ* (toMat (W * H) (rowReduce W H).invMatrix)⁻¹
  have haE : a ᵥ* toMat (W * H) (rowReduce W H).invMatrix = toVec (W * H) q := by
    show (toVec (W * H) q ᵥ* (toMat (W * H) (rowReduce W H).invMatrix)⁻¹)
      ᵥ* toMat (W * H) (rowReduce W H).invMatrix = toVec (W * H) q
    rw [Matrix.vecMul_vecMul, Matrix.nonsing_inv_mul _ hunit, Matrix.vecMul_one]
  have haM : a ᵥ* toMat (W * H) (rowReduce W H).boardMatrix = 0 := by
    have h5 := hg.2.2.2.2.1
    simp only at h5
    rw [← h5, ← Matrix.vecMul_vecMul, haE, ← Matrix.mulVec_transpose,
      toMat_buildMatrix_symm W H hW, ← toVec_flipBitset W H q hW hq, hquiet, toVec_zero]
  have halow : ∀ i : Fin (W * H), (i : Nat) < r → a i = 0 := by
    intro i hi
    have := congrFun haM i
    simp only [Matrix.vecMul, Matrix.dotProduct, Pi.zero_apply] at this
    rw [Finset.sum_eq_single i] at this
    · rw [toMat_apply, hid i hi i hi] at this
      simpa [b2z] using this
    · intro l _ hli
      rw [toMat_apply]
      by_cases hl : (l : Nat) < r
      · rw [hid l hl i hi]
        have : ¬ ((l : Nat) = i) := fun h => hli (Fin.ext h)
        simp [this, b2z]
      · rw [hz l (by omega), Nat.zero_testBit]
        simp [b2z_false]
    · intro h
      exact absurd (Finset.mem_univ _) h
  let g : Fin (W * H - r) → ZMod 2 := fun t => a ⟨W * H - 1 - t, by omega⟩
  have hgdef : ∀ t : Fin (W * H - r), g t = a ⟨W * H - 1 - t, by omega⟩ := fun _ => rfl
  refine ⟨ofVec (W * H - r) g, by rw [hk]; exact ofVec_lt _ _, ?_⟩
  have hgen := genSol_quiet W H hW _ (nullSpace_quiet W H hW hH) (ofVec (W * H - r) g)
  apply toVec_inj (W * H) _ _ hgen.1 hq
  rw [← haE]
  funext j
  rw [toVec_apply, genSol_eq_vecMul (W * H) r _ _ hr hns _ j]
  congr 1
  funext i
  by_cases hi : r ≤ (i : Nat)
  · have hlt : W * H - 1 - (i : Nat) < W * H - r := by omega
    simp only [hi, if_true]
    rw [testBit_ofVec (W * H - r) g _ hlt, hgdef, b2z_decide_eq_one]
    congr 1
    apply Fin.ext
    show W * H - 1 - (W * H - 1 - (i : Nat)) = i
    omega
  · simp only [hi, if_false]
    exact (halow i (by omega)).symm

theorem nullSpace_card_add_rank (W H : Nat) (hW : 0 < W) (hH : 0 < H) :
    (rowReduce W H).nullSpace.length + (toMat (W * H) (buildMatrix W H)).rank = W * H := by
  obtain ⟨r, _, hr, hg, hz, hid, hns⟩ := rowReduce_spec W H hW hH
  have hk : (rowReduce W H).nullSpace.length = W * H - r := by
    rw [hns, List.length_map, descList_length]
  rw [rank_eq_of_companion (W * H) _ _ _ hg.2.2.2.2.2 hg.2.2.2.2.1,
    rank_of_reduced (W * H) r hr _ hz hid, hk]
  omega

theorem nullSpace_linearIndependent (W H : Nat) (hW : 0 < W) (hH : 0 < H) :
    LinearIndependent (ZMod 2)
      (fun t : Fin (rowReduce W H).nullSpace.length =>
        toVec (W * H) ((rowReduce W H).nullSpace.getD t 0)) := by
  rw [Fintype.linearIndependent_iff]
  intro g hg t
  have hbit : ∀ t : Fin (rowReduce W H).nullSpace.length,
      b2z ((ofVec _ g).testBit t) = g t := by
    intro t
    rw [testBit_ofVec _ g t t.isLt, b2z_decide_eq_one]
  have hgen := genSol_quiet W H hW _ (nullSpace_quiet W H hW hH) (ofVec _ g)
  have h0 : genSol (rowReduce W H).nullSpace (ofVec _ g) = 0 := by
    apply toVec_inj (W * H) _ _ hgen.1 (Nat.pos_pow_of_pos _ (by decide))
    rw [toVec_zero, ← hg]
    funext j
    rw [toVec_apply, genSol_bit,
      ← Fin.sum_univ_eq_sum_range
        (fun t => b2z ((ofVec _ g).testBit t)
          * b2z (((rowReduce W H).nullSpace.getD t 0).testBit j))
        (rowReduce W H).nullSpace.length,
      Finset.sum_apply]
    apply Finset.sum_congr rfl
    intro t _
    rw [hbit t]
    rfl
  have hbs := nullSpace_independent W H hW hH _ (ofVec_lt _ g) h0
  rw [← hbit t, hbs, Nat.zero_testBit]
  rfl

/-! ## Further claims -/

/-- C11: on every grid (`W, H ≥ 1`), after `rowReduce()` the vectors in `nullSpace` are
linearly independent over GF(2) (only the empty subset XORs to zero; also as a Mathlib
`LinearIndependent` family), `numberOfNullSpace()` is `W * H` minus the GF(2) rank of the
toggle matrix, and the quiet patterns are exactly the XORs of subsets of `nullSpace`, so
`nullSpace` is a basis of the quiet patterns. -/
theorem nullSpace_is_basis_of_quiet_patterns (W H : Nat) (hW : 1 ≤ W) (hH : 1 ≤ H) :
    (∀ bs, bs < 2 ^ numberOfNullSpace (rowReduce W H) →
      genSol (rowReduce W H).nullSpace bs = 0 → bs = 0) ∧
    LinearIndependent (ZMod 2)
      (fun t : Fin (rowReduce W H).nullSpace.length =>
        toVec (W * H) ((rowReduce W H).nullSpace.getD t 0)) ∧
    (numberOfNullSpace (rowReduce W H) = W * H - (toMat (W * H) (buildMatrix W H)).rank ∧
      (toMat (W * H) (buildMatrix W H)).rank ≤ W * H) ∧
    (∀ q, q < 2 ^ (W * H) →
      (flipBitset W H 0 q = 0 ↔
        ∃ bs, bs < 2 ^ numberOfNullSpace (rowReduce W H) ∧
          genSol (rowReduce W H).nullSpace bs = q)) := by
  have hrank := nullSpace_card_add_rank W H hW hH
  refine ⟨fun bs hbs h0 => nullSpace_independent W H hW hH bs hbs h0,
    nullSpace_linearIndependent W H hW hH, ⟨?_, ?_⟩, fun q hq => ⟨?_, ?_⟩⟩
  · unfold numberOfNullSpace
    omega
  · omega
  · exact nullSpace_spans W H hW hH q hq
  · rintro ⟨bs, _, rfl⟩
    exact (genSol_quiet W H hW _ (nullSpace_quiet W H hW hH) bs).2

set_option maxRecDepth 100000 in
theorem nullSpace_is_basis_of_quiet_patterns_witness :
    (1 ≤ 5 ∧ 1 ≤ 5) ∧
      numberOfNullSpace (rowReduce 3 3) = 0 ∧ numberOfNullSpace (rowReduce 5 5) = 2 ∧
      numberOfNullSpace (rowReduce 4 4) = 4 ∧
      numberOfNullSpace (rowReduce 5 5) = 5 * 5 - (toMat (5 * 5) (buildMatrix 5 5)).rank :=
  ⟨by decide, by decide, by decide, by decide,
    (nullSpace_is_basis_of_quiet_patterns 5 5 (by decide) (by decide)).2.2.1.1⟩

/-- C12 as stated fails on grids of width 1: there every cell is in the last and in the
first column, and the cell at `i + 1` (or `i - 1`) is the vertical neighbour, which `flip`
does toggle. On the 1x2 grid `flip(0)` changes cell 1 and `flip(1)` changes cell 0. -/
theorem flip_width_one_toggles_next_index :
    (1 ≤ 1 ∧ 1 ≤ 2 ∧ 0 % 1 = 1 - 1 ∧ 0 + 1 < 1 * 2 ∧
        (flip 1 2 0 0).testBit (0 + 1) ≠ Nat.testBit 0 (0 + 1)) ∧
      (1 % 1 = 0 ∧ 0 < 1 ∧ 1 < 1 * 2 ∧
        (flip 1 2 0 1).testBit (1 - 1) ≠ Nat.testBit 0 (1 - 1)) := by
  decide

/-- C12, amended to width at least 2: on a `W x H` grid with `W ≥ 2`, for every board `B`,
`flip` of a cell `i` in the last column (`i % W = W - 1`, `i + 1 < W * H`) leaves cell
`i + 1` unchanged, and `flip` of a cell `i` in the first column (`i % W = 0`, `0 < i`,
`i < W * H`) leaves cell `i - 1` unchanged. -/
theorem flip_no_wrap_between_rows (W H B i : Nat) (hW : 2 ≤ W) :
    (i % W = W - 1 → i + 1 < W * H → (flip W H B i).testBit (i + 1) = B.testBit (i + 1)) ∧
    (i % W = 0 → 0 < i → i < W * H → (flip W H B i).testBit (i - 1) = B.testBit (i - 1)) := by
  have hW0 : 0 < W := by omega
  constructor
  · intro hm hlt
    rw [testBit_flip W H B i (i + 1) hW0 (by omega)]
    have hz : (i + 1) % W = 0 := (succ_mod_zero W i hW0).mpr hm
    have h1 : ¬ (i = i + 1) := by omega
    have h2 : ¬ (i + W = i + 1) := by omega
    have h3 : ¬ (i + 1 + W = i) := by omega
    have h4 : ¬ (i = i + 1 + 1) := by omega
    simp [adj, h1, h2, h3, h4, hz]
  · intro hm hpos hlt
    rw [testBit_flip W H B i (i - 1) hW0 hlt]
    have h1 : ¬ (i = i - 1) := by omega
    have h2 : ¬ (i + W = i - 1) := by omega
    have h3 : ¬ (i - 1 + W = i) := by omega
    have h5 : ¬ (i + 1 = i - 1) := by omega
    simp [adj, h1, h2, h3, h5, hm]

theorem flip_no_wrap_between_rows_witness :
    (2 ≤ 3 ∧ 5 % 3 = 3 - 1 ∧ 5 + 1 < 3 * 3) ∧
      (flip 3 3 0 5).testBit (5 + 1) = Nat.testBit 0 (5 + 1) :=
  ⟨by decide, (flip_no_wrap_between_rows 3 3 0 5 (by decide)).1 (by decide) (by decide)⟩

set_option maxRecDepth 100000 in
/-- C13 (the code departs from the claim): on the 5x5 grid with the reachable target
892361 (press set 27903) the null space has two vectors and the four candidates, by subset
index 0..3, have 12, 14, 10 and 8 presses; `solveLinAlg` returns the candidate of index 2
with 10 presses, not the minimum, which is the candidate of index 3. -/
theorem solveLinAlg_5x5_returns_non_minimal_candidate :
    (rowReduce 5 5).nullSpace.length = 2 ∧
    flipBoard 5 5 0 27903 = 892361 ∧
    solveLinAlg 5 5 (rowReduce 5 5) 892361
      = (genSol (rowReduce 5 5).nullSpace 2
          ^^^ matrixMulti 25 (rowReduce 5 5).invMatrix 892361) ∧
    bsCount 25 (genSol (rowReduce 5 5).nullSpace 2
      ^^^ matrixMulti 25 (rowReduce 5 5).invMatrix 892361) = 10 ∧
    bsCount 25 (genSol (rowReduce 5 5).nullSpace 3
      ^^^ matrixMulti 25 (rowReduce 5 5).invMatrix 892361) = 8 := by
  decide

set_option maxRecDepth 100000 in
/-- C14: on the 1x1 grid `buildMatrix` gives the single row `1`, `rowReduce` leaves an
empty null space, and `solveLinAlg` sets the board to `1` for target `1` and to `0` for
target `0`. -/
theorem solve_1x1 :
    buildMatrix 1 1 = [1] ∧ (rowReduce 1 1).nullSpace = [] ∧
      solveLinAlg 1 1 (rowReduce 1 1) 1 = 1 ∧ solveLinAlg 1 1 (rowReduce 1 1) 0 = 0 := by
  decide

/-- C15: the companion invariant `CompanionInv` (for every row `i`, the XOR of the rows
`A[j]` of the toggle matrix over the set bits `j` of the companion row `i` is row `i` of the
working matrix) holds at the start of `rowReduce`, is kept by every row XOR and every row
swap applied to both matrices, and holds for `invMatrix` and `boardMatrix` after
`rowReduce()`; as matrices over GF(2), `invMatrix * A = boardMatrix`. -/
theorem companion_invariant (W H : Nat) (hW : 1 ≤ W) (hH : 1 ≤ H) :
    CompanionInv W H
      { boardMatrix := buildMatrix W H, identity := identityMatrix (W * H) } ∧
    (∀ (st : Mats) (d src : Nat), st.boardMatrix.length = W * H →
      st.identity.length = W * H → CompanionInv W H st →
      CompanionInv W H { boardMatrix := xorRow st.boardMatrix d src,
                         identity := xorRow st.identity d src }) ∧
    (∀ (st : Mats) (p f : Nat), st.boardMatrix.length = W * H →
      st.identity.length = W * H → CompanionInv W H st →
      CompanionInv W H { boardMatrix := swapRows st.boardMatrix p f,
                         identity := swapRows st.identity p f }) ∧
    CompanionInv W H
      { boardMatrix := (rowReduce W H).boardMatrix, identity := (rowReduce W H).invMatrix } ∧
    toMat (W * H) (rowReduce W H).invMatrix * toMat (W * H) (buildMatrix W H)
      = toMat (W * H) (rowReduce W H).boardMatrix := by
  obtain ⟨_, _, _, hg, _, _, _⟩ := rowReduce_spec W H hW hH
  exact ⟨companionInv_of_good W H hW _ (good_init W H hW),
    fun st d src h1 h2 h => companionInv_xorRow W H st d src h1 h2 h,
    fun st p f h1 h2 h => companionInv_swapRows W H st p f h1 h2 h,
    companionInv_of_good W H hW _ hg, hg.2.2.2.2.1⟩

theorem companion_invariant_witness :
    (1 ≤ 3 ∧ 1 ≤ 2) ∧
      CompanionInv 3 2
        { boardMatrix := (rowReduce 3 2).boardMatrix, identity := (rowReduce 3 2).invMatrix } :=
  ⟨by decide, (companion_invariant 3 2 (by decide) (by decide)).2.2.2.1⟩

/-- C16: after `rowReduce()` the working matrix `boardMatrix` has `W * H` rows and is in
reduced row-echelon form over GF(2): a zero row is followed only by zero rows, the pivot
(lowest set column) of a row is strictly greater than the pivot of any row above it, and a
pivot column has a 1 in its pivot row only. -/
theorem rowReduce_boardMatrix_isRREF (W H : Nat) (hW : 1 ≤ W) (hH : 1 ≤ H) :
    (rowReduce W H).boardMatrix.length = W * H ∧
      IsRREF (W * H) (rowReduce W H).boardMatrix := by
  obtain ⟨r, _, _, hg, hz, hid, _⟩ := rowReduce_spec W H hW hH
  exact ⟨hg.1, isRREF_of_reduced (W * H) r _ hz hid⟩

theorem rowReduce_boardMatrix_isRREF_witness :
    (1 ≤ 4 ∧ 1 ≤ 4) ∧ IsRREF (4 * 4) (rowReduce 4 4).boardMatrix :=
  ⟨by decide, (rowReduce_boardMatrix_isRREF 4 4 (by decide) (by decide)).2⟩

/-- C17: in the forward pass of `rowReduce`, at every column `col`, the step as coded
(elimination loop from `pivotRow + 1`) gives the same state as the step worded by the
specification (XOR row `nextFreeRow` into every row below `nextFreeRow` with a 1 in the
column), and when a pivot is found no row with index above `nextFreeRow` keeps a 1 in
column `col`. -/
theorem forward_elimination_matches_spec (W H col : Nat) (hW : 1 ≤ W) (hcol : col < W * H) :
    forwardStep (W * H) (forwardState W H col) col
      = forwardStepSpec (W * H) (forwardState W H col) col ∧
    (findPivot (W * H) (forwardState W H col).1.boardMatrix (forwardState W H col).2 col
        ≠ W * H →
      ∀ i, (forwardState W H col).2 < i →
        ((forwardStep (W * H) (forwardState W H col) col).1.boardMatrix.getD i 0).testBit col
          = false) := by
  have hinv : FwdInv W H col (forwardState W H col) :=
    forwardPass_fold_inv W H hW col (by omega)
  obtain ⟨hg, _, h2, _, _, _⟩ := hinv
  exact ⟨forwardStep_eq_spec (W * H) col _ hg.1 h2,
    fun hfound => forwardStep_clears_column (W * H) col _ hg.1 h2 hfound⟩

set_option maxRecDepth 100000 in
theorem forward_elimination_matches_spec_witness :
    (1 ≤ 3 ∧ 2 < 3 * 3) ∧
      forwardStep (3 * 3) (forwardState 3 3 2) 2
        = forwardStepSpec (3 * 3) (forwardState 3 3 2) 2 :=
  ⟨by decide, (forward_elimination_matches_spec 3 3 2 (by decide) (by decide)).1⟩

/-- C18: on every grid (`W ≥ 1`), for every board `B` and press set `S` of `W * H` bits,
calling `flip(i)` once for each set bit `i` of `S`, in the order of any list `l` that holds
exactly those bits, gives the same board as `flipBoard` with `S`; `flipBoard` with `S1` and
then with `S2` equals `flipBoard` with `S1 XOR S2`; and presses commute, for `flipBoard`
and for `flip`. -/
theorem flipBoard_eq_individual_presses (W H B S S1 S2 i j : Nat) (l : List Nat)
    (hW : 1 ≤ W) (hS : S < 2 ^ (W * H)) (hS1 : S1 < 2 ^ (W * H)) (hS2 : S2 < 2 ^ (W * H))
    (hnd : l.Nodup) (hlt : ∀ c ∈ l, c < W * H)
    (hbits : ∀ c, c < W * H → (c ∈ l ↔ S.testBit c = true)) :
    l.foldl (flip W H) B = flipBoard W H B S ∧
    flipBoard W H (flipBoard W H B S1) S2 = flipBoard W H B (S1 ^^^ S2) ∧
    flipBoard W H (flipBoard W H B S1) S2 = flipBoard W H (flipBoard W H B S2) S1 ∧
    flip W H (flip W H B i) j = flip W H (flip W H B j) i := by
  have hcomm : ∀ a b, flipBitset W H (flipBitset W H B a) b
      = flipBitset W H (flipBitset W H B b) a := by
    intro a b
    rw [flipBitset_xor W H (flipBitset W H B a) b, flipBitset_xor W H B a,
      flipBitset_xor W H (flipBitset W H B b) a, flipBitset_xor W H B b,
      Nat.xor_assoc, Nat.xor_assoc, Nat.xor_comm (flipBitset W H 0 a)]
  unfold flipBoard
  refine ⟨?_, ?_, hcomm S1 S2, hcomm _ _⟩
  · have h0 := foldl_flip_eq W H hW l B 0 (Nat.pos_pow_of_pos _ (by decide)) hlt
    rw [flipBitset_zero_right W H B hW] at h0
    rw [h0]
    congr 1
    apply Nat.eq_of_testBit_eq
    intro c
    rw [testBit_xor_pows l 0 c hnd, Nat.zero_testBit]
    by_cases hc : c < W * H
    · have := hbits c hc
      cases hb : S.testBit c with
      | true =>
        have : c ∈ l := this.mpr hb
        simp [this]
      | false =>
        have : c ∉ l := fun h => by
          have := this.mp h
          rw [hb] at this
          exact absurd this (by decide)
        simp [this]
    · have h1 : c ∉ l := fun h => hc (hlt c h)
      rw [testBit_of_lt hS (by omega)]
      simp [h1]
  · rw [flipBitset_xor W H (flipBitset W H B S1) S2, flipBitset_xor W H B S1,
      flipBitset_xor W H B (S1 ^^^ S2), flipBitset_xor_right W H S1 S2 hW hS1 hS2,
      Nat.xor_assoc]

theorem flipBoard_eq_individual_presses_witness :
    (1 ≤ 3 ∧ 10 < 2 ^ (3 * 3) ∧ 6 < 2 ^ (3 * 3) ∧ 3 < 2 ^ (3 * 3) ∧ [3, 1].Nodup ∧
        (∀ c ∈ [3, 1], c < 3 * 3) ∧
        (∀ c, c < 3 * 3 → (c ∈ [3, 1] ↔ Nat.testBit 10 c = true))) ∧
      [3, 1].foldl (flip 3 3) 5 = flipBoard 3 3 5 10 :=
  ⟨by decide,
    (flipBoard_eq_individual_presses 3 3 5 10 6 3 0 1 [3, 1] (by decide) (by decide)
      (by decide) (by decide) (by decide) (by decide) (by decide)).1⟩

/-- C19: the matrix built by `buildMatrix` is symmetric with an all-ones diagonal: for
`i, j < W * H`, bit `j` of row `i` equals bit `i` of row `j`, and bit `i` of row `i` is
set. -/
theorem buildMatrix_symmetric_unit_diagonal (W H i j : Nat) (hi : i < W * H)
    (hj : j < W * H) :
    ((buildMatrix W H).getD i 0).testBit j = ((buildMatrix W H).getD j 0).testBit i ∧
    ((buildMatrix W H).getD i 0).testBit i = true := by
  have hW : 0 < W := Nat.pos_of_ne_zero (fun h => by rw [h, Nat.zero_mul] at hi; omega)
  rw [testBit_buildMatrix W H i j hW hi, testBit_buildMatrix W H j i hW hj,
    testBit_buildMatrix W H i i hW hi, adj_comm W i j, adj_self]
  simp [hi, hj]

theorem buildMatrix_symmetric_unit_diagonal_witness :
    (7 < 3 * 4 ∧ 10 < 3 * 4) ∧
      ((buildMatrix 3 4).getD 7 0).testBit 10 = ((buildMatrix 3 4).getD 10 0).testBit 7 :=
  ⟨by decide, (buildMatrix_symmetric_unit_diagonal 3 4 7 10 (by decide) (by decide)).1⟩

/-- C20: with `k = nullSpace.size()`, the free-column list collected by the backward pass
of `rowReduce` is `W*H - 1, W*H - 2, ..., W*H - k` in that order; an index below `W * H` is
in the list exactly when its row of the reduced `boardMatrix` is zero; and entry `t` of
`nullSpace` is the companion row `W*H - 1 - t`, whose row of `boardMatrix` is zero. -/
theorem freeCol_are_the_zero_rows (W H : Nat) (hW : 1 ≤ W) (hH : 1 ≤ H) :
    (backwardPass (W * H) (forwardPass (W * H) (buildMatrix W H)).1).freeCol
      = (List.range (rowReduce W H).nullSpace.length).map (fun t => W * H - 1 - t) ∧
    (∀ i, i < W * H →
      (i ∈ (backwardPass (W * H) (forwardPass (W * H) (buildMatrix W H)).1).freeCol ↔
        (rowReduce W H).boardMatrix.getD i 0 = 0)) ∧
    (∀ t, t < (rowReduce W H).nullSpace.length →
      (rowReduce W H).nullSpace.getD t 0 = (rowReduce W H).invMatrix.getD (W * H - 1 - t) 0 ∧
      (rowReduce W H).boardMatrix.getD (W * H - 1 - t) 0 = 0) := by
  obtain ⟨_, h1, h2, _, _⟩ := forwardPass_result W H hW hH
  obtain ⟨_, bz, bu, _, bk⟩ := backwardPass_result W H hW hH
  generalize (forwardPass (W * H) (buildMatrix W H)).2 = r at h1 h2 bz bu bk
  have hfc : (backwardPass (W * H) (forwardPass (W * H) (buildMatrix W H)).1).freeCol
      = descList (W * H) r := by
    rcases bk with ⟨hk1, _, _⟩ | ⟨_, _, hk3⟩
    · omega
    · exact hk3
  have hns : (rowReduce W H).nullSpace
      = (descList (W * H) r).map (fun i => (rowReduce W H).invMatrix.getD i 0) := by
    show List.map _ _ = _
    rw [hfc]
    rfl
  have hk : (rowReduce W H).nullSpace.length = W * H - r := by
    rw [hns, List.length_map, descList_length]
  have hM : ∀ i, (rowReduce W H).boardMatrix.getD i 0
      = (backwardPass (W * H) (forwardPass (W * H) (buildMatrix W H)).1).m.boardMatrix.getD i 0 :=
    fun _ => rfl
  refine ⟨?_, ?_, ?_⟩
  · rw [hfc, hk]
    exact descList_eq_map (W * H) r h2
  · intro i hi
    rw [hfc, mem_descList, hM]
    constructor
    · intro h
      exact bz i h.1
    · intro h0
      refine ⟨?_, hi⟩
      by_contra hlt
      have := (bu i (by omega)).1
      rw [h0, Nat.zero_testBit] at this
      exact absurd this (by decide)
  · intro t ht
    rw [hk] at ht
    constructor
    · have hlen : t < (rowReduce W H).nullSpace.length := by rw [hk]; exact ht
      rw [List.getD_eq_getElem _ _ hlen]
      simp only [hns, List.getElem_map]
      congr 1
      have := descList_eq_map (W * H) r h2
      simp only [this, List.getElem_map, List.getElem_range]
    · rw [hM]
      exact bz _ (by omega)

set_option maxRecDepth 100000 in
theorem freeCol_are_the_zero_rows_witness :
    (1 ≤ 4 ∧ 1 ≤ 4) ∧
      (backwardPass (4 * 4) (forwardPass (4 * 4) (buildMatrix 4 4)).1).freeCol
        = [15, 14, 13, 12] :=
  ⟨by decide,
    (freeCol_are_the_zero_rows 4 4 (by decide) (by decide)).1.trans (by decide)⟩

end LightsOut
